import Mathlib

/-!
# EX6-CPP: `HashMap<KeyT, ValueT>` and `Dictionary`

A shallow embedding of `src/HashMap.hpp` and `src/Dictionary.hpp`.

Modelling conventions.

* The bucket array `_hashmap` is a `List` of buckets, a bucket (`std::vector` of pairs) is a
  `List (K × V)`. `_capacity` is kept as a field of its own, as in the source; that the array
  has `_capacity` buckets is part of the proved invariant, not of the type.
* `_capacity` is a `Nat` (it is only ever `16`, a doubling or a halving that stops at `1`);
  `_num_of_elem` is an `Int`, because `erase` decrements it without a guard. `int` is taken to be
  wide enough: no table with `2^30` buckets is considered.
* `std::hash<KeyT>` is a parameter `hash : K → Nat`. `hash_func` truncates it to a 32-bit `int`
  and masks with `_capacity - 1`; on bit patterns, and for a capacity of at least `1`, this is
  `(hash key % 2^32) &&& (capacity - 1)`.
* `get_load_factor() > (double) 3/4` is `4 * n > 3 * c` and `get_load_factor() < (double) 1/4`
  is `4 * n < c`: `(double) 3/4` parses as `((double) 3) / 4 = 0.75`, and for `int` operands the
  quotient `n / c` in `double` is at distance more than `2^-33` from `0.75` (resp. `0.25`)
  unless it is equal to it, so the rounded comparison agrees with the exact one.
* `insert` and `increase_hashmap` call each other. The embedding gives `insert` a bound on the
  nesting depth of `increase_hashmap` calls and fails with `Error.depth_exceeded` beyond it; the
  theorems show that depth `1` is enough on every reachable table.
* Exceptions are values of `Error`; every operation that can throw returns `Except Error _`.
  Reading `_hashmap[0][0]` of an empty bucket 0 is `Error.undefined_behavior`.
-/

set_option linter.unusedSectionVars false

namespace EX6

/-- Failures of the modelled code: the two standard exceptions thrown by `HashMap`, the
`InvalidKey` of `Dictionary`, undefined behaviour, and the recursion bound of the model. -/
inductive Error where
  | length_error
  | invalid_argument
  | InvalidKey
  | undefined_behavior
  | depth_exceeded
  deriving DecidableEq, Repr

/-- The three data members of `HashMap<KeyT, ValueT>`. -/
structure HashMap (K V : Type) where
  hashmap : List (List (K × V))
  capacity : Nat
  num_of_elem : Int
  deriving DecidableEq, Repr

section Defs

variable {K V : Type} [DecidableEq K]

/-- Results of the modelled operations can be compared by evaluation. -/
instance instDecidableEqExcept {ε α : Type} [DecidableEq ε] [DecidableEq α] :
    DecidableEq (Except ε α)
  | .ok a, .ok b =>
    if h : a = b then isTrue (by rw [h]) else isFalse (fun h2 => h (by cases h2; rfl))
  | .error a, .error b =>
    if h : a = b then isTrue (by rw [h]) else isFalse (fun h2 => h (by cases h2; rfl))
  | .ok _, .error _ => isFalse (fun h => by cases h)
  | .error _, .ok _ => isFalse (fun h => by cases h)

/-- Source `MIN_SIZE`. -/
def MIN_SIZE : Nat := 16

/-- A freshly allocated array `new bucket[c]` with counter `0`. -/
def fresh (c : Nat) : HashMap K V :=
  { hashmap := List.replicate c [], capacity := c, num_of_elem := 0 }

/-- Source `HashMap()`. -/
def new : HashMap K V := fresh MIN_SIZE

/-- Source `_hashmap[i]`. -/
def bucket_at (t : HashMap K V) (i : Nat) : List (K × V) := t.hashmap.getD i []

/-- Source `hash_func`: `int_key & (_capacity - 1)`. -/
def hash_func (hash : K → Nat) (t : HashMap K V) (key : K) : Nat :=
  (hash key % 2 ^ 32) &&& (t.capacity - 1)

/-- Source `get_load_factor() > (double) UPPER_LOAD_FACTOR`. -/
def load_above_upper (t : HashMap K V) : Bool :=
  decide (3 * (t.capacity : Int) < 4 * t.num_of_elem)

/-- Source `get_load_factor() < (double) LOWER_LOAD_FACTOR`. -/
def load_below_lower (t : HashMap K V) : Bool :=
  decide (4 * t.num_of_elem < (t.capacity : Int))

/-- Source `size()`. -/
def size (t : HashMap K V) : Int := t.num_of_elem

/-- Source `empty()`. -/
def empty (t : HashMap K V) : Bool := decide (t.num_of_elem = 0)

/-- Source `contains_key`: scan of the bucket `hash_func key`. -/
def contains_key (hash : K → Nat) (t : HashMap K V) (key : K) : Bool :=
  (bucket_at t (hash_func hash t key)).any (fun p => decide (p.1 = key))

/-- Source `bucket_index`. -/
def bucket_index (hash : K → Nat) (t : HashMap K V) (key : K) : Except Error Nat :=
  if contains_key hash t key then .ok (hash_func hash t key) else .error .invalid_argument

/-- The pairs visited by `for i < _capacity: for pair in _hashmap[i]`, in that order. -/
def all_pairs (t : HashMap K V) : List (K × V) :=
  (List.range t.capacity).flatMap (bucket_at t)

/-- The loops of `increase_hashmap`, `reduce_hashmap` and the copy constructor that feed
saved pairs to `insert` one after the other; `ins` is the `insert` being called. -/
def replay (ins : HashMap K V → K → V → Except Error (Bool × HashMap K V)) :
    List (K × V) → HashMap K V → Except Error (HashMap K V)
  | [], t => .ok t
  | p :: rest, t =>
    match ins t p.1 p.2 with
    | .ok r => replay ins rest r.2
    | .error e => .error e

/-- Source `_hashmap[i].push_back (p)`. -/
def push_back (t : HashMap K V) (i : Nat) (p : K × V) : List (List (K × V)) :=
  t.hashmap.modify (fun b => b ++ [p]) i

/-- Source `increase_hashmap`: save the pairs, allocate twice the capacity, reset the counter and
feed every saved pair to `insert` (`ins`). -/
def increase_hashmap (ins : HashMap K V → K → V → Except Error (Bool × HashMap K V))
    (t : HashMap K V) : Except Error (HashMap K V) :=
  replay ins (all_pairs t) (fresh (t.capacity * 2))

/-- Source `insert`. The first argument bounds the nesting depth of `increase_hashmap` calls. -/
def insert (hash : K → Nat) :
    Nat → HashMap K V → K → V → Except Error (Bool × HashMap K V)
  | depth, t, key, value =>
    if contains_key hash t key then .ok (false, t)
    else
      let t1 : HashMap K V :=
        { t with hashmap := push_back t (hash_func hash t key) (key, value),
                 num_of_elem := t.num_of_elem + 1 }
      if load_above_upper t1 then
        match depth with
        | 0 => .error .depth_exceeded
        | d + 1 =>
          match increase_hashmap (insert hash d) t1 with
          | .ok t2 => .ok (true, t2)
          | .error e => .error e
      else .ok (true, t1)

/-- The `while` loop of `reduce_hashmap` on `_capacity`, with `n = _num_of_elem`; the first
argument bounds the number of iterations (`reduce_hashmap` passes the capacity itself, which the
halving cannot outlast). -/
def reduce_capacity (n : Int) : Nat → Nat → Nat
  | 0, c => c
  | steps + 1, c =>
    if 4 * n < (c : Int) ∧ 1 < c then reduce_capacity n steps (c / 2) else c

/-- Source `reduce_hashmap`: save the pairs, halve the capacity while the load factor is below `1/4`
and the capacity above `1`, allocate, reset the counter and feed every saved pair to `insert`. -/
def reduce_hashmap (ins : HashMap K V → K → V → Except Error (Bool × HashMap K V))
    (t : HashMap K V) : Except Error (HashMap K V) :=
  replay ins (all_pairs t)
    (fresh (reduce_capacity t.num_of_elem t.capacity t.capacity))

/-- Source `_hashmap[i].erase (it)` for the first `it` with `it->first == key`. -/
def erase_first (t : HashMap K V) (i : Nat) (key : K) : List (List (K × V)) :=
  t.hashmap.modify (List.eraseP (fun p => decide (p.1 = key))) i

/-- Source `erase` of the base table. -/
def erase (hash : K → Nat) (depth : Nat) (t : HashMap K V) (key : K) :
    Except Error (Bool × HashMap K V) :=
  if contains_key hash t key then
    match bucket_index hash t key with
    | .error e => .error e
    | .ok cur =>
      if (bucket_at t cur).any (fun p => decide (p.1 = key)) then
        let t1 : HashMap K V :=
          { t with hashmap := erase_first t cur key, num_of_elem := t.num_of_elem - 1 }
        if load_below_lower t1 then
          match reduce_hashmap (insert hash depth) t1 with
          | .ok t2 => .ok (true, t2)
          | .error e => .error e
        else .ok (true, t1)
      else .ok (false, t)
  else .ok (false, t)

/-- The scan `for (auto& pair : _hashmap[cur]) if (pair.first == key) return pair.second;`
followed by the fallback `return _hashmap[0][0].second;`. -/
def scan_value (t : HashMap K V) (cur : Nat) (key : K) : Except Error V :=
  match (bucket_at t cur).find? (fun p => decide (p.1 = key)) with
  | some p => .ok p.2
  | none =>
    match bucket_at t 0 with
    | p :: _ => .ok p.2
    | [] => .error .undefined_behavior

/-- Source `at` (both overloads, as a read). -/
def at_ (hash : K → Nat) (t : HashMap K V) (key : K) : Except Error V :=
  if contains_key hash t key then
    match bucket_index hash t key with
    | .error e => .error e
    | .ok cur => scan_value t cur key
  else .error .invalid_argument

/-- Whether a call `at (key)` that passed the `contains_key` test leaves its scan without a match
and so reaches `return _hashmap[0][0].second;`. -/
def at_reaches_fallback (hash : K → Nat) (t : HashMap K V) (key : K) : Bool :=
  contains_key hash t key &&
    ((bucket_at t (hash_func hash t key)).find? (fun p => decide (p.1 = key))).isNone

/-- Position of the first pair with the given key in a bucket. -/
def find_pos (key : K) : List (K × V) → Option Nat
  | [] => none
  | p :: rest => if p.1 = key then some 0 else (find_pos key rest).map (· + 1)

/-- The scan of the mutable accessors, returning the place of the referenced `pair.second` as
(bucket index, position in the bucket); the fallback is the place `(0, 0)`. -/
def scan_slot (t : HashMap K V) (cur : Nat) (key : K) : Except Error (Nat × Nat) :=
  match find_pos key (bucket_at t cur) with
  | some j => .ok (cur, j)
  | none =>
    match bucket_at t 0 with
    | _ :: _ => .ok (0, 0)
    | [] => .error .undefined_behavior

/-- Assignment through a reference returned by a mutable accessor. -/
def write_slot (t : HashMap K V) (slot : Nat × Nat) (value : V) : HashMap K V :=
  { t with hashmap :=
      t.hashmap.modify (fun b => b.modify (fun p => (p.1, value)) slot.2) slot.1 }

/-- The mutable `at`: the place of the returned reference. -/
def at_mut (hash : K → Nat) (t : HashMap K V) (key : K) : Except Error (Nat × Nat) :=
  if contains_key hash t key then
    match bucket_index hash t key with
    | .error e => .error e
    | .ok cur => scan_slot t cur key
  else .error .invalid_argument

/-- The statement `m.at (key) = value`. -/
def at_assign (hash : K → Nat) (t : HashMap K V) (key : K) (value : V) :
    Except Error (HashMap K V) :=
  match at_mut hash t key with
  | .ok slot => .ok (write_slot t slot value)
  | .error e => .error e

/-- The non-const `operator[]`: the table after the possible `insert (key, ValueT())` and the
place of the returned reference in it. -/
def operator_index [Inhabited V] (hash : K → Nat) (depth : Nat) (t : HashMap K V) (key : K) :
    Except Error (HashMap K V × (Nat × Nat)) :=
  match (if contains_key hash t key then Except.ok (false, t)
         else insert hash depth t key default) with
  | .error e => .error e
  | .ok r =>
    match bucket_index hash r.2 key with
    | .error e => .error e
    | .ok cur =>
      match scan_slot r.2 cur key with
      | .ok slot => .ok (r.2, slot)
      | .error e => .error e

/-- The statement `m[key] = value` through the non-const `operator[]`. -/
def index_assign [Inhabited V] (hash : K → Nat) (depth : Nat) (t : HashMap K V) (key : K)
    (value : V) : Except Error (HashMap K V) :=
  match operator_index hash depth t key with
  | .ok r => .ok (write_slot r.1 r.2 value)
  | .error e => .error e

/-- The const `operator[]`. -/
def operator_index_const (hash : K → Nat) (t : HashMap K V) (key : K) : Except Error V :=
  if contains_key hash t key then
    match bucket_index hash t key with
    | .error e => .error e
    | .ok cur => scan_value t cur key
  else
    match bucket_at t 0 with
    | p :: _ => .ok p.2
    | [] => .error .undefined_behavior

/-- Source `_hashmap[i].clear()` for the first `n` buckets. -/
def clear_buckets : Nat → List (List (K × V)) → List (List (K × V))
  | 0, bs => bs
  | _ + 1, [] => []
  | n + 1, _ :: bs => [] :: clear_buckets n bs

/-- Source `clear`; the counter is reset inside the loop over the buckets. -/
def clear (t : HashMap K V) : HashMap K V :=
  { hashmap := clear_buckets t.capacity t.hashmap,
    capacity := t.capacity,
    num_of_elem := if t.capacity = 0 then t.num_of_elem else 0 }

/-- The loop of the constructor from two vectors, over the zipped pairs. -/
def from_vectors_loop [Inhabited V] (hash : K → Nat) (depth : Nat) :
    List (K × V) → HashMap K V → Except Error (HashMap K V)
  | [], t => .ok t
  | p :: rest, t =>
    match insert hash depth t p.1 p.2 with
    | .error e => .error e
    | .ok r =>
      if r.1 then from_vectors_loop hash depth rest r.2
      else
        match index_assign hash depth r.2 p.1 p.2 with
        | .ok t2 => from_vectors_loop hash depth rest t2
        | .error e => .error e

/-- Source `HashMap (keys, values)`. -/
def from_vectors [Inhabited V] (hash : K → Nat) (depth : Nat) (keys : List K)
    (values : List V) : Except Error (HashMap K V) :=
  if keys.length ≠ values.length then .error .length_error
  else from_vectors_loop hash depth (keys.zip values) new

/-- Source `HashMap (const HashMap&)`: allocate the same capacity and insert every pair. The
source reads the loop bound `_capacity` again at every round; the embedding fixes it to the
capacity of the copied table, which is the same as long as no `insert` of the loop grows the new
table (`copy_spec`: none does when the copied table is within the load bound). -/
def copy (hash : K → Nat) (depth : Nat) (copied_hm : HashMap K V) :
    Except Error (HashMap K V) :=
  replay (insert hash depth) (all_pairs copied_hm) (fresh copied_hm.capacity)

/-- Source `operator=` with a right-hand side other than `*this`: the buckets and the two counters are
copied over. -/
def operator_assign (rhs : HashMap K V) : HashMap K V :=
  { hashmap := (List.range rhs.capacity).map (bucket_at rhs),
    capacity := rhs.capacity,
    num_of_elem := rhs.num_of_elem }

/-- The double loop of `operator==` over the pairs of the left-hand side. -/
def operator_eq_loop [DecidableEq V] (hash : K → Nat) (rhs : HashMap K V) :
    List (K × V) → Except Error Bool
  | [] => .ok true
  | p :: rest =>
    if !contains_key hash rhs p.1 then .ok false
    else
      match at_ hash rhs p.1 with
      | .error e => .error e
      | .ok v => if p.2 ≠ v then .ok false else operator_eq_loop hash rhs rest

/-- Source `operator==`. -/
def operator_eq [DecidableEq V] (hash : K → Nat) (lhs rhs : HashMap K V) :
    Except Error Bool :=
  if lhs.num_of_elem ≠ size rhs then .ok false
  else operator_eq_loop hash rhs (all_pairs lhs)

/-- Source `operator!=`. -/
def operator_ne [DecidableEq V] (hash : K → Nat) (lhs rhs : HashMap K V) :
    Except Error Bool :=
  match operator_eq hash lhs rhs with
  | .ok b => .ok (!b)
  | .error e => .error e

/-- Source `ConstIterator` without its `_map` pointer: the table is passed to the operations. -/
structure ConstIterator where
  bucket_index : Nat
  pair_index : Nat
  deriving DecidableEq, Repr

/-- The loop `while (i < _capacity && _hashmap[i].empty()) i++`; the first argument bounds the
number of iterations (callers pass `_capacity - i`). -/
def skip_empty (t : HashMap K V) : Nat → Nat → Nat
  | 0, i => i
  | steps + 1, i =>
    if i < t.capacity ∧ (bucket_at t i).isEmpty then skip_empty t steps (i + 1) else i

/-- Source `cbegin` / `begin`. -/
def cbegin (t : HashMap K V) : ConstIterator :=
  { bucket_index := skip_empty t t.capacity 0, pair_index := 0 }

/-- Source `cend` / `end`. -/
def cend (t : HashMap K V) : ConstIterator :=
  { bucket_index := t.capacity, pair_index := 0 }

/-- Source `ConstIterator::operator++`. The bucket read at an index past the array (an
increment of `end()`, undefined in the source) is taken to be empty. -/
def operator_inc (t : HashMap K V) (it : ConstIterator) : ConstIterator :=
  let cur_bucket := bucket_at t it.bucket_index
  let moved : ConstIterator :=
    if cur_bucket.length ≤ it.pair_index + 1 then
      { bucket_index := it.bucket_index + 1, pair_index := 0 }
    else { bucket_index := it.bucket_index, pair_index := it.pair_index + 1 }
  { bucket_index := skip_empty t (t.capacity - moved.bucket_index) moved.bucket_index,
    pair_index := moved.pair_index }

/-- Source `ConstIterator::operator*`; `none` where the position holds no pair. -/
def operator_deref (t : HashMap K V) (it : ConstIterator) : Option (K × V) :=
  (bucket_at t it.bucket_index)[it.pair_index]?

/-- Source `Dictionary::erase`: the outcome of the call, which is the value returned or the
exception thrown by `throw InvalidKey (NO_KEY_FOUND)`, together with the dictionary the call
leaves behind. A failure of the base `erase` itself is passed on. -/
def Dictionary_erase (hash : String → Nat) (depth : Nat) (d : HashMap String String)
    (key : String) : Except Error (Except Error Bool × HashMap String String) :=
  match erase hash depth d key with
  | .error e => .error e
  | .ok r => if !r.1 then .ok (.error .InvalidKey, r.2) else .ok (.ok true, r.2)

/-- Source `Dictionary::update` over the pairs between the two iterators. -/
def Dictionary_update (hash : String → Nat) (depth : Nat) :
    List (String × String) → HashMap String String → Except Error (HashMap String String)
  | [], d => .ok d
  | p :: rest, d =>
    match index_assign hash depth d p.1 p.2 with
    | .ok d1 => Dictionary_update hash depth rest d1
    | .error e => .error e

end Defs

/-- The structural invariant of a table: the array has `capacity` buckets, the capacity is
positive, every pair sits in the bucket its key hashes to, no key is stored twice, and the
counter is the number of stored pairs. -/
structure Inv {K V : Type} [DecidableEq K] (hash : K → Nat) (t : HashMap K V) : Prop where
  len : t.hashmap.length = t.capacity
  cap_pos : 0 < t.capacity
  placed : ∀ i p, p ∈ bucket_at t i → hash_func hash t p.1 = i
  nodup : ((all_pairs t).map Prod.fst).Nodup
  count : t.num_of_elem = ((all_pairs t).length : Int)

/-- The invariant of reachable tables: the structural invariant, a load factor of at most `3/4`
and a capacity that is a power of two. -/
structure WF {K V : Type} [DecidableEq K] (hash : K → Nat) (t : HashMap K V) : Prop where
  inv : Inv hash t
  load : 4 * t.num_of_elem ≤ 3 * (t.capacity : Int)
  pow2 : ∃ j : Nat, t.capacity = 2 ^ j

/-- Tables that a program can build: the constructors, and every public mutating operation
applied to a table built before. An operation that fails yields no table. -/
inductive Reachable {K V : Type} [DecidableEq K] [Inhabited V] (hash : K → Nat) :
    HashMap K V → Prop
  | default : Reachable hash new
  | from_vectors (depth : Nat) (keys : List K) (values : List V) (t : HashMap K V) :
      from_vectors hash depth keys values = .ok t → Reachable hash t
  | copy (depth : Nat) (t t1 : HashMap K V) :
      Reachable hash t → copy hash depth t = .ok t1 → Reachable hash t1
  | operator_assign (t : HashMap K V) :
      Reachable hash t → Reachable hash (operator_assign t)
  | insert (depth : Nat) (t : HashMap K V) (key : K) (value : V) (r : Bool × HashMap K V) :
      Reachable hash t → insert hash depth t key value = .ok r → Reachable hash r.2
  | erase (depth : Nat) (t : HashMap K V) (key : K) (r : Bool × HashMap K V) :
      Reachable hash t → erase hash depth t key = .ok r → Reachable hash r.2
  | operator_index (depth : Nat) (t : HashMap K V) (key : K)
      (r : HashMap K V × (Nat × Nat)) :
      Reachable hash t → operator_index hash depth t key = .ok r → Reachable hash r.1
  | index_assign (depth : Nat) (t : HashMap K V) (key : K) (value : V) (t1 : HashMap K V) :
      Reachable hash t → index_assign hash depth t key value = .ok t1 → Reachable hash t1
  | at_assign (t : HashMap K V) (key : K) (value : V) (t1 : HashMap K V) :
      Reachable hash t → at_assign hash t key value = .ok t1 → Reachable hash t1
  | clear (t : HashMap K V) : Reachable hash t → Reachable hash (clear t)

/-- The table in the middle of `insert`, after `push_back` and `_num_of_elem++` and before the
load factor test. -/
def inserted {K V : Type} (hash : K → Nat) (t : HashMap K V) (key : K) (value : V) :
    HashMap K V :=
  { t with hashmap := push_back t (hash_func hash t key) (key, value),
           num_of_elem := t.num_of_elem + 1 }

/-- The table in the middle of `erase`, after the pair is removed and `_num_of_elem--` and
before the load factor test. -/
def erased {K V : Type} [DecidableEq K] (hash : K → Nat) (t : HashMap K V) (key : K) :
    HashMap K V :=
  { t with hashmap := erase_first t (hash_func hash t key) key,
           num_of_elem := t.num_of_elem - 1 }

/-- The pairs of `t1` are those of `t` with `key` now bound to `value`: the pair of `key` is
`(key, value)` and the pairs of the other keys are the same. -/
def Updated {K V : Type} (t t1 : HashMap K V) (key : K) (value : V) : Prop :=
  ∀ q : K × V, q ∈ all_pairs t1 ↔ (q = (key, value) ∨ (q ∈ all_pairs t ∧ q.1 ≠ key))

/-- The value of the last pair with the given key in a sequence of pairs. -/
def last_value {K V : Type} [DecidableEq K] : List (K × V) → K → Option V
  | [], _ => none
  | p :: rest, key =>
    match last_value rest key with
    | some v => some v
    | none => if p.1 = key then some p.2 else none

/-- The identity on `Nat` as the hash of concrete runs. -/
def demo_hash : Nat → Nat := fun k => k

/-- The table built by the constructor from the keys `0, ..., n - 1` and the values
`0, 10, ..., 10 * (n - 1)`. -/
def demo_table (n : Nat) : HashMap Nat Nat :=
  match from_vectors demo_hash 1 (List.range n) ((List.range n).map (fun k => 10 * k)) with
  | .ok t => t
  | .error _ => new

/-- A run of `erase` calls, one per key of the list. -/
def erase_all {K V : Type} [DecidableEq K] (hash : K → Nat) (depth : Nat) :
    List K → HashMap K V → Except Error (HashMap K V)
  | [], t => .ok t
  | k :: rest, t =>
    match erase hash depth t k with
    | .ok r => erase_all hash depth rest r.2
    | .error e => .error e

/-- The table of thirteen after `erase` of the keys `12, 11, 10, 9, 8`: eight pairs at
capacity 32. -/
def demo_eight : HashMap Nat Nat :=
  match erase_all demo_hash 0 [12, 11, 10, 9, 8] (demo_table 13) with
  | .ok t => t
  | .error _ => new

/-- Number of pairs stored in the buckets before bucket `i`. -/
def pairs_before {K V : Type} (t : HashMap K V) (i : Nat) : Nat :=
  ((List.range i).flatMap (bucket_at t)).length

/-- Rank of an iterator position in the iteration order. -/
def rank {K V : Type} (t : HashMap K V) (it : ConstIterator) : Nat :=
  pairs_before t it.bucket_index + it.pair_index

/-- The positions an iterator of the table can take: a stored pair, or the end. -/
def ValidIt {K V : Type} (t : HashMap K V) (it : ConstIterator) : Prop :=
  (it.bucket_index < t.capacity ∧ it.pair_index < (bucket_at t it.bucket_index).length) ∨
    it = cend t

/-- The iterator after `n` applications of `operator++`. -/
def advance {K V : Type} (t : HashMap K V) : Nat → ConstIterator → ConstIterator
  | 0, it => it
  | n + 1, it => operator_inc t (advance t n it)

/-- A call on a table object that can change it. -/
inductive Op (K V : Type) where
  | insert (key : K) (value : V)
  | erase (key : K)
  | index (key : K)
  | index_assign (key : K) (value : V)
  | at_assign (key : K) (value : V)
  | clear

/-- The table after one call. -/
def apply_op {K V : Type} [DecidableEq K] [Inhabited V] (hash : K → Nat) (depth : Nat) :
    Op K V → HashMap K V → Except Error (HashMap K V)
  | .insert k v, t =>
    match insert hash depth t k v with
    | .ok r => .ok r.2
    | .error e => .error e
  | .erase k, t =>
    match erase hash depth t k with
    | .ok r => .ok r.2
    | .error e => .error e
  | .index k, t =>
    match operator_index hash depth t k with
    | .ok r => .ok r.1
    | .error e => .error e
  | .index_assign k v, t => index_assign hash depth t k v
  | .at_assign k v, t => at_assign hash t k v
  | .clear, t => .ok (clear t)

/-- The table after a sequence of calls. -/
def run {K V : Type} [DecidableEq K] [Inhabited V] (hash : K → Nat) (depth : Nat) :
    List (Op K V) → HashMap K V → Except Error (HashMap K V)
  | [], t => .ok t
  | op :: rest, t =>
    match apply_op hash depth op t with
    | .ok t1 => run hash depth rest t1
    | .error e => .error e

/-- What one call writes, on the record `m` of the value last written for each key:
`insert` and a read `m[k]` write only for a key without a value, `m.at (k) = v` writes only for
a key with a value, `m[k] = v` always writes, `erase` and `clear` remove. -/
def write_op {K V : Type} [DecidableEq K] [Inhabited V] :
    Op K V → (K → Option V) → K → Option V
  | .insert k v, m => fun x =>
    if x = k then (match m k with | some w => some w | none => some v) else m x
  | .erase k, m => fun x => if x = k then none else m x
  | .index k, m => fun x =>
    if x = k then (match m k with | some w => some w | none => some default) else m x
  | .index_assign k v, m => fun x => if x = k then some v else m x
  | .at_assign k v, m => fun x =>
    if x = k then (match m k with | some _ => some v | none => none) else m x
  | .clear, _ => fun _ => none

/-- The value last written for each key by a sequence of calls, starting from the record `m`. -/
def last_written {K V : Type} [DecidableEq K] [Inhabited V] :
    List (Op K V) → (K → Option V) → K → Option V
  | [], m => m
  | op :: rest, m => last_written rest (write_op op m)

/-- What `at` does for a key whose last written value is recorded as `r`: return it, or throw
when there is none. -/
def at_result {V : Type} (r : Option V) : Except Error V :=
  match r with
  | some v => .ok v
  | none => .error .invalid_argument

/-- A sequence of calls for concrete runs: a rejected `insert`, assignments and an `erase`. -/
def demo_ops : List (Op Nat Nat) :=
  [.insert 1 10, .insert 1 20, .index_assign 2 5, .index_assign 2 7, .index 3, .at_assign 3 9,
    .insert 4 40, .erase 4]

/-- The table after the calls `demo_ops` on a default-constructed table. -/
def demo_run : HashMap Nat Nat :=
  match run demo_hash 1 demo_ops new with
  | .ok t => t
  | .error _ => new

/-- The pairs of the table are the record `m`. -/
def Agrees {K V : Type} (t : HashMap K V) (m : K → Option V) : Prop :=
  ∀ k v, (k, v) ∈ all_pairs t ↔ m k = some v

/-- A hash of strings for concrete runs. -/
def demo_string_hash (s : String) : Nat :=
  s.data.foldl (fun h c => 31 * h + c.toNat) 7

/-- The dictionary after `update` with the pairs `("a", "1"), ("b", "3"), ("a", "2")` on a
default-constructed one. -/
def demo_dict : HashMap String String :=
  match Dictionary_update demo_string_hash 1 [("a", "1"), ("b", "3"), ("a", "2")] new with
  | .ok d => d
  | .error _ => new

/-- The table after the calls `demo_insert_erase` on a default-constructed table: the keys
`0, 1, 2` at capacity 16. -/
def demo_three : HashMap Nat Nat :=
  match run demo_hash 1 [.insert 0 0, .insert 1 10, .erase 7, .insert 2 20] new with
  | .ok t => t
  | .error _ => new

/-- Whether a call is an `insert` or an `erase`. -/
def insert_or_erase {K V : Type} : Op K V → Bool
  | .insert _ _ => true
  | .erase _ => true
  | _ => false

/-- The invariant of the tables reached from a default-constructed one by `insert` and `erase`
calls alone: the invariant of reachable tables and, when the capacity exceeds `1`, a load
factor of at least `1/4`, unless the table is at capacity 16 with at most three pairs. -/
def Settled {K V : Type} [DecidableEq K] (hash : K → Nat) (t : HashMap K V) : Prop :=
  WF hash t ∧
    (1 < t.capacity →
      (t.capacity : Int) ≤ 4 * t.num_of_elem ∨ (t.capacity = 16 ∧ t.num_of_elem ≤ 3))

/-- A sequence of `insert` and `erase` calls for concrete runs; the `erase` of key 7 finds
nothing. -/
def demo_insert_erase : List (Op Nat Nat) :=
  [.insert 0 0, .insert 1 10, .erase 7, .insert 2 20]

/-! ## Lists of buckets -/

section Lists

variable {α : Type}

theorem getD_modify (f : List α → List α) (i j : Nat) (l : List (List α)) :
    (List.modify f i l).getD j [] =
      if j = i ∧ i < l.length then f (l.getD i []) else l.getD j [] := by
  induction l generalizing i j with
  | nil => simp
  | cons b bs ih =>
    cases i with
    | zero =>
      cases j with
      | zero => simp
      | succ j => simp
    | succ i =>
      cases j with
      | zero => simp
      | succ j => simpa using ih i j

theorem perm_flatten_modify (f : List α → List α) (x : α) :
    ∀ (i : Nat) (l : List (List α)), i < l.length → (f (l.getD i [])).Perm (x :: l.getD i []) →
      (List.modify f i l).flatten.Perm (x :: l.flatten)
  | _, [], h, _ => by simp at h
  | 0, b :: bs, _, hp => by
    simp at hp
    simpa using hp.append_right bs.flatten
  | i + 1, b :: bs, h, hp => by
    simp at hp h
    have ih := perm_flatten_modify f x i bs h (by simpa using hp)
    simp
    exact (ih.append_left b).trans List.perm_middle

theorem perm_flatten_modify_remove (f : List α → List α) (x : α) :
    ∀ (i : Nat) (l : List (List α)), i < l.length → (l.getD i []).Perm (x :: f (l.getD i [])) →
      l.flatten.Perm (x :: (List.modify f i l).flatten)
  | _, [], h, _ => by simp at h
  | 0, b :: bs, _, hp => by
    simp at hp
    simpa using hp.append_right bs.flatten
  | i + 1, b :: bs, h, hp => by
    simp at hp h
    have ih := perm_flatten_modify_remove f x i bs h (by simpa using hp)
    simp
    exact (ih.append_left b).trans List.perm_middle

theorem flatMap_range_getD (l : List (List α)) :
    (List.range l.length).flatMap (fun i => l.getD i []) = l.flatten := by
  induction l with
  | nil => simp
  | cons b bs ih =>
    rw [List.length_cons, List.range_succ_eq_map]
    simp [List.flatMap_map, Function.comp_def]
    simpa using ih

end Lists

/-! ## Lookups under the invariant -/

section Lookup

variable {K V : Type} {hash : K → Nat}

theorem all_pairs_eq_flatten {t : HashMap K V} (h : t.hashmap.length = t.capacity) :
    all_pairs t = t.hashmap.flatten := by
  unfold all_pairs
  rw [← h]
  exact flatMap_range_getD t.hashmap

theorem hash_func_lt {t : HashMap K V} (h : 0 < t.capacity) (key : K) :
    hash_func hash t key < t.capacity := by
  have := @Nat.and_le_right (hash key % 2 ^ 32) (t.capacity - 1)
  unfold hash_func
  omega

theorem mem_all_pairs {t : HashMap K V} {p : K × V} :
    p ∈ all_pairs t ↔ ∃ i, i < t.capacity ∧ p ∈ bucket_at t i := by
  simp [all_pairs]

theorem bucket_sublist {t : HashMap K V} (h : t.hashmap.length = t.capacity) (i : Nat) :
    (bucket_at t i).Sublist (all_pairs t) := by
  rw [all_pairs_eq_flatten h]
  unfold bucket_at
  by_cases hi : i < t.hashmap.length
  · rw [List.getD_eq_getElem _ _ hi]
    exact List.sublist_flatten_of_mem (List.getElem_mem hi)
  · rw [List.getD_eq_default _ _ (by omega)]
    exact List.nil_sublist _

variable [DecidableEq K]

theorem Inv.mem_iff {t : HashMap K V} (h : Inv hash t) (p : K × V) :
    p ∈ all_pairs t ↔ p ∈ bucket_at t (hash_func hash t p.1) := by
  rw [mem_all_pairs]
  constructor
  · rintro ⟨i, _, hp⟩
    rw [h.placed i p hp]
    exact hp
  · intro hp
    exact ⟨_, hash_func_lt h.cap_pos p.1, hp⟩

theorem Inv.bucket_nodup {t : HashMap K V} (h : Inv hash t) (i : Nat) :
    ((bucket_at t i).map Prod.fst).Nodup :=
  h.nodup.sublist ((bucket_sublist h.len i).map Prod.fst)

theorem find_key_of_mem (key : K) (value : V) :
    ∀ (b : List (K × V)), (b.map Prod.fst).Nodup → (key, value) ∈ b →
      b.find? (fun p => decide (p.1 = key)) = some (key, value)
  | [], _, h => by simp at h
  | p :: rest, hn, h => by
    rw [List.map_cons, List.nodup_cons] at hn
    rcases List.mem_cons.1 h with h1 | h1
    · subst h1
      simp
    · have hne : p.1 ≠ key := by
        intro he
        apply hn.1
        rw [he]
        exact List.mem_map.2 ⟨(key, value), h1, rfl⟩
      rw [List.find?_cons_of_neg _ (by simpa using hne)]
      exact find_key_of_mem key value rest hn.2 h1

theorem find_key_none (key : K) :
    ∀ (b : List (K × V)), b.any (fun p => decide (p.1 = key)) = false →
      b.find? (fun p => decide (p.1 = key)) = none
  | [], _ => rfl
  | p :: rest, h => by
    simp only [List.any_cons, Bool.or_eq_false_iff] at h
    rw [List.find?_cons_of_neg _ (by simpa using h.1)]
    exact find_key_none key rest h.2

theorem contains_key_iff_bucket {t : HashMap K V} {key : K} :
    contains_key hash t key = true ↔ ∃ v, (key, v) ∈ bucket_at t (hash_func hash t key) := by
  unfold contains_key
  rw [List.any_eq_true]
  constructor
  · rintro ⟨⟨k, v⟩, hp, he⟩
    have he2 : k = key := by simpa using he
    subst he2
    exact ⟨v, hp⟩
  · rintro ⟨v, hv⟩
    exact ⟨(key, v), hv, by simp⟩

theorem Inv.contains_key_iff {t : HashMap K V} (h : Inv hash t) (key : K) :
    contains_key hash t key = true ↔ ∃ v, (key, v) ∈ all_pairs t := by
  rw [contains_key_iff_bucket]
  constructor
  · rintro ⟨v, hv⟩
    exact ⟨v, (h.mem_iff (key, v)).2 hv⟩
  · rintro ⟨v, hv⟩
    exact ⟨v, (h.mem_iff (key, v)).1 hv⟩

theorem Inv.contains_key_iff_keys {t : HashMap K V} (h : Inv hash t) (key : K) :
    contains_key hash t key = true ↔ key ∈ (all_pairs t).map Prod.fst := by
  rw [h.contains_key_iff, List.mem_map]
  constructor
  · rintro ⟨v, hv⟩
    exact ⟨(key, v), hv, rfl⟩
  · rintro ⟨⟨k, v⟩, hp, he⟩
    have he2 : k = key := he
    subst he2
    exact ⟨v, hp⟩

theorem at_of_not_contains {t : HashMap K V} {key : K} (h : contains_key hash t key = false) :
    at_ hash t key = .error .invalid_argument := by
  simp [at_, h]

theorem at_of_contains {t : HashMap K V} {key : K} (h : contains_key hash t key = true) :
    at_ hash t key = scan_value t (hash_func hash t key) key := by
  simp [at_, bucket_index, h]

theorem Inv.at_of_mem {t : HashMap K V} (h : Inv hash t) {key : K} {value : V}
    (hm : (key, value) ∈ all_pairs t) : at_ hash t key = .ok value := by
  have hc : contains_key hash t key = true := (h.contains_key_iff key).2 ⟨value, hm⟩
  have hb := (h.mem_iff (key, value)).1 hm
  rw [at_of_contains hc, scan_value, find_key_of_mem key value _ (h.bucket_nodup _) hb]

theorem Inv.at_eq_ok_iff {t : HashMap K V} (h : Inv hash t) (key : K) (value : V) :
    at_ hash t key = .ok value ↔ (key, value) ∈ all_pairs t := by
  constructor
  · intro ha
    by_cases hc : contains_key hash t key = true
    · obtain ⟨v, hv⟩ := (h.contains_key_iff key).1 hc
      rw [h.at_of_mem hv] at ha
      cases ha
      exact hv
    · rw [at_of_not_contains (by simpa using hc)] at ha
      cases ha
  · exact h.at_of_mem

/-- Two tables that store the same pairs for a key answer `contains_key` and `at` alike. -/
theorem same_lookup {t t1 : HashMap K V} (h : Inv hash t) (h1 : Inv hash t1) (key : K)
    (hm : ∀ v, (key, v) ∈ all_pairs t1 ↔ (key, v) ∈ all_pairs t) :
    contains_key hash t1 key = contains_key hash t key ∧ at_ hash t1 key = at_ hash t key := by
  by_cases hc : contains_key hash t key = true
  · obtain ⟨v, hv⟩ := (h.contains_key_iff key).1 hc
    have hv1 := (hm v).2 hv
    refine ⟨?_, ?_⟩
    · rw [hc]
      exact (h1.contains_key_iff key).2 ⟨v, hv1⟩
    · rw [h.at_of_mem hv, h1.at_of_mem hv1]
  · have hc0 : contains_key hash t key = false := by simpa using hc
    have hc1 : contains_key hash t1 key = false := by
      cases hx : contains_key hash t1 key with
      | false => rfl
      | true =>
        obtain ⟨v, hv⟩ := (h1.contains_key_iff key).1 hx
        exact absurd ((h.contains_key_iff key).2 ⟨v, (hm v).1 hv⟩) hc
    exact ⟨by rw [hc0, hc1], by rw [at_of_not_contains hc0, at_of_not_contains hc1]⟩

end Lookup

/-! ## `insert` and the rehash loop -/

section Insert

variable {K V : Type} [DecidableEq K] {hash : K → Nat}

theorem bucket_at_fresh (c i : Nat) : bucket_at (fresh c : HashMap K V) i = [] := by
  unfold bucket_at fresh
  by_cases hi : i < c
  · rw [List.getD_eq_getElem _ _ (by simpa using hi)]
    simp
  · rw [List.getD_eq_default _ _ (by simpa using hi)]

theorem all_pairs_fresh (c : Nat) : all_pairs (fresh c : HashMap K V) = [] := by
  simp [all_pairs, bucket_at_fresh]

theorem contains_key_fresh (c : Nat) (key : K) :
    contains_key hash (fresh c : HashMap K V) key = false := by
  simp [contains_key, bucket_at_fresh]

theorem inv_fresh {c : Nat} (hc : 0 < c) : Inv hash (fresh c : HashMap K V) where
  len := by simp [fresh]
  cap_pos := hc
  placed := by
    intro i p hp
    rw [bucket_at_fresh] at hp
    cases hp
  nodup := by simp [all_pairs_fresh]
  count := by
    rw [all_pairs_fresh]
    rfl

theorem insert_of_contains {t : HashMap K V} {key : K} (value : V) (depth : Nat)
    (h : contains_key hash t key = true) : insert hash depth t key value = .ok (false, t) := by
  unfold insert
  simp [h]

theorem insert_of_not_above {t : HashMap K V} {key : K} (value : V) (depth : Nat)
    (h : contains_key hash t key = false)
    (hl : load_above_upper (inserted hash t key value) = false) :
    insert hash depth t key value = .ok (true, inserted hash t key value) := by
  unfold insert
  unfold inserted at hl
  simp [h, hl, inserted]

theorem insert_of_above {t : HashMap K V} {key : K} (value : V) (depth : Nat)
    (h : contains_key hash t key = false)
    (hl : load_above_upper (inserted hash t key value) = true) :
    insert hash (depth + 1) t key value =
      match increase_hashmap (insert hash depth) (inserted hash t key value) with
      | .ok t2 => .ok (true, t2)
      | .error e => .error e := by
  rw [insert]
  unfold inserted at hl
  simp [h, hl, inserted]

theorem bucket_at_inserted {t : HashMap K V} (key : K) (value : V) (i : Nat)
    (h : hash_func hash t key < t.hashmap.length) :
    bucket_at (inserted hash t key value) i =
      if i = hash_func hash t key then bucket_at t i ++ [(key, value)] else bucket_at t i := by
  unfold bucket_at inserted push_back
  simp only [getD_modify]
  by_cases hi : i = hash_func hash t key
  · simp [hi, h]
  · simp [hi]

theorem hash_func_inserted (t : HashMap K V) (key : K) (value : V) (k : K) :
    hash_func hash (inserted hash t key value) k = hash_func hash t k := rfl

theorem all_pairs_inserted {t : HashMap K V} (h : Inv hash t) (key : K) (value : V) :
    (all_pairs (inserted hash t key value)).Perm ((key, value) :: all_pairs t) := by
  have hlt : hash_func hash t key < t.hashmap.length := by
    rw [h.len]
    exact hash_func_lt h.cap_pos key
  have hlen : (inserted hash t key value).hashmap.length = (inserted hash t key value).capacity := by
    simp [inserted, push_back, h.len]
  rw [all_pairs_eq_flatten hlen, all_pairs_eq_flatten h.len]
  exact perm_flatten_modify _ _ _ _ hlt (List.perm_append_singleton _ _)

theorem inv_inserted {t : HashMap K V} (h : Inv hash t) {key : K} (value : V)
    (hk : contains_key hash t key = false) : Inv hash (inserted hash t key value) where
  len := by simp [inserted, push_back, h.len]
  cap_pos := h.cap_pos
  placed := by
    intro i p hp
    rw [hash_func_inserted]
    rw [bucket_at_inserted key value i (by rw [h.len]; exact hash_func_lt h.cap_pos key)] at hp
    by_cases hi : i = hash_func hash t key
    · rw [if_pos hi] at hp
      rcases List.mem_append.1 hp with h1 | h1
      · exact h.placed i p h1
      · rw [List.mem_singleton.1 h1, hi]
    · rw [if_neg hi] at hp
      exact h.placed i p hp
  nodup := by
    rw [((all_pairs_inserted h key value).map Prod.fst).nodup_iff, List.map_cons, List.nodup_cons]
    refine ⟨?_, h.nodup⟩
    intro hm
    rw [← h.contains_key_iff_keys, hk] at hm
    cases hm
  count := by
    rw [(all_pairs_inserted h key value).length_eq]
    simp [inserted, h.count]

/-- The rehash loop on a table that has room for all the pairs: every pair is inserted and the
table does not grow. -/
theorem replay_spec (depth : Nat) :
    ∀ (l : List (K × V)) (t : HashMap K V), Inv hash t → (l.map Prod.fst).Nodup →
      (∀ p ∈ l, contains_key hash t p.1 = false) →
      4 * (t.num_of_elem + (l.length : Int)) ≤ 3 * (t.capacity : Int) →
      ∃ t1, replay (insert hash depth) l t = .ok t1 ∧ Inv hash t1 ∧
        t1.capacity = t.capacity ∧ (all_pairs t1).Perm (l ++ all_pairs t)
  | [], t, h, _, _, _ => ⟨t, rfl, h, rfl, List.Perm.refl _⟩
  | p :: rest, t, h, hn, hk, hl => by
    rw [List.map_cons, List.nodup_cons] at hn
    have hkp : contains_key hash t p.1 = false := hk p (List.mem_cons_self _ _)
    have hload : load_above_upper (inserted hash t p.1 p.2) = false := by
      simp only [load_above_upper, inserted, decide_eq_false_iff_not, not_lt]
      simp only [List.length_cons] at hl
      push_cast at hl
      omega
    have hI := inv_inserted h p.2 hkp
    have hperm := all_pairs_inserted h p.1 p.2
    have hk1 : ∀ q ∈ rest, contains_key hash (inserted hash t p.1 p.2) q.1 = false := by
      intro q hq
      cases hx : contains_key hash (inserted hash t p.1 p.2) q.1 with
      | false => rfl
      | true =>
        exfalso
        rw [hI.contains_key_iff_keys, (hperm.map Prod.fst).mem_iff, List.map_cons,
          List.mem_cons] at hx
        rcases hx with hx | hx
        · exact hn.1 (hx ▸ List.mem_map.2 ⟨q, hq, rfl⟩)
        · rw [← h.contains_key_iff_keys, hk q (List.mem_cons_of_mem _ hq)] at hx
          cases hx
    have hl1 : 4 * ((inserted hash t p.1 p.2).num_of_elem + (rest.length : Int)) ≤
        3 * ((inserted hash t p.1 p.2).capacity : Int) := by
      simp only [List.length_cons] at hl
      push_cast at hl
      simp only [inserted]
      omega
    obtain ⟨t1, hr, hI1, hc1, hp1⟩ :=
      replay_spec depth rest (inserted hash t p.1 p.2) hI hn.2 hk1 hl1
    refine ⟨t1, ?_, hI1, hc1, ?_⟩
    · rw [replay, insert_of_not_above p.2 depth hkp hload]
      exact hr
    · refine hp1.trans ?_
      refine (List.Perm.append_left rest hperm).trans ?_
      simp

end Insert

/-! ## `insert` on a table within the load bound -/

section InsertSpec

variable {K V : Type} [DecidableEq K] {hash : K → Nat}

theorem insert_zero_of_above {t : HashMap K V} {key : K} (value : V)
    (h : contains_key hash t key = false)
    (hl : load_above_upper (inserted hash t key value) = true) :
    insert hash 0 t key value = .error .depth_exceeded := by
  rw [insert]
  unfold inserted at hl
  simp [h, hl]

/-- The capacity after a successful `insert` of a new key: doubled when the new load factor
exceeds `3/4`, unchanged otherwise. -/
theorem insert_spec (depth : Nat) {t : HashMap K V} (h : Inv hash t)
    (hl : 4 * t.num_of_elem ≤ 3 * (t.capacity : Int)) {key : K} (value : V)
    (hk : contains_key hash t key = false) :
    ∃ t1, insert hash (depth + 1) t key value = .ok (true, t1) ∧ Inv hash t1 ∧
      (all_pairs t1).Perm ((key, value) :: all_pairs t) ∧
      t1.capacity = (if 3 * (t.capacity : Int) < 4 * (t.num_of_elem + 1)
        then t.capacity * 2 else t.capacity) ∧
      4 * t1.num_of_elem ≤ 3 * (t1.capacity : Int) := by
  have hI := inv_inserted h value hk
  have hperm := all_pairs_inserted h key value
  have hcp := h.cap_pos
  cases hab : load_above_upper (inserted hash t key value) with
  | false =>
    have hnot : ¬ 3 * (t.capacity : Int) < 4 * (t.num_of_elem + 1) := by
      simpa [load_above_upper, inserted] using hab
    refine ⟨inserted hash t key value, insert_of_not_above value _ hk hab, hI, hperm, ?_, ?_⟩
    · rw [if_neg hnot]
      rfl
    · simp only [inserted]
      omega
  | true =>
    have hyes : 3 * (t.capacity : Int) < 4 * (t.num_of_elem + 1) := by
      simpa [load_above_upper, inserted] using hab
    have hlen : ((all_pairs (inserted hash t key value)).length : Int) = t.num_of_elem + 1 := by
      rw [← hI.count]
      rfl
    obtain ⟨t1, hr, hI1, hc1, hp1⟩ := replay_spec depth (all_pairs (inserted hash t key value))
      (fresh ((inserted hash t key value).capacity * 2)) (inv_fresh (by simp [inserted]; omega))
      hI.nodup (fun p _ => contains_key_fresh _ _)
      (by
        rw [hlen]
        simp only [fresh, inserted]
        push_cast
        omega)
    refine ⟨t1, ?_, hI1, ?_, ?_, ?_⟩
    · rw [insert_of_above value depth hk hab, increase_hashmap, hr]
    · rw [all_pairs_fresh, List.append_nil] at hp1
      exact hp1.trans hperm
    · rw [if_pos hyes, hc1]
      rfl
    · rw [hI1.count, hp1.length_eq, all_pairs_fresh, List.append_nil, hlen, hc1]
      simp only [fresh, inserted]
      push_cast
      omega

/-- Whatever the recursion bound, an `insert` of a new key that returns has done what
`insert_spec` describes. -/
theorem insert_ok_spec {depth : Nat} {t : HashMap K V} (h : Inv hash t)
    (hl : 4 * t.num_of_elem ≤ 3 * (t.capacity : Int)) {key : K} {value : V}
    (hk : contains_key hash t key = false) {r : Bool × HashMap K V}
    (hr : insert hash depth t key value = .ok r) :
    r.1 = true ∧ Inv hash r.2 ∧ (all_pairs r.2).Perm ((key, value) :: all_pairs t) ∧
      r.2.capacity = (if 3 * (t.capacity : Int) < 4 * (t.num_of_elem + 1)
        then t.capacity * 2 else t.capacity) ∧
      4 * r.2.num_of_elem ≤ 3 * (r.2.capacity : Int) := by
  cases depth with
  | succ d =>
    obtain ⟨t1, h1, h2⟩ := insert_spec d h hl value hk
    rw [h1] at hr
    cases hr
    exact ⟨rfl, h2⟩
  | zero =>
    cases hab : load_above_upper (inserted hash t key value) with
    | true =>
      rw [insert_zero_of_above value hk hab] at hr
      cases hr
    | false =>
      obtain ⟨t1, h1, h2⟩ := insert_spec 0 h hl value hk
      rw [insert_of_not_above value _ hk hab] at hr h1
      cases hr
      cases h1
      exact ⟨rfl, h2⟩

end InsertSpec

/-! ## `erase` and the shrinking loop -/

section EraseSpec

variable {K V : Type} [DecidableEq K] {hash : K → Nat}

theorem perm_eraseP_key (key : K) (value : V) :
    ∀ (b : List (K × V)), (b.map Prod.fst).Nodup → (key, value) ∈ b →
      b.Perm ((key, value) :: b.eraseP (fun p => decide (p.1 = key)))
  | [], _, h => by simp at h
  | p :: rest, hn, h => by
    rw [List.map_cons, List.nodup_cons] at hn
    by_cases hp : p.1 = key
    · have hpe : p = (key, value) := by
        rcases List.mem_cons.1 h with h1 | h1
        · exact h1.symm
        · exact absurd (hp ▸ List.mem_map.2 ⟨(key, value), h1, rfl⟩) hn.1
      rw [List.eraseP_cons_of_pos (by simpa using hp), hpe]
    · have hm : (key, value) ∈ rest := by
        rcases List.mem_cons.1 h with h1 | h1
        · exact absurd (by rw [← h1]) hp
        · exact h1
      rw [List.eraseP_cons_of_neg (by simpa using hp)]
      exact ((perm_eraseP_key key value rest hn.2 hm).cons p).trans (List.Perm.swap _ _ _)

theorem bucket_at_erased {t : HashMap K V} (key : K) (i : Nat)
    (h : hash_func hash t key < t.hashmap.length) :
    bucket_at (erased hash t key) i =
      if i = hash_func hash t key
      then (bucket_at t i).eraseP (fun p => decide (p.1 = key)) else bucket_at t i := by
  unfold bucket_at erased erase_first
  simp only [getD_modify]
  by_cases hi : i = hash_func hash t key
  · simp [hi, h]
  · simp [hi]

theorem all_pairs_erased {t : HashMap K V} (h : Inv hash t) {key : K} {value : V}
    (hm : (key, value) ∈ all_pairs t) :
    (all_pairs t).Perm ((key, value) :: all_pairs (erased hash t key)) := by
  have hlt : hash_func hash t key < t.hashmap.length := by
    rw [h.len]
    exact hash_func_lt h.cap_pos key
  have hlen : (erased hash t key).hashmap.length = (erased hash t key).capacity := by
    simp [erased, erase_first, h.len]
  rw [all_pairs_eq_flatten hlen, all_pairs_eq_flatten h.len]
  exact perm_flatten_modify_remove _ _ _ _ hlt
    (perm_eraseP_key key value _ (h.bucket_nodup _) ((h.mem_iff (key, value)).1 hm))

theorem inv_erased {t : HashMap K V} (h : Inv hash t) {key : K} {value : V}
    (hm : (key, value) ∈ all_pairs t) : Inv hash (erased hash t key) where
  len := by simp [erased, erase_first, h.len]
  cap_pos := h.cap_pos
  placed := by
    intro i p hp
    rw [bucket_at_erased key i (by rw [h.len]; exact hash_func_lt h.cap_pos key)] at hp
    have hp2 : p ∈ bucket_at t i := by
      by_cases hi : i = hash_func hash t key
      · rw [if_pos hi] at hp
        exact (List.eraseP_sublist _).subset hp
      · rw [if_neg hi] at hp
        exact hp
    exact h.placed i p hp2
  nodup := by
    have hn := h.nodup
    rw [((all_pairs_erased h hm).map Prod.fst).nodup_iff, List.map_cons, List.nodup_cons] at hn
    exact hn.2
  count := by
    have hc := h.count
    rw [(all_pairs_erased h hm).length_eq, List.length_cons] at hc
    push_cast at hc
    show t.num_of_elem - 1 = _
    omega

theorem reduce_capacity_spec (n : Int) :
    ∀ (steps c : Nat), c ≤ steps →
      ¬ (4 * n < (reduce_capacity n steps c : Int) ∧ 1 < reduce_capacity n steps c) ∧
      reduce_capacity n steps c ≤ c ∧
      (0 < c → 0 < reduce_capacity n steps c) ∧
      (reduce_capacity n steps c < c → 4 * n ≤ 2 * (reduce_capacity n steps c : Int)) ∧
      ((∃ j : Nat, c = 2 ^ j) → ∃ j : Nat, reduce_capacity n steps c = 2 ^ j)
  | 0, c, hc => by
    have : c = 0 := by omega
    subst this
    simp [reduce_capacity]
  | steps + 1, c, hc => by
    rw [reduce_capacity]
    by_cases hcond : 4 * n < (c : Int) ∧ 1 < c
    · rw [if_pos hcond]
      obtain ⟨h1, h2, h3, h4, h5⟩ := reduce_capacity_spec n steps (c / 2) (by omega)
      refine ⟨h1, by omega, fun _ => h3 (by omega), fun _ => ?_, ?_⟩
      · by_cases hlt : reduce_capacity n steps (c / 2) < c / 2
        · exact h4 hlt
        · have : reduce_capacity n steps (c / 2) = c / 2 := by omega
          rw [this]
          have := hcond.1
          omega
      · rintro ⟨j, hj⟩
        apply h5
        cases j with
        | zero => omega
        | succ j =>
          refine ⟨j, ?_⟩
          rw [hj, pow_succ]
          omega
    · rw [if_neg hcond]
      exact ⟨hcond, le_refl _, fun h => h, fun h => absurd h (lt_irrefl _), fun h => h⟩

theorem erase_of_not_contains {t : HashMap K V} {key : K} (depth : Nat)
    (h : contains_key hash t key = false) : erase hash depth t key = .ok (false, t) := by
  simp [erase, h]

theorem erase_of_contains {t : HashMap K V} {key : K} (depth : Nat)
    (h : contains_key hash t key = true) :
    erase hash depth t key =
      if load_below_lower (erased hash t key) then
        match reduce_hashmap (insert hash depth) (erased hash t key) with
        | .ok t2 => .ok (true, t2)
        | .error e => .error e
      else .ok (true, erased hash t key) := by
  have h2 : (bucket_at t (hash_func hash t key)).any (fun p => decide (p.1 = key)) = true := h
  simp only [erase, h, bucket_index, if_true, h2]
  rfl

/-- What `erase` of a stored key does, for every recursion bound: the pair is removed, the
other pairs stay, and the capacity is the one the shrinking loop computes. -/
theorem erase_spec (depth : Nat) {t : HashMap K V} (h : Inv hash t)
    (hl : 4 * t.num_of_elem ≤ 3 * (t.capacity : Int)) {key : K} {value : V}
    (hm : (key, value) ∈ all_pairs t) :
    ∃ t1, erase hash depth t key = .ok (true, t1) ∧ Inv hash t1 ∧
      (all_pairs t).Perm ((key, value) :: all_pairs t1) ∧
      t1.capacity = (if 4 * (t.num_of_elem - 1) < (t.capacity : Int)
        then reduce_capacity (t.num_of_elem - 1) t.capacity t.capacity else t.capacity) ∧
      4 * t1.num_of_elem ≤ 3 * (t1.capacity : Int) := by
  have hc : contains_key hash t key = true := (h.contains_key_iff key).2 ⟨value, hm⟩
  have hI := inv_erased h hm
  have hperm := all_pairs_erased h hm
  have hlen : ((all_pairs (erased hash t key)).length : Int) = t.num_of_elem - 1 := by
    rw [← hI.count]
    rfl
  rw [erase_of_contains depth hc]
  cases hb : load_below_lower (erased hash t key) with
  | false =>
    have hnot : ¬ 4 * (t.num_of_elem - 1) < (t.capacity : Int) := by
      simpa [load_below_lower, erased] using hb
    refine ⟨erased hash t key, by simp, hI, hperm, ?_, ?_⟩
    · rw [if_neg hnot]
      rfl
    · simp only [erased]
      omega
  | true =>
    have hyes : 4 * (t.num_of_elem - 1) < (t.capacity : Int) := by
      simpa [load_below_lower, erased] using hb
    obtain ⟨h1, h2, h3, h4, _⟩ :=
      reduce_capacity_spec (t.num_of_elem - 1) t.capacity t.capacity (le_refl _)
    have hpos := h3 h.cap_pos
    obtain ⟨t1, hr, hI1, hc1, hp1⟩ := replay_spec depth (all_pairs (erased hash t key))
      (fresh (reduce_capacity (t.num_of_elem - 1) t.capacity t.capacity))
      (inv_fresh hpos) hI.nodup (fun p _ => contains_key_fresh _ _)
      (by
        rw [hlen]
        simp only [fresh]
        by_cases hlt : reduce_capacity (t.num_of_elem - 1) t.capacity t.capacity < t.capacity
        · have := h4 hlt
          omega
        · have : reduce_capacity (t.num_of_elem - 1) t.capacity t.capacity = t.capacity := by
            omega
          rw [this]
          omega)
    have hred : reduce_hashmap (insert hash depth) (erased hash t key) = .ok t1 := hr
    rw [all_pairs_fresh, List.append_nil] at hp1
    refine ⟨t1, by simp [hred], hI1, hperm.trans (hp1.symm.cons _), ?_, ?_⟩
    · rw [if_pos hyes, hc1]
      rfl
    · rw [hI1.count, hp1.length_eq, hlen, hc1]
      simp only [fresh]
      by_cases hlt : reduce_capacity (t.num_of_elem - 1) t.capacity t.capacity < t.capacity
      · have := h4 hlt
        omega
      · have : reduce_capacity (t.num_of_elem - 1) t.capacity t.capacity = t.capacity := by
          omega
        rw [this]
        omega

end EraseSpec

/-! ## The recursion bound is monotone -/

section Mono

variable {K V : Type} [DecidableEq K] {hash : K → Nat}

theorem replay_mono {ins ins1 : HashMap K V → K → V → Except Error (Bool × HashMap K V)}
    (hi : ∀ t k v r, ins t k v = .ok r → ins1 t k v = .ok r) :
    ∀ (l : List (K × V)) (t r : HashMap K V), replay ins l t = .ok r → replay ins1 l t = .ok r
  | [], _, _, h => h
  | p :: rest, t, r, h => by
    rw [replay] at h ⊢
    cases hx : ins t p.1 p.2 with
    | error e =>
      rw [hx] at h
      cases h
    | ok r0 =>
      rw [hx] at h
      rw [hi _ _ _ _ hx]
      exact replay_mono hi rest r0.2 r h

theorem insert_mono :
    ∀ (depth : Nat) (t : HashMap K V) (key : K) (value : V) (r : Bool × HashMap K V),
      insert hash depth t key value = .ok r → insert hash (depth + 1) t key value = .ok r := by
  intro depth
  induction depth with
  | zero =>
    intro t key value r h
    cases hc : contains_key hash t key with
    | true =>
      rw [insert_of_contains value _ hc] at h ⊢
      exact h
    | false =>
      cases hab : load_above_upper (inserted hash t key value) with
      | false =>
        rw [insert_of_not_above value _ hc hab] at h ⊢
        exact h
      | true =>
        rw [insert_zero_of_above value hc hab] at h
        cases h
  | succ d ih =>
    intro t key value r h
    cases hc : contains_key hash t key with
    | true =>
      rw [insert_of_contains value _ hc] at h ⊢
      exact h
    | false =>
      cases hab : load_above_upper (inserted hash t key value) with
      | false =>
        rw [insert_of_not_above value _ hc hab] at h ⊢
        exact h
      | true =>
        rw [insert_of_above value _ hc hab] at h ⊢
        cases hx : increase_hashmap (insert hash d) (inserted hash t key value) with
        | error e =>
          rw [hx] at h
          cases h
        | ok t2 =>
          rw [hx] at h
          have h2 : increase_hashmap (insert hash (d + 1)) (inserted hash t key value) = .ok t2 :=
            replay_mono ih _ _ _ hx
          rw [h2]
          exact h

theorem insert_mono_le {d d1 : Nat} (hd : d ≤ d1) {t : HashMap K V} {key : K} {value : V}
    {r : Bool × HashMap K V} (h : insert hash d t key value = .ok r) :
    insert hash d1 t key value = .ok r := by
  induction hd with
  | refl => exact h
  | step _ ih => exact insert_mono _ _ _ _ _ ih

end Mono

/-! ## Writing through a reference -/

section Write

variable {K V : Type} [DecidableEq K] {hash : K → Nat}

theorem find_pos_of_any (key : K) :
    ∀ (b : List (K × V)), b.any (fun p => decide (p.1 = key)) = true →
      ∃ j, find_pos key b = some j
  | [], h => by simp at h
  | p :: rest, h => by
    by_cases hp : p.1 = key
    · exact ⟨0, by simp [find_pos, hp]⟩
    · have h2 : rest.any (fun p => decide (p.1 = key)) = true := by
        simpa [hp] using h
      obtain ⟨j, hj⟩ := find_pos_of_any key rest h2
      exact ⟨j + 1, by simp [find_pos, hp, hj]⟩

theorem map_fst_modify (value : V) :
    ∀ (j : Nat) (b : List (K × V)),
      (List.modify (fun p => (p.1, value)) j b).map Prod.fst = b.map Prod.fst
  | _, [] => by simp
  | 0, p :: rest => by simp
  | j + 1, p :: rest => by simp [map_fst_modify value j rest]

theorem mem_modify_of_find_pos (key : K) (value : V) :
    ∀ (b : List (K × V)) (j : Nat), (b.map Prod.fst).Nodup → find_pos key b = some j →
      ∀ q : K × V, q ∈ List.modify (fun p => (p.1, value)) j b ↔
        (q = (key, value) ∨ (q ∈ b ∧ q.1 ≠ key))
  | [], _, _, h => by simp [find_pos] at h
  | p :: rest, j, hn, h => by
    rw [List.map_cons, List.nodup_cons] at hn
    intro q
    by_cases hp : p.1 = key
    · have hj : j = 0 := by simpa [find_pos, hp] using h.symm
      subst hj
      rw [List.modify_zero_cons, List.mem_cons, List.mem_cons, hp]
      constructor
      · rintro (h1 | h1)
        · exact Or.inl h1
        · refine Or.inr ⟨Or.inr h1, ?_⟩
          intro hq
          apply hn.1
          rw [hp, ← hq]
          exact List.mem_map.2 ⟨q, h1, rfl⟩
      · rintro (h1 | ⟨h1 | h1, h2⟩)
        · exact Or.inl h1
        · exact absurd (by rw [h1, hp]) h2
        · exact Or.inr h1
    · simp only [find_pos, if_neg hp] at h
      cases hf : find_pos key rest with
      | none => simp [hf] at h
      | some j0 =>
        have hj : j = j0 + 1 := by simpa [hf] using h.symm
        subst hj
        rw [List.modify_succ_cons, List.mem_cons, List.mem_cons,
          mem_modify_of_find_pos key value rest j0 hn.2 hf q]
        constructor
        · rintro (h1 | h1 | ⟨h1, h2⟩)
          · exact Or.inr ⟨Or.inl h1, by rw [h1]; exact hp⟩
          · exact Or.inl h1
          · exact Or.inr ⟨Or.inr h1, h2⟩
        · rintro (h1 | ⟨h1 | h1, h2⟩)
          · exact Or.inr (Or.inl h1)
          · exact Or.inl h1
          · exact Or.inr (Or.inr ⟨h1, h2⟩)

theorem bucket_at_write_slot (t : HashMap K V) (i j : Nat) (value : V) (i1 : Nat)
    (h : i < t.hashmap.length) :
    bucket_at (write_slot t (i, j) value) i1 =
      if i1 = i then List.modify (fun p => (p.1, value)) j (bucket_at t i1)
      else bucket_at t i1 := by
  unfold bucket_at write_slot
  simp only [getD_modify]
  by_cases hi : i1 = i
  · simp [hi, h]
  · simp [hi]

theorem keys_write_slot (t : HashMap K V) (i j : Nat) (value : V) (i1 : Nat) :
    (bucket_at (write_slot t (i, j) value) i1).map Prod.fst = (bucket_at t i1).map Prod.fst := by
  by_cases h : i < t.hashmap.length
  · rw [bucket_at_write_slot t i j value i1 h]
    by_cases hi : i1 = i
    · rw [if_pos hi, map_fst_modify]
    · rw [if_neg hi]
  · have : write_slot t (i, j) value = t := by
      unfold write_slot
      rw [List.modify_eq_self (by omega)]
    rw [this]

/-- A table that differs from one satisfying the invariant only in the values stored. -/
theorem inv_of_same_keys {t t1 : HashMap K V} (h : Inv hash t)
    (hlen : t1.hashmap.length = t.hashmap.length) (hcap : t1.capacity = t.capacity)
    (hnum : t1.num_of_elem = t.num_of_elem)
    (hkeys : ∀ i, (bucket_at t1 i).map Prod.fst = (bucket_at t i).map Prod.fst) :
    Inv hash t1 := by
  have hall : (all_pairs t1).map Prod.fst = (all_pairs t).map Prod.fst := by
    unfold all_pairs
    rw [List.map_flatMap, List.map_flatMap, hcap]
    congr 1
    funext i
    exact hkeys i
  refine ⟨by rw [hlen, hcap, h.len], by rw [hcap]; exact h.cap_pos, ?_, by rw [hall]; exact h.nodup,
    ?_⟩
  · intro i p hp
    have hm : p.1 ∈ (bucket_at t i).map Prod.fst := by
      rw [← hkeys i]
      exact List.mem_map.2 ⟨p, hp, rfl⟩
    obtain ⟨q, hq, he⟩ := List.mem_map.1 hm
    have := h.placed i q hq
    rw [he] at this
    unfold hash_func at this ⊢
    rw [hcap]
    exact this
  · rw [hnum, h.count, ← List.length_map (all_pairs t) Prod.fst, ← hall, List.length_map]

theorem inv_write_slot {t : HashMap K V} (h : Inv hash t) (slot : Nat × Nat) (value : V) :
    Inv hash (write_slot t slot value) :=
  inv_of_same_keys h (by simp [write_slot]) rfl rfl (keys_write_slot t slot.1 slot.2 value)

/-- Writing `value` at the place `scan_slot` finds for a stored key changes the value of that
key and nothing else. -/
theorem mem_write_slot {t : HashMap K V} (h : Inv hash t) {key : K} {j : Nat} (value : V)
    (hf : find_pos key (bucket_at t (hash_func hash t key)) = some j) (q : K × V) :
    q ∈ all_pairs (write_slot t (hash_func hash t key, j) value) ↔
      (q = (key, value) ∨ (q ∈ all_pairs t ∧ q.1 ≠ key)) := by
  have hlt : hash_func hash t key < t.hashmap.length := by
    rw [h.len]
    exact hash_func_lt h.cap_pos key
  have hI := inv_write_slot h (hash_func hash t key, j) value
  have hhf : ∀ k, hash_func hash (write_slot t (hash_func hash t key, j) value) k =
      hash_func hash t k := fun _ => rfl
  rw [hI.mem_iff, hhf, bucket_at_write_slot t _ j value _ hlt]
  by_cases hi : hash_func hash t q.1 = hash_func hash t key
  · rw [if_pos hi, hi, mem_modify_of_find_pos key value _ j (h.bucket_nodup _) hf q,
      h.mem_iff q, hi]
  · rw [if_neg hi, h.mem_iff q]
    constructor
    · intro hq
      refine Or.inr ⟨hq, ?_⟩
      intro he
      exact hi (by rw [he])
    · rintro (h1 | ⟨h1, _⟩)
      · exact absurd (by rw [h1]) hi
      · exact h1

end Write

/-! ## `operator[]`, assignment through it, and `at` as an lvalue -/

section Index

variable {K V : Type} [DecidableEq K] {hash : K → Nat}

theorem updated_of_perm {t t1 : HashMap K V} (h : Inv hash t) {key : K} {value : V}
    (hk : contains_key hash t key = false)
    (hp : (all_pairs t1).Perm ((key, value) :: all_pairs t)) : Updated t t1 key value := by
  intro q
  rw [hp.mem_iff, List.mem_cons]
  constructor
  · rintro (h1 | h1)
    · exact Or.inl h1
    · refine Or.inr ⟨h1, ?_⟩
      intro he
      have : contains_key hash t key = true :=
        (h.contains_key_iff_keys key).2 (he ▸ List.mem_map.2 ⟨q, h1, rfl⟩)
      rw [hk] at this
      cases this
  · rintro (h1 | ⟨h1, _⟩)
    · exact Or.inl h1
    · exact Or.inr h1

/-- The lookups of a table in which `key` was bound to `value`. -/
theorem lookup_of_updated {t t1 : HashMap K V} (h : Inv hash t) (h1 : Inv hash t1) {key : K}
    {value : V} (hu : Updated t t1 key value) :
    contains_key hash t1 key = true ∧ at_ hash t1 key = .ok value ∧
      ∀ k, k ≠ key →
        contains_key hash t1 k = contains_key hash t k ∧ at_ hash t1 k = at_ hash t k := by
  have hm : (key, value) ∈ all_pairs t1 := (hu _).2 (Or.inl rfl)
  refine ⟨(h1.contains_key_iff key).2 ⟨value, hm⟩, h1.at_of_mem hm, ?_⟩
  intro k hk
  apply same_lookup h h1
  intro v
  rw [hu (k, v)]
  constructor
  · rintro (h2 | ⟨h2, _⟩)
    · exact absurd (congrArg Prod.fst h2) hk
    · exact h2
  · intro h2
    exact Or.inr ⟨h2, hk⟩

theorem scan_slot_of_contains {t : HashMap K V} {key : K}
    (h : contains_key hash t key = true) :
    ∃ j, find_pos key (bucket_at t (hash_func hash t key)) = some j ∧
      scan_slot t (hash_func hash t key) key = .ok (hash_func hash t key, j) := by
  obtain ⟨j, hj⟩ := find_pos_of_any key _ h
  exact ⟨j, hj, by simp [scan_slot, hj]⟩

theorem operator_index_of_contains [Inhabited V] {t : HashMap K V} {key : K} (depth : Nat)
    (h : contains_key hash t key = true) :
    ∃ j, find_pos key (bucket_at t (hash_func hash t key)) = some j ∧
      operator_index hash depth t key = .ok (t, (hash_func hash t key, j)) := by
  obtain ⟨j, hj, hs⟩ := scan_slot_of_contains h
  exact ⟨j, hj, by simp [operator_index, h, bucket_index, hs]⟩

theorem operator_index_of_insert [Inhabited V] {t t1 : HashMap K V} {key : K} {depth : Nat}
    (h : contains_key hash t key = false)
    (hi : insert hash depth t key default = .ok (true, t1))
    (h1 : contains_key hash t1 key = true) :
    ∃ j, find_pos key (bucket_at t1 (hash_func hash t1 key)) = some j ∧
      operator_index hash depth t key = .ok (t1, (hash_func hash t1 key, j)) := by
  obtain ⟨j, hj, hs⟩ := scan_slot_of_contains h1
  exact ⟨j, hj, by simp [operator_index, h, hi, h1, bucket_index, hs]⟩

/-- The assignment `m[key] = value`, for a recursion bound of at least one. -/
theorem index_assign_spec [Inhabited V] (depth : Nat) {t : HashMap K V} (h : Inv hash t)
    (hl : 4 * t.num_of_elem ≤ 3 * (t.capacity : Int)) (key : K) (value : V) :
    ∃ t1, index_assign hash (depth + 1) t key value = .ok t1 ∧ Inv hash t1 ∧
      Updated t t1 key value ∧
      t1.num_of_elem = (if contains_key hash t key then t.num_of_elem
        else t.num_of_elem + 1) ∧
      t1.capacity = (if contains_key hash t key = false ∧
          3 * (t.capacity : Int) < 4 * (t.num_of_elem + 1)
        then t.capacity * 2 else t.capacity) ∧
      4 * t1.num_of_elem ≤ 3 * (t1.capacity : Int) := by
  cases hc : contains_key hash t key with
  | true =>
    obtain ⟨j, hj, ho⟩ := operator_index_of_contains (depth + 1) hc
    refine ⟨write_slot t (hash_func hash t key, j) value, by simp [index_assign, ho],
      inv_write_slot h _ _, mem_write_slot h value hj, by simp [write_slot],
      by simp [write_slot], hl⟩
  | false =>
    obtain ⟨t0, hi, hI0, hp0, hc0, hl0⟩ := insert_spec depth h hl (default : V) hc
    have hu0 := updated_of_perm h hc hp0
    have hk0 := (lookup_of_updated h hI0 hu0).1
    obtain ⟨j, hj, ho⟩ := operator_index_of_insert hc hi hk0
    have hn0 : t0.num_of_elem = t.num_of_elem + 1 := by
      rw [hI0.count, hp0.length_eq, h.count]
      simp
    refine ⟨write_slot t0 (hash_func hash t0 key, j) value, by simp [index_assign, ho],
      inv_write_slot hI0 _ _, ?_, by simpa [write_slot] using hn0,
      by simpa [write_slot] using hc0, hl0⟩
    intro q
    rw [mem_write_slot hI0 value hj q, hu0 q]
    constructor
    · rintro (h1 | ⟨h1 | ⟨h1, h2⟩, h3⟩)
      · exact Or.inl h1
      · exact absurd (by rw [h1]) h3
      · exact Or.inr ⟨h1, h2⟩
    · rintro (h1 | ⟨h1, h2⟩)
      · exact Or.inl h1
      · exact Or.inr ⟨Or.inr ⟨h1, h2⟩, h2⟩

theorem operator_index_mono [Inhabited V] {depth : Nat} {t : HashMap K V} {key : K}
    {r : HashMap K V × (Nat × Nat)} (h : operator_index hash depth t key = .ok r) :
    operator_index hash (depth + 1) t key = .ok r := by
  unfold operator_index at h ⊢
  cases hc : contains_key hash t key with
  | true => simpa [hc] using h
  | false =>
    simp only [hc] at h ⊢
    cases hi : insert hash depth t key default with
    | error e => simp [hi] at h
    | ok r0 =>
      rw [insert_mono _ _ _ _ _ hi]
      simpa [hi] using h

theorem index_assign_mono [Inhabited V] {depth : Nat} {t : HashMap K V} {key : K} {value : V}
    {r : HashMap K V} (h : index_assign hash depth t key value = .ok r) :
    index_assign hash (depth + 1) t key value = .ok r := by
  unfold index_assign at h ⊢
  cases ho : operator_index hash depth t key with
  | error e => simp [ho] at h
  | ok r0 =>
    rw [operator_index_mono ho]
    simpa [ho] using h

/-- The table left by a read `m[key]`, for a recursion bound of at least one. -/
theorem operator_index_spec [Inhabited V] (depth : Nat) {t : HashMap K V} (h : Inv hash t)
    (hl : 4 * t.num_of_elem ≤ 3 * (t.capacity : Int)) (key : K) :
    ∃ r, operator_index hash (depth + 1) t key = .ok r ∧ Inv hash r.1 ∧
      4 * r.1.num_of_elem ≤ 3 * (r.1.capacity : Int) ∧
      (r.1.capacity = t.capacity ∨ r.1.capacity = t.capacity * 2) := by
  cases hc : contains_key hash t key with
  | true =>
    obtain ⟨j, _, ho⟩ := operator_index_of_contains (depth + 1) hc
    exact ⟨_, ho, h, hl, Or.inl rfl⟩
  | false =>
    obtain ⟨t0, hi, hI0, hp0, hc0, hl0⟩ := insert_spec depth h hl (default : V) hc
    have hk0 := (lookup_of_updated h hI0 (updated_of_perm h hc hp0)).1
    obtain ⟨j, _, ho⟩ := operator_index_of_insert hc hi hk0
    refine ⟨_, ho, hI0, hl0, ?_⟩
    show t0.capacity = _ ∨ t0.capacity = _
    rw [hc0]
    split
    · exact Or.inr rfl
    · exact Or.inl rfl

/-- The assignment `m.at (key) = value` on a stored key. -/
theorem at_assign_spec {t : HashMap K V} (h : Inv hash t) {key : K} (value : V)
    (hc : contains_key hash t key = true) :
    ∃ t1, at_assign hash t key value = .ok t1 ∧ Inv hash t1 ∧ Updated t t1 key value ∧
      t1.num_of_elem = t.num_of_elem ∧ t1.capacity = t.capacity := by
  obtain ⟨j, hj, hs⟩ := scan_slot_of_contains hc
  exact ⟨write_slot t (hash_func hash t key, j) value,
    by simp [at_assign, at_mut, hc, bucket_index, hs], inv_write_slot h _ _,
    mem_write_slot h value hj, rfl, rfl⟩

theorem at_assign_of_not_contains {t : HashMap K V} {key : K} (value : V)
    (hc : contains_key hash t key = false) :
    at_assign hash t key value = .error .invalid_argument := by
  simp [at_assign, at_mut, hc]

end Index

/-! ## Every operation preserves the invariant of reachable tables -/

section Preservation

variable {K V : Type} [DecidableEq K] {hash : K → Nat}

theorem pow2_double {c : Nat} (h : ∃ j : Nat, c = 2 ^ j) : ∃ j : Nat, c * 2 = 2 ^ j := by
  obtain ⟨j, hj⟩ := h
  exact ⟨j + 1, by rw [hj, pow_succ]⟩

theorem wf_fresh_min : WF hash (new : HashMap K V) where
  inv := inv_fresh (by decide)
  load := by simp [new, fresh]
  pow2 := ⟨4, rfl⟩

theorem insert_wf {depth : Nat} {t : HashMap K V} (h : WF hash t) {key : K} {value : V}
    {r : Bool × HashMap K V} (hr : insert hash depth t key value = .ok r) : WF hash r.2 := by
  cases hc : contains_key hash t key with
  | true =>
    rw [insert_of_contains value depth hc] at hr
    cases hr
    exact h
  | false =>
    obtain ⟨_, hI, _, hcap, hl⟩ := insert_ok_spec h.inv h.load hc hr
    refine ⟨hI, hl, ?_⟩
    rw [hcap]
    split
    · exact pow2_double h.pow2
    · exact h.pow2

theorem erase_wf {depth : Nat} {t : HashMap K V} (h : WF hash t) {key : K}
    {r : Bool × HashMap K V} (hr : erase hash depth t key = .ok r) : WF hash r.2 := by
  cases hc : contains_key hash t key with
  | false =>
    rw [erase_of_not_contains depth hc] at hr
    cases hr
    exact h
  | true =>
    obtain ⟨v, hv⟩ := (h.inv.contains_key_iff key).1 hc
    obtain ⟨t1, h1, hI, _, hcap, hl⟩ := erase_spec depth h.inv h.load hv
    rw [h1] at hr
    cases hr
    refine ⟨hI, hl, ?_⟩
    show ∃ j : Nat, t1.capacity = 2 ^ j
    rw [hcap]
    split
    · exact (reduce_capacity_spec _ _ _ (le_refl _)).2.2.2.2 h.pow2
    · exact h.pow2

theorem operator_index_wf [Inhabited V] {depth : Nat} {t : HashMap K V} (h : WF hash t)
    {key : K} {r : HashMap K V × (Nat × Nat)}
    (hr : operator_index hash depth t key = .ok r) : WF hash r.1 := by
  obtain ⟨r1, h1, hI, hl, hcap⟩ := operator_index_spec depth h.inv h.load key
  rw [operator_index_mono hr] at h1
  cases h1
  refine ⟨hI, hl, ?_⟩
  rcases hcap with hcap | hcap
  · rw [hcap]
    exact h.pow2
  · rw [hcap]
    exact pow2_double h.pow2

theorem index_assign_wf [Inhabited V] {depth : Nat} {t : HashMap K V} (h : WF hash t)
    {key : K} {value : V} {t1 : HashMap K V}
    (hr : index_assign hash depth t key value = .ok t1) : WF hash t1 := by
  obtain ⟨t2, h1, hI, _, _, hcap, hl⟩ := index_assign_spec depth h.inv h.load key value
  rw [index_assign_mono hr] at h1
  cases h1
  refine ⟨hI, hl, ?_⟩
  rw [hcap]
  split
  · exact pow2_double h.pow2
  · exact h.pow2

theorem at_assign_wf {t : HashMap K V} (h : WF hash t) {key : K} {value : V}
    {t1 : HashMap K V} (hr : at_assign hash t key value = .ok t1) : WF hash t1 := by
  cases hc : contains_key hash t key with
  | false =>
    rw [at_assign_of_not_contains value hc] at hr
    cases hr
  | true =>
    obtain ⟨t2, h1, hI, _, hn, hcap⟩ := at_assign_spec h.inv value hc
    rw [h1] at hr
    cases hr
    exact ⟨hI, by rw [hn, hcap]; exact h.load, by rw [hcap]; exact h.pow2⟩

theorem clear_buckets_eq :
    ∀ (n : Nat) (bs : List (List (K × V))), bs.length = n →
      clear_buckets n bs = List.replicate n []
  | 0, [], _ => rfl
  | 0, _ :: _, h => by simp at h
  | n + 1, [], h => by simp at h
  | n + 1, _ :: bs, h => by
    rw [clear_buckets, clear_buckets_eq n bs (by simpa using h), List.replicate_succ]

theorem clear_eq_fresh {t : HashMap K V} (h : Inv hash t) : clear t = fresh t.capacity := by
  have hc : t.capacity ≠ 0 := by
    have := h.cap_pos
    omega
  simp [clear, fresh, clear_buckets_eq _ _ h.len, hc]

theorem clear_wf {t : HashMap K V} (h : WF hash t) : WF hash (clear t) := by
  rw [clear_eq_fresh h.inv]
  exact ⟨inv_fresh h.inv.cap_pos, by simp [fresh], h.pow2⟩

/-- The copy constructor on a table within the load bound: same capacity, same pairs. -/
theorem copy_spec (depth : Nat) {t : HashMap K V} (h : Inv hash t)
    (hl : 4 * t.num_of_elem ≤ 3 * (t.capacity : Int)) :
    ∃ t1, copy hash depth t = .ok t1 ∧ Inv hash t1 ∧ t1.capacity = t.capacity ∧
      (all_pairs t1).Perm (all_pairs t) := by
  obtain ⟨t1, hr, hI, hc, hp⟩ := replay_spec depth (all_pairs t) (fresh t.capacity)
    (inv_fresh h.cap_pos) h.nodup (fun p _ => contains_key_fresh _ _)
    (by
      rw [← h.count]
      simpa [fresh] using hl)
  rw [all_pairs_fresh, List.append_nil] at hp
  exact ⟨t1, hr, hI, hc, hp⟩

theorem copy_wf {depth : Nat} {t t1 : HashMap K V} (h : WF hash t)
    (hr : copy hash depth t = .ok t1) : WF hash t1 := by
  obtain ⟨t2, h1, hI, hc, hp⟩ := copy_spec depth h.inv h.load
  rw [h1] at hr
  cases hr
  refine ⟨hI, ?_, by rw [hc]; exact h.pow2⟩
  rw [hI.count, hp.length_eq, ← h.inv.count, hc]
  exact h.load

theorem map_range_getD {α : Type} (l : List (List α)) :
    (List.range l.length).map (fun i => l.getD i []) = l := by
  apply List.ext_getElem
  · simp
  · intro i h1 h2
    simp [List.getElem?_eq_getElem h2]

theorem operator_assign_eq {t : HashMap K V} (h : t.hashmap.length = t.capacity) :
    operator_assign t = t := by
  cases t with
  | mk hm c n =>
    simp only at h
    subst h
    show (⟨(List.range hm.length).map (fun i => hm.getD i []), hm.length, n⟩ : HashMap K V) = _
    rw [map_range_getD]

theorem operator_assign_wf {t : HashMap K V} (h : WF hash t) : WF hash (operator_assign t) := by
  rw [operator_assign_eq h.inv.len]
  exact h

end Preservation

/-! ## The constructor from two vectors -/

section FromVectors

variable {K V : Type} [DecidableEq K] [Inhabited V] {hash : K → Nat}

theorem from_vectors_loop_mono {depth : Nat} :
    ∀ (l : List (K × V)) (t r : HashMap K V),
      from_vectors_loop hash depth l t = .ok r → from_vectors_loop hash (depth + 1) l t = .ok r
  | [], _, _, h => h
  | p :: rest, t, r, h => by
    rw [from_vectors_loop] at h ⊢
    cases hi : insert hash depth t p.1 p.2 with
    | error e => simp [hi] at h
    | ok r0 =>
      rw [insert_mono _ _ _ _ _ hi]
      simp only [hi] at h ⊢
      cases hb : r0.1 with
      | true =>
        simp only [hb, if_true] at h ⊢
        exact from_vectors_loop_mono rest _ _ h
      | false =>
        simp only [hb] at h ⊢
        cases ha : index_assign hash depth r0.2 p.1 p.2 with
        | error e => simp [ha] at h
        | ok t2 =>
          rw [index_assign_mono ha]
          simp only [ha] at h ⊢
          exact from_vectors_loop_mono rest _ _ h

/-- One round of the constructor's loop binds the key to the value, whether `insert` accepts
the pair or `operator[]` overwrites the stored one. -/
theorem from_vectors_step (depth : Nat) {t : HashMap K V} (h : WF hash t) (p : K × V)
    (rest : List (K × V)) :
    ∃ t1, WF hash t1 ∧ Updated t t1 p.1 p.2 ∧
      from_vectors_loop hash (depth + 1) (p :: rest) t =
        from_vectors_loop hash (depth + 1) rest t1 := by
  cases hc : contains_key hash t p.1 with
  | true =>
    obtain ⟨t1, ha, hI, hu, _, _, _⟩ := index_assign_spec depth h.inv h.load p.1 p.2
    refine ⟨t1, index_assign_wf h ha, hu, ?_⟩
    rw [from_vectors_loop, insert_of_contains p.2 _ hc]
    simp [ha]
  | false =>
    obtain ⟨t1, hi, hI, hp, _, _⟩ := insert_spec depth h.inv h.load p.2 hc
    refine ⟨t1, insert_wf h hi, updated_of_perm h.inv hc hp, ?_⟩
    rw [from_vectors_loop, hi]
    simp

/-- The loop of the constructor: every key of the sequence ends up bound to the value of its
last occurrence, the other keys keep their pairs. -/
theorem from_vectors_loop_spec (depth : Nat) :
    ∀ (l : List (K × V)) (t : HashMap K V), WF hash t →
      ∃ t1, from_vectors_loop hash (depth + 1) l t = .ok t1 ∧ WF hash t1 ∧
        ∀ k v, (k, v) ∈ all_pairs t1 ↔
          (last_value l k = some v ∨ (last_value l k = none ∧ (k, v) ∈ all_pairs t))
  | [], t, h => ⟨t, rfl, h, by simp [last_value]⟩
  | p :: rest, t, h => by
    obtain ⟨tm, hm, hu, he⟩ := from_vectors_step depth h p rest
    obtain ⟨t1, hr, h1, hs⟩ := from_vectors_loop_spec depth rest tm hm
    refine ⟨t1, by rw [he, hr], h1, ?_⟩
    intro k v
    rw [hs k v, hu (k, v), last_value]
    cases hlv : last_value rest k with
    | some w => simp
    | none =>
      by_cases hk : p.1 = k
      · subst hk
        constructor
        · rintro (h2 | ⟨_, h2 | ⟨_, h2⟩⟩)
          · cases h2
          · left
            have : v = p.2 := congrArg Prod.snd h2
            simp [this]
          · exact absurd rfl h2
        · rintro (h2 | ⟨h2, _⟩)
          · right
            refine ⟨rfl, Or.inl ?_⟩
            have : p.2 = v := by simpa using h2
            rw [← this]
          · simp at h2
      · constructor
        · rintro (h2 | ⟨_, h2 | ⟨h2, _⟩⟩)
          · cases h2
          · exact absurd (congrArg Prod.fst h2).symm hk
          · right
            exact ⟨by simp [hk], h2⟩
        · rintro (h2 | ⟨_, h2⟩)
          · simp [hk] at h2
          · right
            exact ⟨rfl, Or.inr ⟨h2, fun h3 => hk h3.symm⟩⟩

theorem from_vectors_wf {depth : Nat} {keys : List K} {values : List V} {t : HashMap K V}
    (hr : from_vectors hash depth keys values = .ok t) : WF hash t := by
  unfold from_vectors at hr
  by_cases hlen : keys.length ≠ values.length
  · rw [if_pos hlen] at hr
    cases hr
  · rw [if_neg hlen] at hr
    obtain ⟨t1, h1, hw, _⟩ := from_vectors_loop_spec depth (keys.zip values) new
      (wf_fresh_min : WF hash (new : HashMap K V))
    rw [from_vectors_loop_mono _ _ _ hr] at h1
    cases h1
    exact hw

/-- Every reachable table satisfies the invariant. -/
theorem Reachable.wf {t : HashMap K V} (h : Reachable hash t) : WF hash t := by
  induction h with
  | default => exact wf_fresh_min
  | from_vectors depth keys values t hr => exact from_vectors_wf hr
  | copy depth t t1 _ hr ih => exact copy_wf ih hr
  | operator_assign t _ ih => exact operator_assign_wf ih
  | insert depth t key value r _ hr ih => exact insert_wf ih hr
  | erase depth t key r _ hr ih => exact erase_wf ih hr
  | operator_index depth t key r _ hr ih => exact operator_index_wf ih hr
  | index_assign depth t key value t1 _ hr ih => exact index_assign_wf ih hr
  | at_assign t key value t1 _ hr ih => exact at_assign_wf ih hr
  | clear t _ ih => exact clear_wf ih

end FromVectors

/-! ## Claims -/

section Claims

variable {K V : Type} [DecidableEq K] [Inhabited V]

/-- C1: on a reachable table, `insert` of a key that is not stored returns `true` (for every
recursion bound of at least one, so also when the table grows); afterwards the key is
contained, `at` returns the inserted value, `size()` is one larger, and every other key has the
membership and the `at` result it had before. -/
theorem C1_insert_new_key (hash : K → Nat) (t : HashMap K V) (h : Reachable hash t) (k : K)
    (v : V) (hk : contains_key hash t k = false) (depth : Nat) :
    ∃ t1, insert hash (depth + 1) t k v = .ok (true, t1) ∧
      contains_key hash t1 k = true ∧ at_ hash t1 k = .ok v ∧ size t1 = size t + 1 ∧
      ∀ k1, k1 ≠ k →
        contains_key hash t1 k1 = contains_key hash t k1 ∧ at_ hash t1 k1 = at_ hash t k1 := by
  have hw := h.wf
  obtain ⟨t1, hi, hI, hp, _, _⟩ := insert_spec depth hw.inv hw.load v hk
  obtain ⟨h1, h2, h3⟩ := lookup_of_updated hw.inv hI (updated_of_perm hw.inv hk hp)
  refine ⟨t1, hi, h1, h2, ?_, h3⟩
  unfold size
  rw [hI.count, hp.length_eq, hw.inv.count]
  simp

theorem reachable_demo_twelve : Reachable demo_hash (demo_table 12) :=
  Reachable.from_vectors 1 (List.range 12) ((List.range 12).map (fun k => 10 * k)) _
    (by decide!)

/-- C1 at a growing insert: the thirteenth key into the table of twelve at capacity 16. -/
theorem C1_insert_new_key_witness :
    ∃ t1, insert demo_hash 1 (demo_table 12) 12 120 = .ok (true, t1) ∧
      contains_key demo_hash t1 12 = true ∧ at_ demo_hash t1 12 = .ok 120 ∧
      size t1 = size (demo_table 12) + 1 ∧
      ∀ k1, k1 ≠ 12 →
        contains_key demo_hash t1 k1 = contains_key demo_hash (demo_table 12) k1 ∧
          at_ demo_hash t1 k1 = at_ demo_hash (demo_table 12) k1 :=
  C1_insert_new_key demo_hash (demo_table 12) reachable_demo_twelve 12 120 (by decide!) 0

/-- C2: `insert` of a key that is already stored returns `false` and returns the table it was
given: the same buckets, `size()` and `capacity()`, and `at` on the key still returns the value
stored before. This holds for every table and every recursion bound. -/
theorem C2_insert_present_key (hash : K → Nat) (t : HashMap K V) (k : K) (v : V)
    (hk : contains_key hash t k = true) (depth : Nat) :
    ∃ r, insert hash depth t k v = .ok r ∧ r.1 = false ∧
      r.2.hashmap = t.hashmap ∧ size r.2 = size t ∧ r.2.capacity = t.capacity ∧
      ∃ old, old ∈ (bucket_at t (hash_func hash t k)).map Prod.snd ∧
        at_ hash t k = .ok old ∧ at_ hash r.2 k = .ok old := by
  refine ⟨(false, t), insert_of_contains v depth hk, rfl, rfl, rfl, rfl, ?_⟩
  rw [at_of_contains hk, scan_value]
  cases hf : (bucket_at t (hash_func hash t k)).find? (fun p => decide (p.1 = k)) with
  | some p => exact ⟨p.2, List.mem_map.2 ⟨p, List.mem_of_find?_eq_some hf, rfl⟩, rfl, rfl⟩
  | none =>
    exfalso
    have hk2 := hk
    unfold contains_key at hk2
    rw [List.any_eq_true] at hk2
    obtain ⟨p, hp, he⟩ := hk2
    exact absurd he (by simpa using List.find?_eq_none.1 hf p hp)

/-- C2 on the table of twelve: inserting key 3 again with another value leaves 30 stored. -/
theorem C2_insert_present_key_witness :
    ∃ r, insert demo_hash 0 (demo_table 12) 3 77 = .ok r ∧ r.1 = false ∧
      r.2.hashmap = (demo_table 12).hashmap ∧ size r.2 = size (demo_table 12) ∧
      r.2.capacity = (demo_table 12).capacity ∧
      ∃ old, old ∈ (bucket_at (demo_table 12) (hash_func demo_hash (demo_table 12) 3)).map
          Prod.snd ∧
        at_ demo_hash (demo_table 12) 3 = .ok old ∧ at_ demo_hash r.2 3 = .ok old :=
  C2_insert_present_key demo_hash (demo_table 12) 3 77 (by decide!) 0

/-- C3: on a reachable table, `erase` of a stored key returns `true` (for every recursion
bound, so also when the table shrinks); afterwards the key is not contained, `size()` is one
smaller, and every other key has the membership and the `at` result it had before. -/
theorem C3_erase_present_key (hash : K → Nat) (t : HashMap K V) (h : Reachable hash t) (k : K)
    (hk : contains_key hash t k = true) (depth : Nat) :
    ∃ t1, erase hash depth t k = .ok (true, t1) ∧
      contains_key hash t1 k = false ∧ size t1 = size t - 1 ∧
      ∀ k1, k1 ≠ k →
        contains_key hash t1 k1 = contains_key hash t k1 ∧ at_ hash t1 k1 = at_ hash t k1 := by
  have hw := h.wf
  obtain ⟨v, hv⟩ := (hw.inv.contains_key_iff k).1 hk
  obtain ⟨t1, he, hI, hp, _, _⟩ := erase_spec depth hw.inv hw.load hv
  have hn := hw.inv.nodup
  rw [(hp.map Prod.fst).nodup_iff, List.map_cons, List.nodup_cons] at hn
  refine ⟨t1, he, ?_, ?_, ?_⟩
  · cases hx : contains_key hash t1 k with
    | false => rfl
    | true => exact absurd ((hI.contains_key_iff_keys k).1 hx) hn.1
  · unfold size
    rw [hI.count, hw.inv.count, hp.length_eq]
    simp
  · intro k1 hk1
    apply same_lookup hw.inv hI
    intro v1
    rw [hp.mem_iff, List.mem_cons]
    constructor
    · exact Or.inr
    · rintro (h2 | h2)
      · exact absurd (congrArg Prod.fst h2) hk1
      · exact h2

theorem reachable_demo_thirteen : Reachable demo_hash (demo_table 13) :=
  Reachable.from_vectors 1 (List.range 13) ((List.range 13).map (fun k => 10 * k)) _
    (by decide!)

theorem reachable_erase_all {hash : K → Nat} (depth : Nat) :
    ∀ (l : List K) (t t1 : HashMap K V), Reachable hash t →
      erase_all hash depth l t = .ok t1 → Reachable hash t1
  | [], t, t1, h, he => by
    cases he
    exact h
  | k :: rest, t, t1, h, he => by
    rw [erase_all] at he
    cases hx : erase hash depth t k with
    | error e => simp [hx] at he
    | ok r =>
      rw [hx] at he
      exact reachable_erase_all depth rest r.2 t1 (Reachable.erase depth t k r h hx) he

theorem reachable_demo_eight : Reachable demo_hash demo_eight :=
  reachable_erase_all 0 [12, 11, 10, 9, 8] (demo_table 13) demo_eight reachable_demo_thirteen
    (by decide!)

/-- C3 at a shrinking erase: the table of eight pairs at capacity 32 goes to seven pairs at
capacity 16. -/
theorem C3_erase_present_key_witness :
    (demo_eight.capacity = 32 ∧ size demo_eight = 8) ∧
      ∃ t1, erase demo_hash 0 demo_eight 5 = .ok (true, t1) ∧
        contains_key demo_hash t1 5 = false ∧ size t1 = size demo_eight - 1 ∧
        ∀ k1, k1 ≠ 5 →
          contains_key demo_hash t1 k1 = contains_key demo_hash demo_eight k1 ∧
            at_ demo_hash t1 k1 = at_ demo_hash demo_eight k1 :=
  ⟨by decide!,
    C3_erase_present_key demo_hash demo_eight reachable_demo_eight 5 (by decide!) 0⟩

/-- C4: `erase` of a key that is not stored returns `false` and returns the table it was
given, so `size()`, `capacity()` and every bucket are unchanged; no shrink takes place even
when the load factor is below `1/4`. This holds for every table and every recursion bound. -/
theorem C4_erase_absent_key (hash : K → Nat) (t : HashMap K V) (k : K)
    (hk : contains_key hash t k = false) (depth : Nat) :
    ∃ r, erase hash depth t k = .ok r ∧ r.1 = false ∧ size r.2 = size t ∧
      r.2.capacity = t.capacity ∧ r.2.hashmap = t.hashmap :=
  ⟨(false, t), erase_of_not_contains depth hk, rfl, rfl, rfl, rfl⟩

/-- C4 on the empty table, whose load factor `0 / 16` is below `1/4`: the capacity stays 16. -/
theorem C4_erase_absent_key_witness :
    load_below_lower (new : HashMap Nat Nat) = true ∧
      ∃ r, erase demo_hash 0 (new : HashMap Nat Nat) 7 = .ok r ∧ r.1 = false ∧
        size r.2 = size (new : HashMap Nat Nat) ∧
        r.2.capacity = (new : HashMap Nat Nat).capacity ∧
        r.2.hashmap = (new : HashMap Nat Nat).hashmap :=
  ⟨by decide, C4_erase_absent_key demo_hash new 7 (by decide) 0⟩

/-- C6: on a reachable table, the assignment `m[k] = v` through the non-const `operator[]`
succeeds for every recursion bound of at least one. `operator[]` leaves the table unchanged
when the key is stored and otherwise leaves the table that `insert (k, ValueT())` returns
(grown or not); the reference it returns is the place of the key in its bucket of that table.
After the assignment `at (k)` is `v`, every other key has the membership and the `at` result it
had before, and `size()` is one larger exactly when the key was not stored. -/
theorem C6_index_assign (hash : K → Nat) (t : HashMap K V) (h : Reachable hash t) (k : K)
    (v : V) (depth : Nat) :
    ∃ r t1, operator_index hash (depth + 1) t k = .ok r ∧
      index_assign hash (depth + 1) t k v = .ok t1 ∧ t1 = write_slot r.1 r.2 v ∧
      (contains_key hash t k = true → r.1 = t) ∧
      (contains_key hash t k = false →
        insert hash (depth + 1) t k default = .ok (true, r.1)) ∧
      r.2.1 = hash_func hash r.1 k ∧ find_pos k (bucket_at r.1 r.2.1) = some r.2.2 ∧
      at_ hash t1 k = .ok v ∧
      (∀ k1, k1 ≠ k →
        contains_key hash t1 k1 = contains_key hash t k1 ∧ at_ hash t1 k1 = at_ hash t k1) ∧
      size t1 = (if contains_key hash t k then size t else size t + 1) := by
  have hw := h.wf
  obtain ⟨t1, ha, hI, hu, hn, _, _⟩ := index_assign_spec depth hw.inv hw.load k v
  obtain ⟨_, h2, h3⟩ := lookup_of_updated hw.inv hI hu
  cases hc : contains_key hash t k with
  | true =>
    obtain ⟨j, hj, ho⟩ := operator_index_of_contains (depth + 1) hc
    refine ⟨_, t1, ho, ha, ?_, fun _ => rfl, fun hx => Bool.noConfusion hx, rfl, hj, h2, h3, ?_⟩
    · simp only [index_assign, ho] at ha
      cases ha
      rfl
    · rw [hc] at hn
      simpa [size] using hn
  | false =>
    obtain ⟨t0, hi, hI0, hp0, _, _⟩ := insert_spec depth hw.inv hw.load (default : V) hc
    have hk0 := (lookup_of_updated hw.inv hI0 (updated_of_perm hw.inv hc hp0)).1
    obtain ⟨j, hj, ho⟩ := operator_index_of_insert hc hi hk0
    refine ⟨_, t1, ho, ha, ?_, fun hx => Bool.noConfusion hx, fun _ => hi, rfl, hj, h2, h3, ?_⟩
    · simp only [index_assign, ho] at ha
      cases ha
      rfl
    · rw [hc] at hn
      simpa [size] using hn

/-- C6 at an assignment that inserts and grows: `m[12] = 5` on the table of twelve. -/
theorem C6_index_assign_witness :
    ∃ r t1, operator_index demo_hash 1 (demo_table 12) 12 = .ok r ∧
      index_assign demo_hash 1 (demo_table 12) 12 5 = .ok t1 ∧ t1 = write_slot r.1 r.2 5 ∧
      (contains_key demo_hash (demo_table 12) 12 = true → r.1 = demo_table 12) ∧
      (contains_key demo_hash (demo_table 12) 12 = false →
        insert demo_hash 1 (demo_table 12) 12 default = .ok (true, r.1)) ∧
      r.2.1 = hash_func demo_hash r.1 12 ∧ find_pos 12 (bucket_at r.1 r.2.1) = some r.2.2 ∧
      at_ demo_hash t1 12 = .ok 5 ∧
      (∀ k1, k1 ≠ 12 →
        contains_key demo_hash t1 k1 = contains_key demo_hash (demo_table 12) k1 ∧
          at_ demo_hash t1 k1 = at_ demo_hash (demo_table 12) k1) ∧
      size t1 = (if contains_key demo_hash (demo_table 12) 12 then size (demo_table 12)
        else size (demo_table 12) + 1) :=
  C6_index_assign demo_hash (demo_table 12) reachable_demo_twelve 12 5 0

theorem replay_concat (ins : HashMap K V → K → V → Except Error (Bool × HashMap K V))
    (p : K × V) :
    ∀ (l : List (K × V)) (t t1 : HashMap K V) (r : Bool × HashMap K V),
      replay ins l t = .ok t1 → ins t1 p.1 p.2 = .ok r → replay ins (l ++ [p]) t = .ok r.2
  | [], t, t1, r, h1, h2 => by
    cases h1
    simp [replay, h2]
  | q :: rest, t, t1, r, h1, h2 => by
    rw [List.cons_append, replay]
    rw [replay] at h1
    cases hx : ins t q.1 q.2 with
    | error e => simp [hx] at h1
    | ok r0 =>
      rw [hx] at h1
      exact replay_concat ins p rest r0.2 t1 r h1 h2

/-- C10: on a reachable table with `n` pairs at capacity `c`, a successful `insert` of a new key
leaves capacity `2 * c` when `4 * (n + 1) > 3 * c` and capacity `c` otherwise, for every
recursion bound of at least one (with bound one the pairs are put back by inserts that are not
allowed to grow the table, so the table doubles once). Consequently twelve inserts of distinct
keys into the empty table leave capacity 16 and size 12, and thirteen leave capacity 32 and
size 13. -/
theorem C10_insert_capacity (hash : K → Nat) (t : HashMap K V) (h : Reachable hash t) (k : K)
    (v : V) (hk : contains_key hash t k = false) (depth : Nat) (l12 l13 : List (K × V))
    (hn12 : (l12.map Prod.fst).Nodup) (hl12 : l12.length = 12)
    (hn13 : (l13.map Prod.fst).Nodup) (hl13 : l13.length = 13) :
    (∃ t1, insert hash (depth + 1) t k v = .ok (true, t1) ∧
      t1.capacity = (if 3 * (t.capacity : Int) < 4 * (size t + 1)
        then 2 * t.capacity else t.capacity)) ∧
    (∃ t12, replay (insert hash (depth + 1)) l12 new = .ok t12 ∧
      t12.capacity = 16 ∧ size t12 = 12) ∧
    (∃ t13, replay (insert hash (depth + 1)) l13 new = .ok t13 ∧
      t13.capacity = 32 ∧ size t13 = 13) := by
  have hw := h.wf
  have twelve : ∀ l0 : List (K × V), (l0.map Prod.fst).Nodup → l0.length = 12 →
      ∃ t12, replay (insert hash (depth + 1)) l0 new = .ok t12 ∧ Inv hash t12 ∧
        t12.capacity = 16 ∧ size t12 = 12 ∧ (all_pairs t12).Perm l0 := by
    intro l0 hn0 hlen
    obtain ⟨t12, hr, hI, hc, hp⟩ := replay_spec (depth + 1) l0 (new : HashMap K V)
      (inv_fresh (by decide)) hn0 (fun p _ => contains_key_fresh _ _)
      (by simp [new, fresh, MIN_SIZE, hlen])
    rw [show all_pairs (new : HashMap K V) = [] from all_pairs_fresh _, List.append_nil] at hp
    refine ⟨t12, hr, hI, hc, ?_, hp⟩
    unfold size
    rw [hI.count, hp.length_eq, hlen]
    rfl
  refine ⟨?_, ?_, ?_⟩
  · obtain ⟨t1, hi, _, _, hc, _⟩ := insert_spec depth hw.inv hw.load v hk
    refine ⟨t1, hi, ?_⟩
    rw [hc, Nat.mul_comm]
    rfl
  · obtain ⟨t12, hr, _, hc, hs, _⟩ := twelve l12 hn12 hl12
    exact ⟨t12, hr, hc, hs⟩
  · have hne : l13 ≠ [] := by
      intro he
      rw [he] at hl13
      cases hl13
    have hsplit := List.dropLast_append_getLast hne
    have hn2 := hn13
    rw [← hsplit, List.map_append, List.nodup_append] at hn2
    obtain ⟨t12, hr, hI, hc, hs, hp⟩ := twelve l13.dropLast hn2.1 (by simp [hl13])
    have hk12 : contains_key hash t12 (l13.getLast hne).1 = false := by
      cases hx : contains_key hash t12 (l13.getLast hne).1 with
      | false => rfl
      | true =>
        exfalso
        rw [hI.contains_key_iff_keys, (hp.map Prod.fst).mem_iff] at hx
        exact hn2.2.2 hx (by simp)
    have hload : 4 * t12.num_of_elem ≤ 3 * (t12.capacity : Int) := by
      unfold size at hs
      rw [hs, hc]
      decide
    obtain ⟨t13, hi, hI13, hp13, hc13, _⟩ :=
      insert_spec depth hI hload (l13.getLast hne).2 hk12
    refine ⟨t13, ?_, ?_, ?_⟩
    · have := replay_concat (insert hash (depth + 1)) (l13.getLast hne) l13.dropLast new t12
        (true, t13) hr hi
      rw [hsplit] at this
      exact this
    · unfold size at hs
      rw [hc13, hs, hc]
      rfl
    · unfold size at hs ⊢
      have h12 := hI.count
      rw [hI13.count, hp13.length_eq, List.length_cons]
      push_cast
      omega

/-- C10 on concrete runs: the growing insert into the table of twelve, and the runs of twelve
and thirteen inserts of the keys `0, 1, ...` with value `0`. -/
theorem C10_insert_capacity_witness :
    (∃ t1, insert demo_hash 1 (demo_table 12) 12 120 = .ok (true, t1) ∧
      t1.capacity = (if 3 * ((demo_table 12).capacity : Int) < 4 * (size (demo_table 12) + 1)
        then 2 * (demo_table 12).capacity else (demo_table 12).capacity)) ∧
    (∃ t12, replay (insert demo_hash 1) ((List.range 12).map (fun k => (k, 0))) new = .ok t12 ∧
      t12.capacity = 16 ∧ size t12 = 12) ∧
    (∃ t13, replay (insert demo_hash 1) ((List.range 13).map (fun k => (k, 0))) new = .ok t13 ∧
      t13.capacity = 32 ∧ size t13 = 13) :=
  C10_insert_capacity demo_hash (demo_table 12) reachable_demo_twelve 12 120 (by decide!) 0
    ((List.range 12).map (fun k => (k, 0))) ((List.range 13).map (fun k => (k, 0)))
    (by decide) (by decide) (by decide) (by decide)

theorem last_value_eq_none_iff (k : K) :
    ∀ l : List (K × V), last_value l k = none ↔ k ∉ l.map Prod.fst
  | [] => by simp [last_value]
  | p :: rest => by
    rw [last_value, List.map_cons, List.mem_cons, not_or]
    cases hx : last_value rest k with
    | some w =>
      have := (last_value_eq_none_iff k rest).not.1 (by rw [hx]; simp)
      simp only [not_not] at this
      simp [this]
    | none =>
      have := (last_value_eq_none_iff k rest).1 hx
      by_cases hp : p.1 = k
      · simp [hp]
      · simp only [if_neg hp, true_iff]
        exact ⟨fun h => hp h.symm, this⟩

theorem last_value_zip :
    ∀ (keys : List K) (values : List V) (i : Nat) (hi : i < keys.length)
      (hv : i < values.length),
      (∀ (j : Nat) (hj : j < keys.length), i < j → keys[j] ≠ keys[i]) →
      last_value (keys.zip values) keys[i] = some values[i]
  | [], _, _, hi, _, _ => by simp at hi
  | _ :: _, [], _, _, hv, _ => by simp at hv
  | a :: keys, b :: values, 0, _, _, hlast => by
    have hnot : a ∉ (keys.zip values).map Prod.fst := by
      intro hm
      obtain ⟨p, hp, he⟩ := List.mem_map.1 hm
      have hk : p.1 ∈ keys := (List.of_mem_zip (by simpa using hp : (p.1, p.2) ∈ keys.zip values)).1
      rw [he] at hk
      obtain ⟨j, hj, hje⟩ := List.getElem_of_mem hk
      exact hlast (j + 1) (by simpa using hj) (by omega) (by simpa using hje)
    show last_value ((a, b) :: keys.zip values) a = some b
    rw [last_value, (last_value_eq_none_iff a _).2 hnot]
    simp
  | a :: keys, b :: values, i + 1, hi, hv, hlast => by
    have hi1 : i < keys.length := by simpa using hi
    have hv1 : i < values.length := by simpa using hv
    have ih := last_value_zip keys values i hi1 hv1
      (fun j hj hij => by
        have := hlast (j + 1) (by simpa using hj) (by omega)
        simpa using this)
    show last_value ((a, b) :: keys.zip values) keys[i] = some values[i]
    rw [last_value, ih]

/-- C7: the constructor from two vectors of equal length succeeds (for every recursion bound of
at least one); the table contains exactly the keys of the first vector, `size()` is the number
of distinct keys, and for every index `i` that is the last one holding its key, `at (keys[i])`
is `values[i]`: a repeated key overwrites the value stored before. -/
theorem C7_from_vectors (hash : K → Nat) (keys : List K) (values : List V)
    (hlen : keys.length = values.length) (depth : Nat) :
    ∃ t, from_vectors hash (depth + 1) keys values = .ok t ∧
      (∀ k, contains_key hash t k = true ↔ k ∈ keys) ∧
      size t = (keys.dedup.length : Int) ∧
      ∀ (i : Nat) (hi : i < keys.length) (hv : i < values.length),
        (∀ (j : Nat) (hj : j < keys.length), i < j → keys[j] ≠ keys[i]) →
        at_ hash t keys[i] = .ok values[i] := by
  obtain ⟨t, hr, hw, hs⟩ := from_vectors_loop_spec depth (keys.zip values) new
    (wf_fresh_min : WF hash (new : HashMap K V))
  have hfst : (keys.zip values).map Prod.fst = keys :=
    List.map_fst_zip _ _ (by omega)
  have hmem : ∀ k v, (k, v) ∈ all_pairs t ↔ last_value (keys.zip values) k = some v := by
    intro k v
    rw [hs k v, show all_pairs (new : HashMap K V) = [] from all_pairs_fresh _]
    simp
  have hcont : ∀ k, contains_key hash t k = true ↔ k ∈ keys := by
    intro k
    rw [hw.inv.contains_key_iff]
    constructor
    · rintro ⟨v, hv⟩
      have h1 := (hmem k v).1 hv
      by_contra hk
      rw [← hfst] at hk
      rw [(last_value_eq_none_iff k _).2 hk] at h1
      cases h1
    · intro hk
      cases hx : last_value (keys.zip values) k with
      | none =>
        rw [← hfst] at hk
        exact absurd hk ((last_value_eq_none_iff k _).1 hx)
      | some v => exact ⟨v, (hmem k v).2 hx⟩
  refine ⟨t, ?_, hcont, ?_, ?_⟩
  · simp [from_vectors, hlen, hr]
  · unfold size
    rw [hw.inv.count, ← List.length_map (all_pairs t) Prod.fst]
    congr 1
    apply List.Perm.length_eq
    rw [List.perm_ext_iff_of_nodup hw.inv.nodup (List.nodup_dedup keys)]
    intro k
    rw [List.mem_dedup, ← hcont k, hw.inv.contains_key_iff_keys]
  · intro i hi hv hlast
    exact hw.inv.at_of_mem ((hmem _ _).2 (last_value_zip keys values i hi hv hlast))

/-- C7 on vectors with a repeated key: `1` occurs at the indices 0 and 2, and is bound to the
value at index 2. -/
theorem C7_from_vectors_witness :
    ∃ t, from_vectors demo_hash 1 [1, 2, 1] [10, 20, 30] = .ok t ∧
      (∀ k, contains_key demo_hash t k = true ↔ k ∈ [1, 2, 1]) ∧
      size t = (([1, 2, 1] : List Nat).dedup.length : Int) ∧
      ∀ (i : Nat) (hi : i < [1, 2, 1].length) (hv : i < [10, 20, 30].length),
        (∀ (j : Nat) (hj : j < [1, 2, 1].length), i < j → [1, 2, 1][j] ≠ [1, 2, 1][i]) →
        at_ demo_hash t [1, 2, 1][i] = .ok [10, 20, 30][i] :=
  C7_from_vectors demo_hash [1, 2, 1] [10, 20, 30] rfl 0

theorem at_ok_of_contains {hash : K → Nat} {t : HashMap K V} {k : K}
    (hk : contains_key hash t k = true) : ∃ w, at_ hash t k = .ok w := by
  rw [at_of_contains hk, scan_value]
  cases hf : (bucket_at t (hash_func hash t k)).find? (fun p => decide (p.1 = k)) with
  | some p => exact ⟨p.2, rfl⟩
  | none =>
    exfalso
    unfold contains_key at hk
    rw [List.any_eq_true] at hk
    obtain ⟨p, hp, he⟩ := hk
    exact absurd he (by simpa using List.find?_eq_none.1 hf p hp)

theorem operator_eq_loop_spec [DecidableEq V] (hash : K → Nat) (rhs : HashMap K V) :
    ∀ l : List (K × V), ∃ b, operator_eq_loop hash rhs l = .ok b ∧
      (b = true ↔ ∀ p ∈ l, contains_key hash rhs p.1 = true ∧ at_ hash rhs p.1 = .ok p.2)
  | [] => ⟨true, rfl, by simp⟩
  | p :: rest => by
    rw [operator_eq_loop]
    cases hc : contains_key hash rhs p.1 with
    | false =>
      refine ⟨false, by simp, ?_⟩
      simp only [Bool.false_eq_true, false_iff]
      intro hall
      have := (hall p (List.mem_cons_self _ _)).1
      rw [hc] at this
      cases this
    | true =>
      obtain ⟨w, hw⟩ := at_ok_of_contains hc
      by_cases hv : p.2 = w
      · obtain ⟨b, hb, hiff⟩ := operator_eq_loop_spec hash rhs rest
        refine ⟨b, by simp [hw, hv, hb], ?_⟩
        rw [hiff]
        constructor
        · intro hall q hq
          rcases List.mem_cons.1 hq with h1 | h1
          · rw [h1]
            exact ⟨hc, by rw [hw, hv]⟩
          · exact hall q h1
        · intro hall q hq
          exact hall q (List.mem_cons_of_mem _ hq)
      · refine ⟨false, by simp [hw, hv], ?_⟩
        simp only [Bool.false_eq_true, false_iff]
        intro hall
        have := (hall p (List.mem_cons_self _ _)).2
        rw [hw] at this
        cases this
        exact hv rfl

/-- C8: for reachable tables `a` and `b`, `a == b` always returns, and it returns `true` exactly
when `a.size() = b.size()` and every pair of `a` is found in `b` with an equal value; this is
the case exactly when the two tables store the same set of pairs, that is when `at` answers
alike on both for every key. Neither condition mentions the capacity or the order of the
buckets. -/
theorem C8_operator_eq [DecidableEq V] (hash : K → Nat) (a b : HashMap K V)
    (ha : Reachable hash a) (hb : Reachable hash b) :
    (∃ r, operator_eq hash a b = .ok r) ∧
    (operator_eq hash a b = .ok true ↔
      (size a = size b ∧
        ∀ p ∈ all_pairs a, contains_key hash b p.1 = true ∧ at_ hash b p.1 = .ok p.2)) ∧
    ((size a = size b ∧
        ∀ p ∈ all_pairs a, contains_key hash b p.1 = true ∧ at_ hash b p.1 = .ok p.2) ↔
      ∀ q, q ∈ all_pairs a ↔ q ∈ all_pairs b) ∧
    ((∀ q, q ∈ all_pairs a ↔ q ∈ all_pairs b) ↔ ∀ k, at_ hash a k = at_ hash b k) := by
  have hA := ha.wf.inv
  have hB := hb.wf.inv
  obtain ⟨r, hr, hiff⟩ := operator_eq_loop_spec hash b (all_pairs a)
  refine ⟨?_, ?_, ?_, ?_⟩
  · unfold operator_eq
    by_cases hs : a.num_of_elem ≠ size b
    · exact ⟨false, by rw [if_pos hs]⟩
    · exact ⟨r, by rw [if_neg hs, hr]⟩
  · unfold operator_eq
    by_cases hs : a.num_of_elem ≠ size b
    · rw [if_pos hs]
      constructor
      · intro h
        cases h
      · intro h
        exact absurd h.1 hs
    · rw [if_neg hs, hr, ← hiff]
      constructor
      · intro h
        cases h
        exact ⟨not_not.1 hs, rfl⟩
      · intro h
        rw [h.2]
  · constructor
    · rintro ⟨hs, hall⟩
      have hsub : all_pairs a ⊆ all_pairs b := by
        intro p hp
        exact (hB.at_eq_ok_iff p.1 p.2).1 (hall p hp).2
      have hlen : (all_pairs b).length ≤ (all_pairs a).length := by
        unfold size at hs
        rw [hA.count, hB.count] at hs
        omega
      have hperm := (List.subperm_of_subset (List.Nodup.of_map _ hA.nodup) hsub).perm_of_length_le
        hlen
      intro q
      exact hperm.mem_iff
    · intro hmem
      have hperm : (all_pairs a).Perm (all_pairs b) :=
        (List.perm_ext_iff_of_nodup (List.Nodup.of_map _ hA.nodup)
          (List.Nodup.of_map _ hB.nodup)).2 hmem
      refine ⟨?_, ?_⟩
      · unfold size
        rw [hA.count, hB.count, hperm.length_eq]
      · intro p hp
        have hpb : (p.1, p.2) ∈ all_pairs b := (hmem p).1 hp
        exact ⟨(hB.contains_key_iff p.1).2 ⟨p.2, hpb⟩, hB.at_of_mem hpb⟩
  · constructor
    · intro hmem k
      exact (same_lookup hB hA k (fun v => hmem (k, v))).2
    · intro hat q
      rw [← hA.at_eq_ok_iff q.1 q.2, ← hB.at_eq_ok_iff q.1 q.2, hat q.1]

theorem reachable_demo_eight_direct : Reachable demo_hash (demo_table 8) :=
  Reachable.from_vectors 1 (List.range 8) ((List.range 8).map (fun k => 10 * k)) _
    (by decide!)

/-- C8 on two tables that store the pairs `(0, 0), ..., (7, 70)`, one at capacity 16 and one
at capacity 32: they compare equal. -/
theorem C8_operator_eq_witness :
    ((demo_table 8).capacity = 16 ∧ demo_eight.capacity = 32 ∧
      operator_eq demo_hash (demo_table 8) demo_eight = .ok true) ∧
    (∃ r, operator_eq demo_hash (demo_table 8) demo_eight = .ok r) ∧
    (operator_eq demo_hash (demo_table 8) demo_eight = .ok true ↔
      (size (demo_table 8) = size demo_eight ∧
        ∀ p ∈ all_pairs (demo_table 8),
          contains_key demo_hash demo_eight p.1 = true ∧
            at_ demo_hash demo_eight p.1 = .ok p.2)) ∧
    ((size (demo_table 8) = size demo_eight ∧
        ∀ p ∈ all_pairs (demo_table 8),
          contains_key demo_hash demo_eight p.1 = true ∧
            at_ demo_hash demo_eight p.1 = .ok p.2) ↔
      ∀ q, q ∈ all_pairs (demo_table 8) ↔ q ∈ all_pairs demo_eight) ∧
    ((∀ q, q ∈ all_pairs (demo_table 8) ↔ q ∈ all_pairs demo_eight) ↔
      ∀ k, at_ demo_hash (demo_table 8) k = at_ demo_hash demo_eight k) :=
  ⟨by decide!,
    C8_operator_eq demo_hash (demo_table 8) demo_eight reachable_demo_eight_direct
      reachable_demo_eight⟩

theorem pairs_before_succ (t : HashMap K V) (i : Nat) :
    pairs_before t (i + 1) = pairs_before t i + (bucket_at t i).length := by
  simp [pairs_before, List.range_succ, List.flatMap_append]

theorem pairs_before_mono (t : HashMap K V) {i j : Nat} (h : i ≤ j) :
    pairs_before t i ≤ pairs_before t j := by
  induction h with
  | refl => exact le_refl _
  | step _ ih =>
    rw [pairs_before_succ]
    omega

theorem getElem_all_pairs (t : HashMap K V) {i j : Nat} (hi : i < t.capacity)
    (hj : j < (bucket_at t i).length) :
    (all_pairs t)[pairs_before t i + j]? = (bucket_at t i)[j]? := by
  have hsplit : t.capacity = (i + 1) + (t.capacity - (i + 1)) := by omega
  unfold all_pairs pairs_before
  rw [hsplit, List.range_add, List.range_succ, List.flatMap_append, List.flatMap_append,
    List.append_assoc, List.getElem?_append_right (by omega)]
  simp only [Nat.add_sub_cancel_left, List.flatMap_cons, List.flatMap_nil, List.append_nil]
  rw [List.getElem?_append_left hj]

theorem skip_empty_spec (t : HashMap K V) :
    ∀ (steps i : Nat), i + steps = t.capacity →
      i ≤ skip_empty t steps i ∧ skip_empty t steps i ≤ t.capacity ∧
      (skip_empty t steps i < t.capacity → bucket_at t (skip_empty t steps i) ≠ []) ∧
      pairs_before t (skip_empty t steps i) = pairs_before t i
  | 0, i, h => by
    have h0 : skip_empty t 0 i = i := rfl
    rw [h0]
    exact ⟨le_refl _, by omega, fun hlt => by omega, rfl⟩
  | steps + 1, i, h => by
    rw [skip_empty]
    by_cases hc : i < t.capacity ∧ (bucket_at t i).isEmpty = true
    · rw [if_pos hc]
      obtain ⟨h1, h2, h3, h4⟩ := skip_empty_spec t steps (i + 1) (by omega)
      refine ⟨by omega, h2, h3, ?_⟩
      rw [h4, pairs_before_succ]
      have : bucket_at t i = [] := by simpa using hc.2
      simp [this]
    · rw [if_neg hc]
      refine ⟨le_refl _, by omega, fun _ hnil => ?_, rfl⟩
      apply hc
      exact ⟨by omega, by simp [hnil]⟩

theorem skip_empty_of_nonempty (t : HashMap K V) (steps i : Nat)
    (h : bucket_at t i ≠ []) : skip_empty t steps i = i := by
  cases steps with
  | zero => rfl
  | succ s =>
    rw [skip_empty, if_neg]
    rintro ⟨_, he⟩
    exact h (by simpa using he)

theorem rank_cend (t : HashMap K V) : rank t (cend t) = (all_pairs t).length := rfl

theorem rank_lt_of_pair (t : HashMap K V) {it : ConstIterator}
    (h : it.bucket_index < t.capacity ∧ it.pair_index < (bucket_at t it.bucket_index).length) :
    rank t it < (all_pairs t).length := by
  have h1 := pairs_before_succ t it.bucket_index
  have h2 : pairs_before t (it.bucket_index + 1) ≤ pairs_before t t.capacity :=
    pairs_before_mono t (by omega)
  have h3 : pairs_before t t.capacity = (all_pairs t).length := rfl
  unfold rank
  omega

theorem valid_after_skip (t : HashMap K V) (i : Nat) (h : i ≤ t.capacity) :
    ValidIt t { bucket_index := skip_empty t (t.capacity - i) i, pair_index := 0 } ∧
      rank t { bucket_index := skip_empty t (t.capacity - i) i, pair_index := 0 } =
        pairs_before t i := by
  obtain ⟨_, h2, h3, h4⟩ := skip_empty_spec t (t.capacity - i) i (by omega)
  refine ⟨?_, by simp [rank, h4]⟩
  by_cases hlt : skip_empty t (t.capacity - i) i < t.capacity
  · left
    exact ⟨hlt, List.length_pos.2 (h3 hlt)⟩
  · right
    have : skip_empty t (t.capacity - i) i = t.capacity := by omega
    simp [cend, this]

theorem valid_cbegin (t : HashMap K V) : ValidIt t (cbegin t) ∧ rank t (cbegin t) = 0 := by
  have := valid_after_skip t 0 (Nat.zero_le _)
  simpa [cbegin, pairs_before] using this

theorem valid_operator_inc (t : HashMap K V) {it : ConstIterator}
    (h : it.bucket_index < t.capacity ∧ it.pair_index < (bucket_at t it.bucket_index).length) :
    ValidIt t (operator_inc t it) ∧ rank t (operator_inc t it) = rank t it + 1 := by
  unfold operator_inc
  by_cases hlast : (bucket_at t it.bucket_index).length ≤ it.pair_index + 1
  · simp only [if_pos hlast]
    obtain ⟨hv, hr⟩ := valid_after_skip t (it.bucket_index + 1) (by omega)
    refine ⟨hv, ?_⟩
    rw [hr, pairs_before_succ]
    unfold rank
    omega
  · simp only [if_neg hlast]
    have hne : bucket_at t it.bucket_index ≠ [] := by
      intro he
      rw [he] at h
      simp at h
    rw [skip_empty_of_nonempty t _ _ hne]
    refine ⟨Or.inl ⟨h.1, by simpa using hlast⟩, ?_⟩
    unfold rank
    simp only
    omega

theorem valid_advance (t : HashMap K V) :
    ∀ n, n ≤ (all_pairs t).length →
      ValidIt t (advance t n (cbegin t)) ∧ rank t (advance t n (cbegin t)) = n
  | 0, _ => valid_cbegin t
  | n + 1, hn => by
    obtain ⟨hv, hr⟩ := valid_advance t n (by omega)
    rcases hv with hv | hv
    · rw [advance]
      obtain ⟨h1, h2⟩ := valid_operator_inc t hv
      exact ⟨h1, by rw [h2, hr]⟩
    · rw [hv, rank_cend] at hr
      omega

/-- C9: on a reachable table with `N = size()` pairs, `N` applications of `operator++` to
`begin()` give `end()`, which is the position `(capacity, 0)`, and no fewer do; the `i`-th
iterator on the way dereferences to the `i`-th pair of the buckets' contents, taken in bucket
order and then in the order within the bucket; the keys of these pairs are pairwise distinct and
each pair is what `contains_key` and `at` report for its key; on an empty table `begin()` is
`end()`. -/
theorem C9_iteration (hash : K → Nat) (t : HashMap K V) (h : Reachable hash t) :
    size t = ((all_pairs t).length : Int) ∧
    cend t = { bucket_index := t.capacity, pair_index := 0 } ∧
    advance t (all_pairs t).length (cbegin t) = cend t ∧
    (∀ i, i < (all_pairs t).length →
      advance t i (cbegin t) ≠ cend t ∧
        operator_deref t (advance t i (cbegin t)) = (all_pairs t)[i]?) ∧
    ((all_pairs t).map Prod.fst).Nodup ∧
    (∀ p ∈ all_pairs t, contains_key hash t p.1 = true ∧ at_ hash t p.1 = .ok p.2) ∧
    (size t = 0 → cbegin t = cend t) := by
  have hI := h.wf.inv
  have hend : ∀ it, ValidIt t it → rank t it = (all_pairs t).length → it = cend t := by
    intro it hv hr
    rcases hv with hv | hv
    · have := rank_lt_of_pair t hv
      omega
    · exact hv
  refine ⟨hI.count, rfl, ?_, ?_, hI.nodup, ?_, ?_⟩
  · obtain ⟨hv, hr⟩ := valid_advance t _ (le_refl _)
    exact hend _ hv hr
  · intro i hi
    obtain ⟨hv, hr⟩ := valid_advance t i (by omega)
    have hne : advance t i (cbegin t) ≠ cend t := by
      intro he
      rw [he, rank_cend] at hr
      omega
    refine ⟨hne, ?_⟩
    rcases hv with hv | hv
    · unfold operator_deref
      rw [← getElem_all_pairs t hv.1 hv.2]
      unfold rank at hr
      rw [hr]
    · exact absurd hv hne
  · intro p hp
    exact ⟨(hI.contains_key_iff p.1).2 ⟨p.2, hp⟩, hI.at_of_mem hp⟩
  · intro hs
    have hz : (all_pairs t).length = 0 := by
      unfold size at hs
      rw [hI.count] at hs
      omega
    obtain ⟨hv, hr⟩ := valid_cbegin t
    exact hend _ hv (by rw [hr, hz])

/-- C9 on the table of twelve. -/
theorem C9_iteration_witness :
    size (demo_table 12) = ((all_pairs (demo_table 12)).length : Int) ∧
    cend (demo_table 12) = { bucket_index := (demo_table 12).capacity, pair_index := 0 } ∧
    advance (demo_table 12) (all_pairs (demo_table 12)).length (cbegin (demo_table 12)) =
      cend (demo_table 12) ∧
    (∀ i, i < (all_pairs (demo_table 12)).length →
      advance (demo_table 12) i (cbegin (demo_table 12)) ≠ cend (demo_table 12) ∧
        operator_deref (demo_table 12) (advance (demo_table 12) i (cbegin (demo_table 12))) =
          (all_pairs (demo_table 12))[i]?) ∧
    ((all_pairs (demo_table 12)).map Prod.fst).Nodup ∧
    (∀ p ∈ all_pairs (demo_table 12),
      contains_key demo_hash (demo_table 12) p.1 = true ∧
        at_ demo_hash (demo_table 12) p.1 = .ok p.2) ∧
    (size (demo_table 12) = 0 → cbegin (demo_table 12) = cend (demo_table 12)) :=
  C9_iteration demo_hash (demo_table 12) reachable_demo_twelve

theorem agrees_none {hash : K → Nat} {t : HashMap K V} {m : K → Option V} (h : Inv hash t)
    (ha : Agrees t m) (k : K) : contains_key hash t k = false ↔ m k = none := by
  constructor
  · intro hc
    cases hm : m k with
    | none => rfl
    | some v =>
      have := (h.contains_key_iff k).2 ⟨v, (ha k v).2 hm⟩
      rw [hc] at this
      cases this
  · intro hm
    cases hc : contains_key hash t k with
    | false => rfl
    | true =>
      obtain ⟨v, hv⟩ := (h.contains_key_iff k).1 hc
      rw [(ha k v).1 hv] at hm
      cases hm

theorem agrees_at {hash : K → Nat} {t : HashMap K V} {m : K → Option V} (h : Inv hash t)
    (ha : Agrees t m) (k : K) :
    at_ hash t k = at_result (m k) := by
  cases hm : m k with
  | none => exact at_of_not_contains ((agrees_none h ha k).2 hm)
  | some v => exact h.at_of_mem ((ha k v).2 hm)

theorem agrees_updated {t t1 : HashMap K V} {m : K → Option V} {key : K} {value : V}
    (ha : Agrees t m) (hu : Updated t t1 key value) :
    Agrees t1 (fun x => if x = key then some value else m x) := by
  intro k v
  rw [hu (k, v)]
  by_cases hk : k = key
  · subst hk
    simp
    constructor
    · intro h
      exact h.symm
    · intro h
      exact h.symm
  · simp only [if_neg hk, ← ha k v]
    constructor
    · rintro (h1 | ⟨h1, _⟩)
      · exact absurd (congrArg Prod.fst h1) hk
      · exact h1
    · intro h1
      exact Or.inr ⟨h1, hk⟩

theorem agrees_congr {t : HashMap K V} {m m1 : K → Option V} (ha : Agrees t m)
    (he : ∀ k, m1 k = m k) : Agrees t m1 := by
  intro k v
  rw [he k]
  exact ha k v

theorem apply_op_spec {hash : K → Nat} {depth : Nat} {t t1 : HashMap K V}
    {m : K → Option V} (op : Op K V) (hw : WF hash t) (ha : Agrees t m)
    (hr : apply_op hash depth op t = .ok t1) : WF hash t1 ∧ Agrees t1 (write_op op m) := by
  cases op with
  | insert k v =>
    simp only [apply_op] at hr
    cases hi : insert hash depth t k v with
    | error e => simp [hi] at hr
    | ok r =>
      rw [hi] at hr
      cases hr
      refine ⟨insert_wf hw hi, ?_⟩
      cases hc : contains_key hash t k with
      | true =>
        rw [insert_of_contains v depth hc] at hi
        cases hi
        apply agrees_congr ha
        intro x
        simp only [write_op]
        by_cases hx : x = k
        · subst hx
          cases hm : m x with
          | none => exact absurd ((agrees_none hw.inv ha x).2 hm) (by simp [hc])
          | some w => simp
        · simp [hx]
      | false =>
        obtain ⟨_, _, hp, _, _⟩ := insert_ok_spec hw.inv hw.load hc hi
        have := agrees_updated ha (updated_of_perm hw.inv hc hp)
        apply agrees_congr this
        intro x
        simp only [write_op, (agrees_none hw.inv ha k).1 hc]
  | erase k =>
    simp only [apply_op] at hr
    cases hi : erase hash depth t k with
    | error e => simp [hi] at hr
    | ok r =>
      rw [hi] at hr
      cases hr
      refine ⟨erase_wf hw hi, ?_⟩
      cases hc : contains_key hash t k with
      | false =>
        rw [erase_of_not_contains depth hc] at hi
        cases hi
        apply agrees_congr ha
        intro x
        simp only [write_op]
        by_cases hx : x = k
        · subst hx
          simp [(agrees_none hw.inv ha x).1 hc]
        · simp [hx]
      | true =>
        obtain ⟨v, hv⟩ := (hw.inv.contains_key_iff k).1 hc
        obtain ⟨t2, he, hI, hp, _, _⟩ := erase_spec depth hw.inv hw.load hv
        rw [he] at hi
        cases hi
        have hn := hw.inv.nodup
        rw [(hp.map Prod.fst).nodup_iff, List.map_cons, List.nodup_cons] at hn
        intro x w
        simp only [write_op]
        by_cases hx : x = k
        · subst hx
          simp only [if_true]
          constructor
          · intro hm
            exact absurd (List.mem_map.2 ⟨(x, w), hm, rfl⟩) hn.1
          · intro hm
            cases hm
        · simp only [if_neg hx, ← ha x w, hp.mem_iff, List.mem_cons]
          constructor
          · exact Or.inr
          · rintro (h1 | h1)
            · exact absurd (congrArg Prod.fst h1) hx
            · exact h1
  | index k =>
    simp only [apply_op] at hr
    cases hi : operator_index hash depth t k with
    | error e => simp [hi] at hr
    | ok r =>
      rw [hi] at hr
      cases hr
      refine ⟨operator_index_wf hw hi, ?_⟩
      have hi1 := operator_index_mono hi
      cases hc : contains_key hash t k with
      | true =>
        obtain ⟨j, _, ho⟩ := operator_index_of_contains (depth + 1) hc
        rw [ho] at hi1
        cases hi1
        apply agrees_congr ha
        intro x
        simp only [write_op]
        by_cases hx : x = k
        · subst hx
          cases hm : m x with
          | none => exact absurd ((agrees_none hw.inv ha x).2 hm) (by simp [hc])
          | some w => simp
        · simp [hx]
      | false =>
        obtain ⟨t0, hins, hI0, hp0, _, _⟩ :=
          insert_spec depth hw.inv hw.load (default : V) hc
        have hu := updated_of_perm hw.inv hc hp0
        have hk0 := (lookup_of_updated hw.inv hI0 hu).1
        obtain ⟨j, _, ho⟩ := operator_index_of_insert hc hins hk0
        rw [ho] at hi1
        cases hi1
        apply agrees_congr (agrees_updated ha hu)
        intro x
        simp only [write_op, (agrees_none hw.inv ha k).1 hc]
  | index_assign k v =>
    simp only [apply_op] at hr
    refine ⟨index_assign_wf hw hr, ?_⟩
    obtain ⟨t2, h2, _, hu, _, _, _⟩ := index_assign_spec depth hw.inv hw.load k v
    rw [index_assign_mono hr] at h2
    cases h2
    exact agrees_updated ha hu
  | at_assign k v =>
    simp only [apply_op] at hr
    refine ⟨at_assign_wf hw hr, ?_⟩
    cases hc : contains_key hash t k with
    | false =>
      rw [at_assign_of_not_contains v hc] at hr
      cases hr
    | true =>
      obtain ⟨t2, h2, _, hu, _, _⟩ := at_assign_spec hw.inv v hc
      rw [hr] at h2
      cases h2
      apply agrees_congr (agrees_updated ha hu)
      intro x
      simp only [write_op]
      by_cases hx : x = k
      · subst hx
        cases hm : m x with
        | none => exact absurd ((agrees_none hw.inv ha x).2 hm) (by simp [hc])
        | some w => simp
      · simp [hx]
  | clear =>
    simp only [apply_op] at hr
    cases hr
    refine ⟨clear_wf hw, ?_⟩
    intro k v
    rw [clear_eq_fresh hw.inv, all_pairs_fresh]
    simp [write_op]

theorem run_spec {hash : K → Nat} {depth : Nat} :
    ∀ (ops : List (Op K V)) (t t1 : HashMap K V) (m : K → Option V), WF hash t → Agrees t m →
      run hash depth ops t = .ok t1 → WF hash t1 ∧ Agrees t1 (last_written ops m)
  | [], t, t1, m, hw, ha, hr => by
    cases hr
    exact ⟨hw, ha⟩
  | op :: rest, t, t1, m, hw, ha, hr => by
    rw [run] at hr
    cases hx : apply_op hash depth op t with
    | error e => simp [hx] at hr
    | ok t2 =>
      rw [hx] at hr
      obtain ⟨hw2, ha2⟩ := apply_op_spec op hw ha hx
      exact run_spec rest t2 t1 _ hw2 ha2 hr

/-- C5: on a reachable table, `at (k)` throws the key-not-found error exactly when
`contains_key (k)` is false; when the key is stored it returns the value of a pair with that key
in the bucket of the key, no other value is stored for the key anywhere in the table, and the
fallback `return _hashmap[0][0].second` is not reached. When the table is the result of a
sequence of calls on a default-constructed table, the value returned is the one written last
for the key. -/
theorem C5_at (hash : K → Nat) (t : HashMap K V) (h : Reachable hash t) (k : K) :
    (at_ hash t k = .error .invalid_argument ↔ contains_key hash t k = false) ∧
    (contains_key hash t k = true →
      ∃ v, at_ hash t k = .ok v ∧ (k, v) ∈ bucket_at t (hash_func hash t k) ∧
        ∀ v1, (k, v1) ∈ all_pairs t → v1 = v) ∧
    at_reaches_fallback hash t k = false ∧
    (∀ (ops : List (Op K V)) (depth : Nat), run hash depth ops new = .ok t →
      at_ hash t k = at_result (last_written ops (fun _ => none) k)) := by
  have hI := h.wf.inv
  refine ⟨?_, ?_, ?_, ?_⟩
  · constructor
    · intro he
      cases hc : contains_key hash t k with
      | false => rfl
      | true =>
        obtain ⟨w, hw⟩ := at_ok_of_contains hc
        rw [hw] at he
        cases he
    · exact at_of_not_contains
  · intro hc
    obtain ⟨v, hv⟩ := (hI.contains_key_iff k).1 hc
    refine ⟨v, hI.at_of_mem hv, (hI.mem_iff (k, v)).1 hv, ?_⟩
    intro v1 hv1
    have := hI.at_of_mem hv1
    rw [hI.at_of_mem hv] at this
    cases this
    rfl
  · unfold at_reaches_fallback
    cases hc : contains_key hash t k with
    | false => rfl
    | true =>
      obtain ⟨v, hv⟩ := (hI.contains_key_iff k).1 hc
      rw [find_key_of_mem k v _ (hI.bucket_nodup _) ((hI.mem_iff (k, v)).1 hv)]
      rfl
  · intro ops depth hr
    obtain ⟨hw, ha⟩ := run_spec ops new t (fun _ => none)
      (wf_fresh_min : WF hash (new : HashMap K V))
      (by
        intro k0 v0
        rw [show all_pairs (new : HashMap K V) = [] from all_pairs_fresh _]
        simp) hr
    exact agrees_at hw.inv ha k

theorem reachable_run {hash : K → Nat} (depth : Nat) :
    ∀ (ops : List (Op K V)) (t t1 : HashMap K V), Reachable hash t →
      run hash depth ops t = .ok t1 → Reachable hash t1
  | [], t, t1, h, hr => by
    cases hr
    exact h
  | op :: rest, t, t1, h, hr => by
    rw [run] at hr
    cases hx : apply_op hash depth op t with
    | error e => simp [hx] at hr
    | ok t2 =>
      rw [hx] at hr
      refine reachable_run depth rest t2 t1 ?_ hr
      cases op with
      | insert k v =>
        simp only [apply_op] at hx
        cases hi : insert hash depth t k v with
        | error e => simp [hi] at hx
        | ok r =>
          rw [hi] at hx
          cases hx
          exact Reachable.insert depth t k v r h hi
      | erase k =>
        simp only [apply_op] at hx
        cases hi : erase hash depth t k with
        | error e => simp [hi] at hx
        | ok r =>
          rw [hi] at hx
          cases hx
          exact Reachable.erase depth t k r h hi
      | index k =>
        simp only [apply_op] at hx
        cases hi : operator_index hash depth t k with
        | error e => simp [hi] at hx
        | ok r =>
          rw [hi] at hx
          cases hx
          exact Reachable.operator_index depth t k r h hi
      | index_assign k v => exact Reachable.index_assign depth t k v t2 h hx
      | at_assign k v => exact Reachable.at_assign t k v t2 h hx
      | clear =>
        simp only [apply_op] at hx
        cases hx
        exact Reachable.clear t h

theorem reachable_demo_run : Reachable demo_hash demo_run :=
  reachable_run 1 demo_ops new demo_run Reachable.default (by decide!)

/-- C5 on the table left by the calls `demo_ops`, at key 1: the second `insert (1, 20)` was
rejected, so the value last written is 10. -/
theorem C5_at_witness :
    (run demo_hash 1 demo_ops new = .ok demo_run ∧
      last_written demo_ops (fun _ => none) 1 = some 10 ∧ at_ demo_hash demo_run 1 = .ok 10) ∧
    (at_ demo_hash demo_run 1 = .error .invalid_argument ↔
      contains_key demo_hash demo_run 1 = false) ∧
    (contains_key demo_hash demo_run 1 = true →
      ∃ v, at_ demo_hash demo_run 1 = .ok v ∧
        (1, v) ∈ bucket_at demo_run (hash_func demo_hash demo_run 1) ∧
        ∀ v1, (1, v1) ∈ all_pairs demo_run → v1 = v) ∧
    at_reaches_fallback demo_hash demo_run 1 = false ∧
    (∀ (ops : List (Op Nat Nat)) (depth : Nat), run demo_hash depth ops new = .ok demo_run →
      at_ demo_hash demo_run 1 = at_result (last_written ops (fun _ => none) 1)) :=
  ⟨⟨by decide!, by decide, by decide!⟩, C5_at demo_hash demo_run reachable_demo_run 1⟩

theorem reduce_capacity_first (n : Int) :
    ∀ (steps c : Nat), ∃ j : Nat, reduce_capacity n steps c = c / 2 ^ j ∧
      ∀ i, i < j → 4 * n < ((c / 2 ^ i : Nat) : Int) ∧ 1 < c / 2 ^ i
  | 0, c => ⟨0, by simp [reduce_capacity], fun i hi => absurd hi (Nat.not_lt_zero i)⟩
  | steps + 1, c => by
    rw [reduce_capacity]
    by_cases hcond : 4 * n < (c : Int) ∧ 1 < c
    · rw [if_pos hcond]
      obtain ⟨j, hj, hall⟩ := reduce_capacity_first n steps (c / 2)
      refine ⟨j + 1, ?_, ?_⟩
      · rw [hj, Nat.div_div_eq_div_mul, pow_succ, Nat.mul_comm]
      · intro i hi
        cases i with
        | zero => simpa using hcond
        | succ i =>
          have := hall i (by omega)
          rw [Nat.div_div_eq_div_mul] at this
          rw [pow_succ, Nat.mul_comm]
          exact this
    · rw [if_neg hcond]
      exact ⟨0, by simp, fun i hi => absurd hi (Nat.not_lt_zero i)⟩

/-- The effect of `erase` of a stored key on a table satisfying the invariant of reachable
tables, with the invariant of the result. -/
theorem erase_full_spec {hash : K → Nat} (depth : Nat) {t : HashMap K V} (hw : WF hash t)
    {k : K} (hk : contains_key hash t k = true) :
    ∃ t1, erase hash depth t k = .ok (true, t1) ∧ WF hash t1 ∧
      t1.num_of_elem = t.num_of_elem - 1 ∧
      t1.capacity = (if 4 * (t.num_of_elem - 1) < (t.capacity : Int)
        then reduce_capacity (t.num_of_elem - 1) t.capacity t.capacity else t.capacity) ∧
      contains_key hash t1 k = false ∧
      ∀ k1, k1 ≠ k →
        contains_key hash t1 k1 = contains_key hash t k1 ∧ at_ hash t1 k1 = at_ hash t k1 := by
  obtain ⟨v, hv⟩ := (hw.inv.contains_key_iff k).1 hk
  obtain ⟨t1, he, hI, hp, hc, hl⟩ := erase_spec depth hw.inv hw.load hv
  have hn := hw.inv.nodup
  rw [(hp.map Prod.fst).nodup_iff, List.map_cons, List.nodup_cons] at hn
  refine ⟨t1, he, erase_wf hw he, ?_, hc, ?_, ?_⟩
  · rw [hI.count, hw.inv.count, hp.length_eq]
    simp
  · cases hx : contains_key hash t1 k with
    | false => rfl
    | true => exact absurd ((hI.contains_key_iff_keys k).1 hx) hn.1
  · intro k1 hk1
    apply same_lookup hw.inv hI
    intro v1
    rw [hp.mem_iff, List.mem_cons]
    constructor
    · exact Or.inr
    · rintro (h2 | h2)
      · exact absurd (congrArg Prod.fst h2) hk1
      · exact h2

theorem erase_all_concat {hash : K → Nat} (depth : Nat) (k : K) :
    ∀ (l : List K) (t t1 : HashMap K V) (r : Bool × HashMap K V),
      erase_all hash depth l t = .ok t1 → erase hash depth t1 k = .ok r →
      erase_all hash depth (l ++ [k]) t = .ok r.2
  | [], t, t1, r, h1, h2 => by
    cases h1
    simp [erase_all, h2]
  | q :: rest, t, t1, r, h1, h2 => by
    rw [List.cons_append, erase_all]
    rw [erase_all] at h1
    cases hx : erase hash depth t q with
    | error e => simp [hx] at h1
    | ok r0 =>
      rw [hx] at h1
      exact erase_all_concat depth k rest r0.2 t1 r h1 h2

/-- A run of `erase` calls on stored keys that never brings the load factor below `1/4`
keeps the capacity. -/
theorem erase_all_keep {hash : K → Nat} (depth : Nat) :
    ∀ (l : List K) (t : HashMap K V), WF hash t → l.Nodup →
      (∀ k ∈ l, contains_key hash t k = true) →
      (t.capacity : Int) ≤ 4 * (t.num_of_elem - (l.length : Int)) →
      ∃ t1, erase_all hash depth l t = .ok t1 ∧ WF hash t1 ∧ t1.capacity = t.capacity ∧
        t1.num_of_elem = t.num_of_elem - (l.length : Int) ∧
        ∀ k, k ∉ l → contains_key hash t1 k = contains_key hash t k
  | [], t, hw, _, _, _ => ⟨t, rfl, hw, rfl, by simp, fun _ _ => rfl⟩
  | k :: rest, t, hw, hn, hm, hl => by
    rw [List.nodup_cons] at hn
    simp only [List.length_cons] at hl
    push_cast at hl
    obtain ⟨t0, he, hw0, hn0, hc0, _, hother⟩ :=
      erase_full_spec depth hw (hm k (List.mem_cons_self _ _))
    have hcap : t0.capacity = t.capacity := by
      rw [hc0, if_neg (by omega)]
    obtain ⟨t1, hr, hw1, hc1, hn1, ho1⟩ := erase_all_keep depth rest t0 hw0 hn.2
      (fun q hq => by
        rw [(hother q (fun hqk => hn.1 (hqk ▸ hq))).1]
        exact hm q (List.mem_cons_of_mem _ hq))
      (by rw [hcap, hn0]; omega)
    refine ⟨t1, by rw [erase_all, he]; exact hr, hw1, by rw [hc1, hcap], ?_, ?_⟩
    · rw [hn1, hn0]
      simp only [List.length_cons]
      push_cast
      omega
    · intro q hq
      rw [List.mem_cons, not_or] at hq
      rw [ho1 q hq.2, (hother q hq.1).1]

/-- C11: on a reachable table with `n` pairs at capacity `c`, `erase` of a stored key succeeds
for every recursion bound (so the pairs are put back without growing the table) and leaves the
capacity `c / 2^j`, the first value of the sequence `c, c/2, c/4, ...` that is at most
`4 * (n - 1)` or equal to `1`; hence the load factor is at least `1/4` when the new capacity
exceeds `1`. From thirteen pairs at capacity 32, erasing up to five stored keys keeps capacity
32 (down to eight pairs), and erasing six leaves capacity 16 with seven pairs. -/
theorem C11_erase_capacity (hash : K → Nat) (t : HashMap K V) (h : Reachable hash t) (k : K)
    (hk : contains_key hash t k = true) (depth : Nat)
    (s : HashMap K V) (hs : Reachable hash s) (hcap : s.capacity = 32) (hsize : size s = 13)
    (l5 l6 : List K) (hn5 : l5.Nodup) (hm5 : ∀ q ∈ l5, contains_key hash s q = true)
    (hl5 : l5.length ≤ 5) (hn6 : l6.Nodup) (hm6 : ∀ q ∈ l6, contains_key hash s q = true)
    (hl6 : l6.length = 6) :
    (∃ t1 j, erase hash depth t k = .ok (true, t1) ∧ size t1 = size t - 1 ∧
      t1.capacity = t.capacity / 2 ^ j ∧
      ((t1.capacity : Int) ≤ 4 * (size t - 1) ∨ t1.capacity = 1) ∧
      (∀ i, i < j →
        ¬ (((t.capacity / 2 ^ i : Nat) : Int) ≤ 4 * (size t - 1) ∨ t.capacity / 2 ^ i = 1)) ∧
      (1 < t1.capacity → (t1.capacity : Int) ≤ 4 * size t1)) ∧
    (∃ t5, erase_all hash depth l5 s = .ok t5 ∧ t5.capacity = 32 ∧
      size t5 = 13 - (l5.length : Int)) ∧
    (∃ t6, erase_all hash depth l6 s = .ok t6 ∧ t6.capacity = 16 ∧ size t6 = 7) := by
  have hw := h.wf
  have hws := hs.wf
  unfold size at hsize
  refine ⟨?_, ?_, ?_⟩
  · obtain ⟨t1, he, hw1, hn1, hc1, _, _⟩ := erase_full_spec depth hw hk
    have hpos := hw1.inv.cap_pos
    by_cases hlow : 4 * (t.num_of_elem - 1) < (t.capacity : Int)
    · rw [if_pos hlow] at hc1
      obtain ⟨j, hj, hall⟩ := reduce_capacity_first (t.num_of_elem - 1) t.capacity t.capacity
      have hstop := (reduce_capacity_spec (t.num_of_elem - 1) t.capacity t.capacity
        (le_refl _)).1
      rw [← hc1] at hstop hj
      refine ⟨t1, j, he, hn1, hj, ?_, ?_, ?_⟩
      · unfold size
        by_cases h1 : 1 < t1.capacity
        · left
          have : ¬ 4 * (t.num_of_elem - 1) < (t1.capacity : Int) := fun hx => hstop ⟨hx, h1⟩
          omega
        · right
          omega
      · intro i hi
        have := hall i hi
        unfold size
        omega
      · intro h1
        unfold size
        rw [hn1]
        have : ¬ 4 * (t.num_of_elem - 1) < (t1.capacity : Int) := fun hx => hstop ⟨hx, h1⟩
        omega
    · rw [if_neg hlow] at hc1
      refine ⟨t1, 0, he, hn1, by simp [hc1], ?_, fun i hi => absurd hi (Nat.not_lt_zero i), ?_⟩
      · left
        unfold size
        rw [hc1]
        omega
      · intro _
        unfold size
        rw [hn1, hc1]
        omega
  · obtain ⟨t5, hr, _, hc5, hn5a, _⟩ := erase_all_keep depth l5 s hws hn5 hm5
      (by rw [hcap, hsize]; push_cast; omega)
    exact ⟨t5, hr, by rw [hc5, hcap], by unfold size; rw [hn5a, hsize]⟩
  · have hne : l6 ≠ [] := by
      intro he
      rw [he] at hl6
      cases hl6
    have hsplit := List.dropLast_append_getLast hne
    have hn2 := hn6
    rw [← hsplit, List.nodup_append] at hn2
    have hlen5 : l6.dropLast.length = 5 := by simp [hl6]
    obtain ⟨t5, hr, hw5, hc5, hn5a, ho5⟩ := erase_all_keep depth l6.dropLast s hws hn2.1
      (fun q hq => hm6 q (List.mem_of_mem_dropLast hq))
      (by rw [hcap, hsize, hlen5]; decide)
    have hk6 : contains_key hash t5 (l6.getLast hne) = true := by
      rw [ho5 _ (fun hx => hn2.2.2 hx (by simp))]
      exact hm6 _ (List.getLast_mem hne)
    obtain ⟨t6, he, _, hn6a, hc6, _, _⟩ := erase_full_spec depth hw5 hk6
    rw [hlen5, hsize] at hn5a
    rw [hc5, hcap, hn5a] at hc6
    rw [hn5a] at hn6a
    refine ⟨t6, ?_, ?_, ?_⟩
    · have := erase_all_concat depth (l6.getLast hne) l6.dropLast s t5 (true, t6) hr he
      rw [hsplit] at this
      exact this
    · rw [hc6]
      decide
    · unfold size
      rw [hn6a]
      decide

/-- C11 on the table of thirteen at capacity 32: one erase, the run of five erases and the run
of six. -/
theorem C11_erase_capacity_witness :
    (∃ t1 j, erase demo_hash 0 demo_eight 5 = .ok (true, t1) ∧ size t1 = size demo_eight - 1 ∧
      t1.capacity = demo_eight.capacity / 2 ^ j ∧
      ((t1.capacity : Int) ≤ 4 * (size demo_eight - 1) ∨ t1.capacity = 1) ∧
      (∀ i, i < j →
        ¬ (((demo_eight.capacity / 2 ^ i : Nat) : Int) ≤ 4 * (size demo_eight - 1) ∨
          demo_eight.capacity / 2 ^ i = 1)) ∧
      (1 < t1.capacity → (t1.capacity : Int) ≤ 4 * size t1)) ∧
    (∃ t5, erase_all demo_hash 0 [12, 11, 10, 9, 8] (demo_table 13) = .ok t5 ∧
      t5.capacity = 32 ∧ size t5 = 13 - (([12, 11, 10, 9, 8] : List Nat).length : Int)) ∧
    (∃ t6, erase_all demo_hash 0 [12, 11, 10, 9, 8, 7] (demo_table 13) = .ok t6 ∧
      t6.capacity = 16 ∧ size t6 = 7) :=
  C11_erase_capacity demo_hash demo_eight reachable_demo_eight 5 (by decide!) 0
    (demo_table 13) reachable_demo_thirteen (by decide!) (by decide!)
    [12, 11, 10, 9, 8] [12, 11, 10, 9, 8, 7] (by decide) (by decide!) (by decide)
    (by decide) (by decide!) (by decide)

/-- C12: in a reachable table (constructors, copy, assignment and every mutating call
included) the keys of the stored pairs, taken over all buckets, are pairwise distinct: two
stored pairs with the same key are the same pair in the same bucket. -/
theorem C12_no_duplicate_keys (hash : K → Nat) (t : HashMap K V) (h : Reachable hash t) :
    (t.hashmap.flatten.map Prod.fst).Nodup ∧
    ((all_pairs t).map Prod.fst).Nodup ∧
    ∀ (i j : Nat) (p q : K × V), p ∈ bucket_at t i → q ∈ bucket_at t j → p.1 = q.1 →
      p = q ∧ i = j := by
  have hI := h.wf.inv
  refine ⟨?_, hI.nodup, ?_⟩
  · rw [← all_pairs_eq_flatten hI.len]
    exact hI.nodup
  · intro i j p q hp hq he
    have hi := hI.placed i p hp
    have hj := hI.placed j q hq
    have hpm : (p.1, p.2) ∈ all_pairs t := (hI.mem_iff p).2 (by rw [hi]; exact hp)
    have hqm : (q.1, q.2) ∈ all_pairs t := (hI.mem_iff q).2 (by rw [hj]; exact hq)
    have h1 := hI.at_of_mem hpm
    rw [he, hI.at_of_mem hqm] at h1
    injection h1 with h1
    exact ⟨Prod.ext he h1.symm, by rw [← hi, ← hj, he]⟩

/-- C12 on the table left by the calls `demo_ops`. -/
theorem C12_no_duplicate_keys_witness :
    (demo_run.hashmap.flatten.map Prod.fst).Nodup ∧
    ((all_pairs demo_run).map Prod.fst).Nodup ∧
    ∀ (i j : Nat) (p q : Nat × Nat), p ∈ bucket_at demo_run i → q ∈ bucket_at demo_run j →
      p.1 = q.1 → p = q ∧ i = j :=
  C12_no_duplicate_keys demo_hash demo_run reachable_demo_run

/-- C13: in a reachable table `size()` is the number of keys for which `contains_key` is true;
the counter is the total number of pairs stored in the buckets, and every stored pair sits in
the bucket `hash_func` of its key, which is the bucket `contains_key` scans. -/
theorem C13_size_counts_keys (hash : K → Nat) (t : HashMap K V) (h : Reachable hash t) :
    (∃ s : Finset K, (∀ k, k ∈ s ↔ contains_key hash t k = true) ∧ size t = (s.card : Int)) ∧
    size t = (t.hashmap.flatten.length : Int) ∧
    t.hashmap.length = t.capacity ∧
    ∀ (i : Nat) (p : K × V), p ∈ bucket_at t i → hash_func hash t p.1 = i := by
  have hI := h.wf.inv
  refine ⟨⟨((all_pairs t).map Prod.fst).toFinset, ?_, ?_⟩, ?_, hI.len, hI.placed⟩
  · intro k
    rw [List.mem_toFinset, hI.contains_key_iff_keys]
  · unfold size
    rw [List.toFinset_card_of_nodup hI.nodup, List.length_map]
    exact hI.count
  · unfold size
    rw [← all_pairs_eq_flatten hI.len]
    exact hI.count

/-- C13 on the table left by the calls `demo_ops`. -/
theorem C13_size_counts_keys_witness :
    (∃ s : Finset Nat, (∀ k, k ∈ s ↔ contains_key demo_hash demo_run k = true) ∧
      size demo_run = (s.card : Int)) ∧
    size demo_run = (demo_run.hashmap.flatten.length : Int) ∧
    demo_run.hashmap.length = demo_run.capacity ∧
    ∀ (i : Nat) (p : Nat × Nat), p ∈ bucket_at demo_run i → hash_func demo_hash demo_run p.1 = i :=
  C13_size_counts_keys demo_hash demo_run reachable_demo_run

/-- C14: the capacity of a reachable table is a power of two, hence at least `1` and never `0`.
It can be smaller than the initial 16: inserting one key into a default-constructed table and
erasing it leaves a (reachable) table of capacity `1`. -/
theorem C14_capacity_power_of_two (hash : K → Nat) (t : HashMap K V) (h : Reachable hash t)
    (k : K) (v : V) (depth : Nat) :
    (∃ j : Nat, t.capacity = 2 ^ j) ∧ 1 ≤ t.capacity ∧ t.capacity ≠ 0 ∧
    ∃ t1 t2, insert hash depth new k v = .ok (true, t1) ∧ t1.capacity = 16 ∧
      erase hash depth t1 k = .ok (true, t2) ∧ t2.capacity = 1 ∧ Reachable hash t2 := by
  have hw := h.wf
  have hpos := hw.inv.cap_pos
  refine ⟨hw.pow2, hpos, by omega, ?_⟩
  have hc : contains_key hash (new : HashMap K V) k = false := contains_key_fresh _ _
  have hi : insert hash depth new k v = .ok (true, inserted hash new k v) :=
    insert_of_not_above v depth hc rfl
  have hr1 : Reachable hash (inserted hash (new : HashMap K V) k v) :=
    Reachable.insert depth new k v _ Reachable.default hi
  have hk1 : contains_key hash (inserted hash (new : HashMap K V) k v) k = true := by
    obtain ⟨_, hI, hp, _, _⟩ :=
      insert_ok_spec (inv_fresh (by decide)) (by simp [new, fresh]) hc hi
    exact (hI.contains_key_iff k).2 ⟨v, hp.mem_iff.2 (List.mem_cons_self _ _)⟩
  obtain ⟨t2, he, _, _, hc2, _, _⟩ := erase_full_spec depth hr1.wf hk1
  refine ⟨_, t2, hi, rfl, he, ?_, Reachable.erase depth _ k _ hr1 he⟩
  rw [hc2]
  show (if 4 * ((0 : Int) + 1 - 1) < ((16 : Nat) : Int)
    then reduce_capacity ((0 : Int) + 1 - 1) 16 16 else 16) = 1
  decide

/-- C14 on the table of thirteen (capacity 32) and with key 3. -/
theorem C14_capacity_power_of_two_witness :
    (∃ j : Nat, (demo_table 13).capacity = 2 ^ j) ∧ 1 ≤ (demo_table 13).capacity ∧
    (demo_table 13).capacity ≠ 0 ∧
    ∃ t1 t2, insert demo_hash 0 new 3 30 = .ok (true, t1) ∧ t1.capacity = 16 ∧
      erase demo_hash 0 t1 3 = .ok (true, t2) ∧ t2.capacity = 1 ∧ Reachable demo_hash t2 :=
  C14_capacity_power_of_two demo_hash (demo_table 13) reachable_demo_thirteen 3 30 0

/-- C15: on a reachable table every `insert` call returns (for a recursion bound of at least
one), whether it adds the pair or rejects it and whether or not it grows the table, and the
table it leaves has a load factor of at most `3/4`. -/
theorem C15_load_after_insert (hash : K → Nat) (t : HashMap K V) (h : Reachable hash t)
    (k : K) (v : V) (depth : Nat) :
    ∃ r, insert hash (depth + 1) t k v = .ok r ∧
      (r.1 = false ↔ contains_key hash t k = true) ∧
      4 * size r.2 ≤ 3 * (r.2.capacity : Int) := by
  have hw := h.wf
  cases hc : contains_key hash t k with
  | true => exact ⟨(false, t), insert_of_contains v _ hc, by simp, hw.load⟩
  | false =>
    obtain ⟨t1, hi, _, _, _, hl⟩ := insert_spec depth hw.inv hw.load v hc
    exact ⟨(true, t1), hi, by simp, hl⟩

/-- C15 at the insert that grows the table of twelve. -/
theorem C15_load_after_insert_witness :
    ∃ r, insert demo_hash 1 (demo_table 12) 12 120 = .ok r ∧
      (r.1 = false ↔ contains_key demo_hash (demo_table 12) 12 = true) ∧
      4 * size r.2 ≤ 3 * (r.2.capacity : Int) :=
  C15_load_after_insert demo_hash (demo_table 12) reachable_demo_twelve 12 120 0

/-- C16, as stated, fails: the first insert into the empty table succeeds and leaves one pair
at capacity 16, a capacity above `1` with a load factor `1/16` below `1/4`. -/
theorem C16_counterexample :
    ∃ t1, insert demo_hash 1 (new : HashMap Nat Nat) 0 0 = .ok (true, t1) ∧
      1 < t1.capacity ∧ ¬ ((t1.capacity : Int) ≤ 4 * size t1 ∧
        4 * size t1 ≤ 3 * (t1.capacity : Int)) :=
  ⟨inserted demo_hash new 0 0, by decide!, by decide!, by decide!⟩

theorem settled_new {hash : K → Nat} : Settled hash (new : HashMap K V) :=
  ⟨wf_fresh_min, fun _ => Or.inr ⟨rfl, by simp [new, fresh]⟩⟩

/-- A successful `insert` of a new key into a table reached by `insert` and `erase` calls. -/
theorem settled_insert {hash : K → Nat} (depth : Nat) {t : HashMap K V} (hs : Settled hash t)
    {k : K} (v : V) (hk : contains_key hash t k = false) :
    ∃ t1, insert hash (depth + 1) t k v = .ok (true, t1) ∧ Settled hash t1 ∧
      1 ≤ t1.num_of_elem := by
  obtain ⟨hw, hlow⟩ := hs
  obtain ⟨t1, hi, hI, hp, hc, hl⟩ := insert_spec depth hw.inv hw.load v hk
  have hn : t1.num_of_elem = t.num_of_elem + 1 := by
    rw [hI.count, hp.length_eq, hw.inv.count]
    simp
  have hn0 : (0 : Int) ≤ t.num_of_elem := by
    rw [hw.inv.count]
    exact Int.natCast_nonneg _
  have hcp := hw.inv.cap_pos
  refine ⟨t1, hi, ⟨insert_wf hw hi, ?_⟩, by omega⟩
  intro h1
  by_cases hg : 3 * (t.capacity : Int) < 4 * (t.num_of_elem + 1)
  · rw [if_pos hg] at hc
    left
    rw [hn, hc]
    push_cast
    omega
  · rw [if_neg hg] at hc
    rw [hc] at h1 ⊢
    rw [hn]
    rcases hlow h1 with h2 | h2
    · left
      omega
    · by_cases h3 : t.num_of_elem + 1 ≤ 3
      · exact Or.inr ⟨h2.1, h3⟩
      · left
        rw [h2.1]
        push_cast
        omega

/-- A successful `erase` leaves a load factor of at least `1/4` when it leaves a capacity
above `1`. -/
theorem settled_erase {hash : K → Nat} (depth : Nat) {t : HashMap K V} (hw : WF hash t)
    {k : K} (hk : contains_key hash t k = true) :
    ∃ t1, erase hash depth t k = .ok (true, t1) ∧ WF hash t1 ∧
      (1 < t1.capacity → (t1.capacity : Int) ≤ 4 * t1.num_of_elem) := by
  obtain ⟨t1, he, hw1, hn1, hc1, _, _⟩ := erase_full_spec depth hw hk
  refine ⟨t1, he, hw1, ?_⟩
  intro h1
  by_cases hlow : 4 * (t.num_of_elem - 1) < (t.capacity : Int)
  · rw [if_pos hlow] at hc1
    have hstop := (reduce_capacity_spec (t.num_of_elem - 1) t.capacity t.capacity
      (le_refl _)).1
    rw [← hc1] at hstop
    have : ¬ 4 * (t.num_of_elem - 1) < (t1.capacity : Int) := fun hx => hstop ⟨hx, h1⟩
    omega
  · rw [if_neg hlow] at hc1
    rw [hn1, hc1]
    omega

/-- Every sequence of `insert` and `erase` calls runs to completion, for a recursion bound of
at least one, and keeps the invariant `Settled`. -/
theorem run_settled {hash : K → Nat} (depth : Nat) :
    ∀ (ops : List (Op K V)) (t : HashMap K V), Settled hash t →
      (∀ op ∈ ops, insert_or_erase op = true) →
      ∃ t1, run hash (depth + 1) ops t = .ok t1 ∧ Settled hash t1
  | [], t, hs, _ => ⟨t, rfl, hs⟩
  | op :: rest, t, hs, hops => by
    have hrest : ∀ o ∈ rest, insert_or_erase o = true :=
      fun o ho => hops o (List.mem_cons_of_mem _ ho)
    have hop := hops op (List.mem_cons_self _ _)
    cases op with
    | insert k v =>
      cases hc : contains_key hash t k with
      | true =>
        obtain ⟨t1, hr, h1⟩ := run_settled depth rest t hs hrest
        exact ⟨t1, by simp [run, apply_op, insert_of_contains v _ hc, hr], h1⟩
      | false =>
        obtain ⟨t0, hi, hs0, _⟩ := settled_insert depth hs v hc
        obtain ⟨t1, hr, h1⟩ := run_settled depth rest t0 hs0 hrest
        exact ⟨t1, by simp [run, apply_op, hi, hr], h1⟩
    | erase k =>
      cases hc : contains_key hash t k with
      | false =>
        obtain ⟨t1, hr, h1⟩ := run_settled depth rest t hs hrest
        exact ⟨t1, by simp [run, apply_op, erase_of_not_contains _ hc, hr], h1⟩
      | true =>
        obtain ⟨t0, he, hw0, hlow0⟩ := settled_erase (depth + 1) hs.1 hc
        obtain ⟨t1, hr, h1⟩ := run_settled depth rest t0
          ⟨hw0, fun hx => Or.inl (hlow0 hx)⟩ hrest
        exact ⟨t1, by simp [run, apply_op, he, hr], h1⟩
    | index k => simp [insert_or_erase] at hop
    | index_assign k v => simp [insert_or_erase] at hop
    | at_assign k v => simp [insert_or_erase] at hop
    | clear => simp [insert_or_erase] at hop

/-- C16, amended: every sequence of `insert` and `erase` calls on a default-constructed table
runs to completion (for a recursion bound of at least one). On the table it leaves, a
successful `insert` leaves a load factor of at most `3/4` and, when the capacity it leaves
exceeds `1`, of at least `1/4` except exactly when it leaves capacity 16 with at most three
pairs; a successful `erase` leaves a load factor of at most `3/4` and, when the capacity it
leaves exceeds `1`, of at least `1/4`. -/
theorem C16_load_bounds (hash : K → Nat) (ops : List (Op K V))
    (hops : ∀ op ∈ ops, insert_or_erase op = true) (k k1 : K) (v : V) (depth : Nat) :
    ∃ t, run hash (depth + 1) ops new = .ok t ∧
      (contains_key hash t k = false →
        ∃ t1, insert hash (depth + 1) t k v = .ok (true, t1) ∧
          4 * size t1 ≤ 3 * (t1.capacity : Int) ∧
          (1 < t1.capacity →
            ((t1.capacity : Int) ≤ 4 * size t1 ↔ ¬ (t1.capacity = 16 ∧ size t1 ≤ 3)))) ∧
      (contains_key hash t k1 = true →
        ∃ t1, erase hash depth t k1 = .ok (true, t1) ∧
          4 * size t1 ≤ 3 * (t1.capacity : Int) ∧
          (1 < t1.capacity → (t1.capacity : Int) ≤ 4 * size t1)) := by
  obtain ⟨t, hr, hs⟩ := run_settled depth ops new (settled_new : Settled hash (new : HashMap K V))
    hops
  refine ⟨t, hr, ?_, ?_⟩
  · intro hc
    obtain ⟨t1, hi, hs1, hpos⟩ := settled_insert depth hs v hc
    refine ⟨t1, hi, hs1.1.load, ?_⟩
    intro h1
    unfold size
    constructor
    · rintro hle ⟨h16, h3⟩
      rw [h16] at hle
      push_cast at hle
      omega
    · intro hne
      rcases hs1.2 h1 with h2 | h2
      · exact h2
      · exact absurd h2 hne
  · intro hc
    obtain ⟨t1, he, hw1, hlow⟩ := settled_erase depth hs.1 hc
    exact ⟨t1, he, hw1.load, hlow⟩

/-- C16, amended, after the calls `demo_insert_erase`, which leave three pairs at capacity 16:
the insert of key 3 brings the load factor to `4/16`, the erase of key 1 shrinks the table. -/
theorem C16_load_bounds_witness :
    (run demo_hash 1 demo_insert_erase new = .ok demo_three ∧ demo_three.capacity = 16 ∧
      size demo_three = 3 ∧ contains_key demo_hash demo_three 3 = false ∧
      contains_key demo_hash demo_three 1 = true) ∧
    ∃ t, run demo_hash 1 demo_insert_erase new = .ok t ∧
      (contains_key demo_hash t 3 = false →
        ∃ t1, insert demo_hash 1 t 3 30 = .ok (true, t1) ∧
          4 * size t1 ≤ 3 * (t1.capacity : Int) ∧
          (1 < t1.capacity →
            ((t1.capacity : Int) ≤ 4 * size t1 ↔ ¬ (t1.capacity = 16 ∧ size t1 ≤ 3)))) ∧
      (contains_key demo_hash t 1 = true →
        ∃ t1, erase demo_hash 0 t 1 = .ok (true, t1) ∧
          4 * size t1 ≤ 3 * (t1.capacity : Int) ∧
          (1 < t1.capacity → (t1.capacity : Int) ≤ 4 * size t1)) :=
  ⟨by decide!, C16_load_bounds demo_hash demo_insert_erase (by decide) 3 1 30 0⟩

/-- C20, as stated, fails: the insert that grows the table of twelve from capacity 16 to 32
leaves thirteen pairs, a load factor `13/32` above `3/8`. -/
theorem C20_counterexample :
    ∃ t1, insert demo_hash 1 (demo_table 12) 12 120 = .ok (true, t1) ∧
      t1.capacity = (demo_table 12).capacity * 2 ∧ size t1 = 13 ∧ t1.capacity = 32 ∧
      ¬ (8 * size t1 ≤ 3 * (t1.capacity : Int)) :=
  ⟨demo_table 13, by decide!, by decide!, by decide!, by decide!, by decide!⟩

/-- C20, amended: on a reachable table an `insert` that grows the table (the key is new and
the load factor with the new pair exceeds `3/4`) doubles the capacity and leaves a load factor
above `3/8` and at most `3/8 + 1/capacity`, which is at most `3/4`. -/
theorem C20_load_after_growth (hash : K → Nat) (t : HashMap K V) (h : Reachable hash t)
    (k : K) (v : V) (hk : contains_key hash t k = false)
    (hg : 3 * (t.capacity : Int) < 4 * (size t + 1)) (depth : Nat) :
    ∃ t1, insert hash (depth + 1) t k v = .ok (true, t1) ∧
      t1.capacity = t.capacity * 2 ∧ size t1 = size t + 1 ∧
      3 * (t1.capacity : Int) < 8 * size t1 ∧
      8 * size t1 ≤ 3 * (t1.capacity : Int) + 8 ∧
      4 * size t1 ≤ 3 * (t1.capacity : Int) := by
  have hw := h.wf
  unfold size at hg
  obtain ⟨t1, hi, hI, hp, hc, hl⟩ := insert_spec depth hw.inv hw.load v hk
  rw [if_pos hg] at hc
  have hn : t1.num_of_elem = t.num_of_elem + 1 := by
    rw [hI.count, hp.length_eq, hw.inv.count]
    simp
  have hload := hw.load
  refine ⟨t1, hi, hc, hn, ?_, ?_, hl⟩
  · unfold size
    rw [hn, hc]
    push_cast
    omega
  · unfold size
    rw [hn, hc]
    push_cast
    omega

/-- C20, amended, at the insert that grows the table of twelve. -/
theorem C20_load_after_growth_witness :
    ∃ t1, insert demo_hash 1 (demo_table 12) 12 120 = .ok (true, t1) ∧
      t1.capacity = (demo_table 12).capacity * 2 ∧ size t1 = size (demo_table 12) + 1 ∧
      3 * (t1.capacity : Int) < 8 * size t1 ∧
      8 * size t1 ≤ 3 * (t1.capacity : Int) + 8 ∧
      4 * size t1 ≤ 3 * (t1.capacity : Int) :=
  C20_load_after_growth demo_hash (demo_table 12) reachable_demo_twelve 12 120 (by decide!)
    (by decide!) 0

theorem reachable_update {hash : String → Nat} (depth : Nat) :
    ∀ (l : List (String × String)) (d d1 : HashMap String String), Reachable hash d →
      Dictionary_update hash depth l d = .ok d1 → Reachable hash d1
  | [], d, d1, h, hr => by
    cases hr
    exact h
  | p :: rest, d, d1, h, hr => by
    rw [Dictionary_update] at hr
    cases hx : index_assign hash depth d p.1 p.2 with
    | error e => simp [hx] at hr
    | ok d2 =>
      rw [hx] at hr
      exact reachable_update depth rest d2 d1 (Reachable.index_assign depth d p.1 p.2 d2 h hx) hr

theorem reachable_demo_dict : Reachable demo_string_hash demo_dict :=
  reachable_update 1 [("a", "1"), ("b", "3"), ("a", "2")] new demo_dict Reachable.default
    (by decide!)

/-- C17: on a reachable dictionary, `Dictionary::erase` of a key that is not stored throws
`InvalidKey` where the base `erase` returns `false`, and leaves the dictionary as it was (same
buckets, size and capacity); for a stored key it returns `true` and leaves the table that the
base `erase` leaves. This holds for every recursion bound. -/
theorem C17_dictionary_erase (hash : String → Nat) (d : HashMap String String)
    (h : Reachable hash d) (key key1 : String) (depth : Nat) :
    (contains_key hash d key = false →
      erase hash depth d key = .ok (false, d) ∧
        Dictionary_erase hash depth d key = .ok (.error .InvalidKey, d)) ∧
    (contains_key hash d key1 = true →
      ∃ d1, erase hash depth d key1 = .ok (true, d1) ∧
        Dictionary_erase hash depth d key1 = .ok (.ok true, d1)) := by
  refine ⟨?_, ?_⟩
  · intro hc
    have he : erase hash depth d key = .ok (false, d) := erase_of_not_contains depth hc
    exact ⟨he, by simp [Dictionary_erase, he]⟩
  · intro hc
    obtain ⟨d1, he, _⟩ := erase_full_spec depth h.wf hc
    exact ⟨d1, he, by simp [Dictionary_erase, he]⟩

/-- C17 on the dictionary `demo_dict`: `"c"` is not stored, `"a"` is. -/
theorem C17_dictionary_erase_witness :
    (contains_key demo_string_hash demo_dict "c" = false ∧
      contains_key demo_string_hash demo_dict "a" = true) ∧
    (contains_key demo_string_hash demo_dict "c" = false →
      erase demo_string_hash 0 demo_dict "c" = .ok (false, demo_dict) ∧
        Dictionary_erase demo_string_hash 0 demo_dict "c" = .ok (.error .InvalidKey, demo_dict)) ∧
    (contains_key demo_string_hash demo_dict "a" = true →
      ∃ d1, erase demo_string_hash 0 demo_dict "a" = .ok (true, d1) ∧
        Dictionary_erase demo_string_hash 0 demo_dict "a" = .ok (.ok true, d1)) :=
  ⟨by decide!, C17_dictionary_erase demo_string_hash demo_dict reachable_demo_dict "c" "a" 0⟩

theorem last_value_last :
    ∀ (l : List (K × V)) (i : Nat) (hi : i < l.length),
      (∀ (j : Nat) (hj : j < l.length), i < j → l[j].1 ≠ l[i].1) →
      last_value l l[i].1 = some l[i].2
  | [], _, hi, _ => by simp at hi
  | p :: rest, 0, _, hlast => by
    have hnot : p.1 ∉ rest.map Prod.fst := by
      intro hm
      obtain ⟨q, hq, he⟩ := List.mem_map.1 hm
      obtain ⟨j, hj, hje⟩ := List.getElem_of_mem hq
      apply hlast (j + 1) (by simpa using hj) (by omega)
      show (rest[j]).1 = p.1
      rw [hje, he]
    show last_value (p :: rest) p.1 = some p.2
    rw [last_value, (last_value_eq_none_iff p.1 rest).2 hnot]
    simp
  | p :: rest, i + 1, hi, hlast => by
    have hi1 : i < rest.length := by simpa using hi
    have ih := last_value_last rest i hi1 (fun j hj hij => by
      have := hlast (j + 1) (by simpa using hj) (by omega)
      simpa using this)
    show last_value (p :: rest) rest[i].1 = some rest[i].2
    rw [last_value, ih]

/-- The loop of `Dictionary::update`: every key of the sequence ends up bound to the value of
its last occurrence, the other keys keep their pairs. -/
theorem update_spec {hash : String → Nat} (depth : Nat) :
    ∀ (l : List (String × String)) (d : HashMap String String), WF hash d →
      ∃ d1, Dictionary_update hash (depth + 1) l d = .ok d1 ∧ WF hash d1 ∧
        ∀ k v, (k, v) ∈ all_pairs d1 ↔
          (last_value l k = some v ∨ (last_value l k = none ∧ (k, v) ∈ all_pairs d))
  | [], d, h => ⟨d, rfl, h, by simp [last_value]⟩
  | p :: rest, d, h => by
    obtain ⟨dm, ha, _, hu, _, _, _⟩ := index_assign_spec depth h.inv h.load p.1 p.2
    obtain ⟨d1, hr, h1, hs⟩ := update_spec depth rest dm (index_assign_wf h ha)
    refine ⟨d1, by rw [Dictionary_update, ha]; exact hr, h1, ?_⟩
    intro k v
    rw [hs k v, hu (k, v), last_value]
    cases hlv : last_value rest k with
    | some w => simp
    | none =>
      by_cases hk : p.1 = k
      · subst hk
        constructor
        · rintro (h2 | ⟨_, h2 | ⟨_, h2⟩⟩)
          · cases h2
          · left
            have : v = p.2 := congrArg Prod.snd h2
            simp [this]
          · exact absurd rfl h2
        · rintro (h2 | ⟨h2, _⟩)
          · right
            refine ⟨rfl, Or.inl ?_⟩
            have : p.2 = v := by simpa using h2
            rw [← this]
          · simp at h2
      · constructor
        · rintro (h2 | ⟨_, h2 | ⟨h2, _⟩⟩)
          · cases h2
          · exact absurd (congrArg Prod.fst h2).symm hk
          · right
            exact ⟨by simp [hk], h2⟩
        · rintro (h2 | ⟨_, h2⟩)
          · simp [hk] at h2
          · right
            exact ⟨rfl, Or.inr ⟨h2, fun h3 => hk h3.symm⟩⟩

/-- C18: on a reachable dictionary, `update` with a finite sequence of pairs succeeds (for
every recursion bound of at least one); afterwards every key of the sequence is stored, the
key at an index that is the last one holding it is bound to the value at that index, and a key
that does not occur in the sequence has the membership and the `at` result it had before. In
particular `update` with `("a", "1"), ("a", "2")` leaves `"a"` bound to `"2"`. -/
theorem C18_dictionary_update (hash : String → Nat) (d : HashMap String String)
    (h : Reachable hash d) (l : List (String × String)) (depth : Nat) :
    (∃ d1, Dictionary_update hash (depth + 1) l d = .ok d1 ∧
      (∀ k, k ∈ l.map Prod.fst → contains_key hash d1 k = true) ∧
      (∀ (i : Nat) (hi : i < l.length),
        (∀ (j : Nat) (hj : j < l.length), i < j → l[j].1 ≠ l[i].1) →
        at_ hash d1 l[i].1 = .ok l[i].2) ∧
      (∀ k, k ∉ l.map Prod.fst →
        contains_key hash d1 k = contains_key hash d k ∧ at_ hash d1 k = at_ hash d k)) ∧
    (∃ d2, Dictionary_update hash (depth + 1) [("a", "1"), ("a", "2")] d = .ok d2 ∧
      at_ hash d2 "a" = .ok "2") := by
  have hw := h.wf
  refine ⟨?_, ?_⟩
  · obtain ⟨d1, hr, h1, hs⟩ := update_spec depth l d hw
    refine ⟨d1, hr, ?_, ?_, ?_⟩
    · intro k hk
      cases hx : last_value l k with
      | none => exact absurd hk ((last_value_eq_none_iff k l).1 hx)
      | some v => exact (h1.inv.contains_key_iff k).2 ⟨v, (hs k v).2 (Or.inl hx)⟩
    · intro i hi hlast
      exact h1.inv.at_of_mem ((hs _ _).2 (Or.inl (last_value_last l i hi hlast)))
    · intro k hk
      have hnone := (last_value_eq_none_iff k l).2 hk
      apply same_lookup hw.inv h1.inv
      intro v
      rw [hs k v, hnone]
      simp
  · obtain ⟨d2, hr, h2, hs⟩ := update_spec depth [("a", "1"), ("a", "2")] d hw
    exact ⟨d2, hr, h2.inv.at_of_mem ((hs "a" "2").2 (Or.inl (by decide)))⟩

/-- C18 on the dictionary `demo_dict`, where `"a"` is bound to `"2"` and `"b"` to `"3"`, and
the sequence `("b", "x"), ("c", "y"), ("b", "z")`. -/
theorem C18_dictionary_update_witness :
    (∃ d1, Dictionary_update demo_string_hash 1 [("b", "x"), ("c", "y"), ("b", "z")] demo_dict =
        .ok d1 ∧
      (∀ k, k ∈ [("b", "x"), ("c", "y"), ("b", "z")].map Prod.fst →
        contains_key demo_string_hash d1 k = true) ∧
      (∀ (i : Nat) (hi : i < [("b", "x"), ("c", "y"), ("b", "z")].length),
        (∀ (j : Nat) (hj : j < [("b", "x"), ("c", "y"), ("b", "z")].length), i < j →
          [("b", "x"), ("c", "y"), ("b", "z")][j].1 ≠ [("b", "x"), ("c", "y"), ("b", "z")][i].1) →
        at_ demo_string_hash d1 [("b", "x"), ("c", "y"), ("b", "z")][i].1 =
          .ok [("b", "x"), ("c", "y"), ("b", "z")][i].2) ∧
      (∀ k, k ∉ [("b", "x"), ("c", "y"), ("b", "z")].map Prod.fst →
        contains_key demo_string_hash d1 k = contains_key demo_string_hash demo_dict k ∧
          at_ demo_string_hash d1 k = at_ demo_string_hash demo_dict k)) ∧
    (∃ d2, Dictionary_update demo_string_hash 1 [("a", "1"), ("a", "2")] demo_dict = .ok d2 ∧
      at_ demo_string_hash d2 "a" = .ok "2") :=
  C18_dictionary_update demo_string_hash demo_dict reachable_demo_dict
    [("b", "x"), ("c", "y"), ("b", "z")] 0

/-- One round of the rehash loop on a table that has room for the pairs: the pair is accepted,
the table does not grow, and the rest of the loop is in the same situation. -/
theorem replay_step {hash : K → Nat} (depth : Nat) {p : K × V} {rest : List (K × V)}
    {t : HashMap K V} (h : Inv hash t) (hn : ((p :: rest).map Prod.fst).Nodup)
    (hk : ∀ q ∈ p :: rest, contains_key hash t q.1 = false)
    (hl : 4 * (t.num_of_elem + ((p :: rest).length : Int)) ≤ 3 * (t.capacity : Int)) :
    insert hash depth t p.1 p.2 = .ok (true, inserted hash t p.1 p.2) ∧
      Inv hash (inserted hash t p.1 p.2) ∧
      (∀ q ∈ rest, contains_key hash (inserted hash t p.1 p.2) q.1 = false) ∧
      4 * ((inserted hash t p.1 p.2).num_of_elem + (rest.length : Int)) ≤
        3 * ((inserted hash t p.1 p.2).capacity : Int) := by
  rw [List.map_cons, List.nodup_cons] at hn
  simp only [List.length_cons] at hl
  push_cast at hl
  have hkp : contains_key hash t p.1 = false := hk p (List.mem_cons_self _ _)
  have hload : load_above_upper (inserted hash t p.1 p.2) = false := by
    simp only [load_above_upper, inserted, decide_eq_false_iff_not, not_lt]
    omega
  have hI := inv_inserted h p.2 hkp
  have hperm := all_pairs_inserted h p.1 p.2
  refine ⟨insert_of_not_above p.2 depth hkp hload, hI, ?_, ?_⟩
  · intro q hq
    cases hx : contains_key hash (inserted hash t p.1 p.2) q.1 with
    | false => rfl
    | true =>
      exfalso
      rw [hI.contains_key_iff_keys, (hperm.map Prod.fst).mem_iff, List.map_cons,
        List.mem_cons] at hx
      rcases hx with hx | hx
      · exact hn.1 (hx ▸ List.mem_map.2 ⟨q, hq, rfl⟩)
      · rw [← h.contains_key_iff_keys, hk q (List.mem_cons_of_mem _ hq)] at hx
        cases hx
  · simp only [inserted]
    omega

/-- The rehash loop on a table that has room for the pairs appends every pair to the bucket
of its key, in the order of the loop. -/
theorem replay_buckets {hash : K → Nat} (depth : Nat) :
    ∀ (l : List (K × V)) (t : HashMap K V), Inv hash t → (l.map Prod.fst).Nodup →
      (∀ p ∈ l, contains_key hash t p.1 = false) →
      4 * (t.num_of_elem + (l.length : Int)) ≤ 3 * (t.capacity : Int) →
      ∃ t1, replay (insert hash depth) l t = .ok t1 ∧ t1.capacity = t.capacity ∧
        t1.hashmap.length = t.hashmap.length ∧
        t1.num_of_elem = t.num_of_elem + (l.length : Int) ∧
        ∀ i, bucket_at t1 i =
          bucket_at t i ++ l.filter (fun p => decide (hash_func hash t p.1 = i))
  | [], t, _, _, _, _ => ⟨t, rfl, rfl, rfl, by simp, by simp⟩
  | p :: rest, t, h, hn, hk, hl => by
    obtain ⟨hi, hI, hk1, hl1⟩ := replay_step depth h hn hk hl
    rw [List.map_cons, List.nodup_cons] at hn
    obtain ⟨t1, hr, hc, hlen, hnum, hb⟩ :=
      replay_buckets depth rest (inserted hash t p.1 p.2) hI hn.2 hk1 hl1
    have hlt : hash_func hash t p.1 < t.hashmap.length := by
      rw [h.len]
      exact hash_func_lt h.cap_pos p.1
    refine ⟨t1, by rw [replay, hi]; exact hr, hc, ?_, ?_, ?_⟩
    · rw [hlen]
      simp [inserted, push_back]
    · rw [hnum]
      simp only [inserted, List.length_cons]
      push_cast
      omega
    · intro i
      rw [hb i, bucket_at_inserted p.1 p.2 i hlt]
      have hf : ∀ q : K × V, hash_func hash (inserted hash t p.1 p.2) q.1 = hash_func hash t q.1 :=
        fun _ => rfl
      simp only [hf]
      by_cases hip : hash_func hash t p.1 = i
      · rw [if_pos hip.symm, List.filter_cons_of_pos (by simpa using hip)]
        simp
      · rw [if_neg (fun hx => hip hx.symm), List.filter_cons_of_neg (by simpa using hip)]

theorem filter_flatMap_range {α : Type} (f : Nat → List α) (P : α → Bool) (i : Nat)
    (hP : ∀ j x, x ∈ f j → (P x = true ↔ j = i)) :
    ∀ n, ((List.range n).flatMap f).filter P = if i < n then f i else []
  | 0 => by simp
  | n + 1 => by
    rw [List.range_succ, List.flatMap_append, List.filter_append, filter_flatMap_range f P i hP n]
    simp only [List.flatMap_cons, List.flatMap_nil, List.append_nil]
    by_cases hn : n = i
    · subst hn
      have : (f n).filter P = f n :=
        List.filter_eq_self.2 (fun x hx => (hP n x hx).2 rfl)
      simp [this]
    · have : (f n).filter P = [] :=
        List.filter_eq_nil_iff.2 (fun x hx hpx => hn ((hP n x hx).1 hpx))
      rw [this, List.append_nil]
      by_cases hlt : i < n
      · rw [if_pos hlt, if_pos (by omega)]
      · rw [if_neg hlt, if_neg (by omega)]

theorem ext_getD {α : Type} {l1 l2 : List (List α)} (hlen : l1.length = l2.length)
    (h : ∀ i, l1.getD i [] = l2.getD i []) : l1 = l2 := by
  apply List.ext_getElem hlen
  intro i h1 h2
  have := h i
  rw [List.getD_eq_getElem _ _ h1, List.getD_eq_getElem _ _ h2] at this
  exact this

/-- The copy constructor on a table satisfying the invariant of reachable tables returns the
copied table itself, bucket by bucket. -/
theorem copy_eq {hash : K → Nat} (depth : Nat) {t : HashMap K V} (hw : WF hash t) :
    copy hash depth t = .ok t := by
  have hI := hw.inv
  obtain ⟨t1, hr, hc, hlen, hnum, hb⟩ := replay_buckets depth (all_pairs t)
    (fresh t.capacity) (inv_fresh hI.cap_pos) hI.nodup (fun p _ => contains_key_fresh _ _)
    (by
      rw [← hI.count]
      simpa [fresh] using hw.load)
  have hbucket : ∀ i, bucket_at t1 i = bucket_at t i := by
    intro i
    have hf : (fun q : K × V =>
        decide (hash_func hash (fresh t.capacity : HashMap K V) q.1 = i)) =
        (fun q : K × V => decide (hash_func hash t q.1 = i)) := rfl
    rw [hb i, bucket_at_fresh, List.nil_append, hf]
    unfold all_pairs
    rw [filter_flatMap_range (bucket_at t) _ i (fun j x hx => by
      rw [decide_eq_true_iff, hI.placed j x hx]) t.capacity]
    by_cases hlt : i < t.capacity
    · rw [if_pos hlt]
    · rw [if_neg hlt]
      unfold bucket_at
      rw [List.getD_eq_default _ _ (by rw [hI.len]; omega)]
  have hmap : t1.hashmap = t.hashmap :=
    ext_getD (by rw [hlen, hI.len]; simp [fresh]) hbucket
  have hn : t1.num_of_elem = t.num_of_elem := by
    rw [hnum, hI.count]
    simp [fresh]
  have hcap : t1.capacity = t.capacity := hc
  unfold copy
  rw [hr]
  cases t1 with
  | mk hm1 c1 n1 =>
    cases t with
    | mk hm c n =>
      simp only at hmap hn hcap
      rw [hmap, hn, hcap]

/-- C19: on a reachable table the copy constructor succeeds for every recursion bound (with
bound zero no `insert` may grow the table) and builds the state that `operator=` builds, which
is the copied table itself: same capacity, same size and the same sequence of pairs in every
bucket. Every `insert` of the loop is accepted and leaves the capacity as it is, and the copy
compares equal to the original. -/
theorem C19_copy_constructor [DecidableEq V] (hash : K → Nat) (t : HashMap K V)
    (h : Reachable hash t) (depth : Nat) :
    copy hash depth t = .ok (operator_assign t) ∧
    (∃ t1, copy hash depth t = .ok t1 ∧ t1.capacity = t.capacity ∧ size t1 = size t ∧
      (∀ i, bucket_at t1 i = bucket_at t i) ∧ t1.hashmap = t.hashmap ∧
      operator_eq hash t1 t = .ok true) ∧
    (∀ (pre post : List (K × V)) (p : K × V), all_pairs t = pre ++ p :: post →
      ∃ tm, replay (insert hash depth) pre (fresh t.capacity) = .ok tm ∧
        insert hash depth tm p.1 p.2 = .ok (true, inserted hash tm p.1 p.2) ∧
        (inserted hash tm p.1 p.2).capacity = t.capacity) := by
  have hw := h.wf
  have hI := hw.inv
  have hcopy := copy_eq depth hw
  refine ⟨by rw [operator_assign_eq hI.len]; exact hcopy, ⟨t, hcopy, rfl, rfl, fun _ => rfl, rfl, ?_⟩,
    ?_⟩
  · obtain ⟨r, hr, hiff⟩ := operator_eq_loop_spec hash t (all_pairs t)
    have htrue : r = true := hiff.2 (fun p hp =>
      ⟨(hI.contains_key_iff p.1).2 ⟨p.2, hp⟩, hI.at_of_mem hp⟩)
    unfold operator_eq
    rw [if_neg (by simp [size]), hr, htrue]
  · intro pre post p hsplit
    have hn := hI.nodup
    rw [hsplit, List.map_append, List.map_cons] at hn
    have hlen : ((all_pairs t).length : Int) = (pre.length : Int) + 1 + (post.length : Int) := by
      rw [hsplit]
      simp only [List.length_append, List.length_cons]
      push_cast
      omega
    have hload := hw.load
    rw [hI.count, hlen] at hload
    obtain ⟨tm, hr, hIm, hcm, hpm⟩ := replay_spec depth pre (fresh t.capacity)
      (inv_fresh hI.cap_pos) (List.nodup_append.1 hn).1 (fun q _ => contains_key_fresh _ _)
      (by
        simp only [fresh]
        omega)
    rw [all_pairs_fresh, List.append_nil] at hpm
    have hkp : contains_key hash tm p.1 = false := by
      cases hx : contains_key hash tm p.1 with
      | false => rfl
      | true =>
        exfalso
        rw [hIm.contains_key_iff_keys, (hpm.map Prod.fst).mem_iff] at hx
        exact (List.nodup_append.1 hn).2.2 hx (List.mem_cons_self _ _)
    have hnm : tm.num_of_elem = (pre.length : Int) := by
      rw [hIm.count, hpm.length_eq]
    have hab : load_above_upper (inserted hash tm p.1 p.2) = false := by
      simp only [load_above_upper, inserted, decide_eq_false_iff_not, not_lt]
      rw [hnm, hcm]
      simp only [fresh]
      omega
    exact ⟨tm, hr, insert_of_not_above p.2 depth hkp hab, hcm⟩

/-- C19 on the table of eight pairs at capacity 32, with recursion bound zero. -/
theorem C19_copy_constructor_witness :
    copy demo_hash 0 demo_eight = .ok (operator_assign demo_eight) ∧
    (∃ t1, copy demo_hash 0 demo_eight = .ok t1 ∧ t1.capacity = demo_eight.capacity ∧
      size t1 = size demo_eight ∧
      (∀ i, bucket_at t1 i = bucket_at demo_eight i) ∧ t1.hashmap = demo_eight.hashmap ∧
      operator_eq demo_hash t1 demo_eight = .ok true) ∧
    (∀ (pre post : List (Nat × Nat)) (p : Nat × Nat),
      all_pairs demo_eight = pre ++ p :: post →
      ∃ tm, replay (insert demo_hash 0) pre (fresh demo_eight.capacity) = .ok tm ∧
        insert demo_hash 0 tm p.1 p.2 = .ok (true, inserted demo_hash tm p.1 p.2) ∧
        (inserted demo_hash tm p.1 p.2).capacity = demo_eight.capacity) :=
  C19_copy_constructor demo_hash demo_eight reachable_demo_eight 0

end Claims
